import Mathlib

/-!
# Notification delivery core: Hub, dispatch queue and push handler

A shallow embedding of
* `backend/internal/infrastructure/websocket/hub.go` (the connection registry),
* `backend/internal/infrastructure/websocket/handler.go` (constants, pump behaviour),
* `backend/internal/infrastructure/jobs/queue.go` (queue producer and worker loop),
* `backend/internal/core/services/notification_service.go` (`dispatchPush`),
* `backend/cmd/api/main.go` (the handler registered for push jobs),

followed by theorems about them.

Modelling conventions
* A `*Client` is an address (`ClientRef`); the objects live in a heap
  `ClientRef → Client`. Pointer comparison `existing != c` is comparison of
  addresses.
* A Go channel is its buffer, its capacity and its closed flag. `close` on a
  closed channel and a send on a closed channel are run-time panics.
* A Go map is an association list read through `get`; `set` and `delete`
  keep at most one binding per key.
* A method that can panic returns an `Outcome`: the state at the moment the
  method returned or panicked (deferred unlocks have run) and a flag.
-/

namespace WS

/-! ## Data model (hub.go) -/

/-- The value of a `uuid.UUID`. -/
abbrev UUID := Nat

/-- The address of a `Client` object (`*Client`). -/
abbrev ClientRef := Nat

/-- A `[]byte` payload. -/
abbrev Bytes := List Nat

/-- Size of a client's send buffer (`sendBufSize`, handler.go:29). -/
def sendBufSize : Nat := 32

/-- State of a `chan []byte`: pending messages (oldest first), capacity, closed flag. -/
structure Chan where
  buf : List Bytes
  cap : Nat
  closed : Bool
deriving DecidableEq, Repr

/-- The channel `make(chan []byte, sendBufSize)` of handler.go:99. -/
def Chan.make (n : Nat) : Chan := ⟨[], n, false⟩

/-- The builtin `close(ch)`: `none` is the panic "close of closed channel". -/
def Chan.close (ch : Chan) : Option Chan :=
  if ch.closed then none else some { ch with closed := true }

/-- Result of `select { case ch <- m: default: }`. -/
inductive TrySend where
  | sent (ch : Chan)
  | dropped
  | panic
deriving DecidableEq, Repr

/-- The non-blocking send of hub.go:102-108 on a buffered channel. A send on
a closed channel panics; a send on a channel with room enqueues at the back
(a waiting receiver takes from the front); otherwise the `default` branch
runs. -/
def Chan.trySend (ch : Chan) (m : Bytes) : TrySend :=
  if ch.closed then .panic
  else if ch.buf.length < ch.cap then .sent { ch with buf := ch.buf ++ [m] }
  else .dropped

/-- Receive `message, ok := <-ch` when it does not block: the front of the
buffer, or `ok = false` (here `none`) on a closed and drained channel. -/
def Chan.recv (ch : Chan) : Option (Option Bytes × Chan) :=
  match ch.buf with
  | m :: rest => some (some m, { ch with buf := rest })
  | [] => if ch.closed then some (none, ch) else none

/-- The struct `Client` (hub.go:15-18). The channel state is stored with the
client: every client is created with a channel of its own (handler.go:97-100). -/
structure Client where
  UserID : UUID
  Send : Chan
deriving DecidableEq, Repr

/-- The type `map[uuid.UUID][]*Client`. -/
abbrev ClientMap := List (UUID × List ClientRef)

/-- Lookup `clients, ok := m[k]`. -/
def ClientMap.get : ClientMap → UUID → Option (List ClientRef)
  | [], _ => none
  | (k, v) :: rest, u => if k = u then some v else ClientMap.get rest u

/-- The expression `m[k]`: the zero value (nil slice) for an absent key. -/
def ClientMap.index (m : ClientMap) (u : UUID) : List ClientRef :=
  (m.get u).getD []

/-- The statement `delete(m, k)`. -/
def ClientMap.delete (m : ClientMap) (u : UUID) : ClientMap :=
  m.filter (fun e => decide (e.1 ≠ u))

/-- The statement `m[k] = v`. -/
def ClientMap.set (m : ClientMap) (u : UUID) (v : List ClientRef) : ClientMap :=
  (u, v) :: m.delete u

/-- The struct `Hub` (hub.go:24-28); the mutex and the logger carry no data. -/
structure Hub where
  clients : ClientMap
deriving DecidableEq, Repr

/-- The constructor `NewHub` (hub.go:31-36). -/
def NewHub : Hub := ⟨[]⟩

/-- The memory the Hub methods act on: the Hub and the client objects. -/
structure Mem where
  hub : Hub
  client : ClientRef → Client

/-- Store a new channel state in `c.Send`. -/
def Mem.setSend (s : Mem) (c : ClientRef) (ch : Chan) : Mem :=
  { s with client := fun r => if r = c then { s.client r with Send := ch } else s.client r }

/-- Replace the registry map. -/
def Mem.setClients (s : Mem) (m : ClientMap) : Mem :=
  { s with hub := ⟨m⟩ }

/-- State in which a method returned or panicked. -/
structure Outcome where
  state : Mem
  panicked : Bool

/-! ## Hub methods (hub.go) -/

/-- The method `Hub.Register` (hub.go:39-62). -/
def Hub.Register (s : Mem) (c : ClientRef) : Outcome :=
  let uid := (s.client c).UserID
  if 5 ≤ (s.hub.clients.index uid).length then
    match s.hub.clients.index uid with
    | [] => ⟨s, true⟩
    | oldest :: rest =>
      match (s.client oldest).Send.close with
      | none => ⟨s, true⟩
      | some ch =>
        let s1 := (s.setSend oldest ch).setClients (s.hub.clients.set uid rest)
        ⟨s1.setClients (s1.hub.clients.set uid (s1.hub.clients.index uid ++ [c])), false⟩
  else
    ⟨s.setClients (s.hub.clients.set uid (s.hub.clients.index uid ++ [c])), false⟩

/-- The method `Hub.Unregister` (hub.go:65-87). -/
def Hub.Unregister (s : Mem) (c : ClientRef) : Outcome :=
  let uid := (s.client c).UserID
  let clients := s.hub.clients.index uid
  let newClients := clients.filter (fun existing => decide (existing ≠ c))
  let s1 :=
    if newClients.length = 0 then s.setClients (s.hub.clients.delete uid)
    else s.setClients (s.hub.clients.set uid newClients)
  match (s1.client c).Send.close with
  | none => ⟨s1, true⟩
  | some ch => ⟨s1.setSend c ch, false⟩

/-- The loop `for _, c := range clients` of `SendToUser` (hub.go:100-109). -/
def Hub.sendLoop (s : Mem) (message : Bytes) : List ClientRef → Outcome
  | [] => ⟨s, false⟩
  | c :: rest =>
    match (s.client c).Send.trySend message with
    | .panic => ⟨s, true⟩
    | .dropped => Hub.sendLoop s message rest
    | .sent ch => Hub.sendLoop (s.setSend c ch) message rest

/-- The method `Hub.SendToUser` (hub.go:91-110). -/
def Hub.SendToUser (s : Mem) (userID : UUID) (message : Bytes) : Outcome :=
  match s.hub.clients.get userID with
  | none => ⟨s, false⟩
  | some clients => Hub.sendLoop s message clients

/-- The method `Hub.IsOnline` (hub.go:113-117). -/
def Hub.IsOnline (s : Mem) (userID : UUID) : Bool :=
  decide (0 < (s.hub.clients.index userID).length)

/-- The struct `HubStats` (hub.go:120-123). -/
structure HubStats where
  UniqueUsers : Nat
  TotalConns : Nat
deriving DecidableEq, Repr

/-- The method `Hub.Stats` (hub.go:126-137). -/
def Hub.Stats (s : Mem) : HubStats :=
  ⟨s.hub.clients.length, (s.hub.clients.map (fun e => e.2.length)).sum⟩

/-- One receive of `writePump` from `client.Send` (handler.go:121); a
receive that would block leaves the state as it is. -/
def writePumpRecv (s : Mem) (c : ClientRef) : Mem :=
  match (s.client c).Send.recv with
  | some (_, ch) => s.setSend c ch
  | none => s

/-! ## Call sequences -/

/-- A call on the Hub, or one receive of a writer pump. -/
inductive Op where
  | register (c : ClientRef)
  | unregister (c : ClientRef)
  | sendToUser (u : UUID) (m : Bytes)
  | recv (c : ClientRef)
deriving DecidableEq, Repr

/-- Run one call. -/
def Op.run (s : Mem) : Op → Outcome
  | .register c => Hub.Register s c
  | .unregister c => Hub.Unregister s c
  | .sendToUser u m => Hub.SendToUser s u m
  | .recv c => ⟨writePumpRecv s c, false⟩

/-- State after a sequence of calls; a panic that is recovered leaves the
state of the panicking call behind and the sequence goes on. -/
def exec (s : Mem) : List Op → Mem
  | [] => s
  | op :: rest => exec (op.run s).state rest

/-- The way handler.go uses the Hub: `Register` is called once on a client
that was just created (its channel is open and it is not in the registry,
handler.go:97-102), `Unregister` on a client that is in the registry. -/
def Op.allowed (s : Mem) : Op → Bool
  | .register c =>
    !(s.client c).Send.closed && decide (c ∉ s.hub.clients.index (s.client c).UserID)
  | .unregister c => decide (c ∈ s.hub.clients.index (s.client c).UserID)
  | .sendToUser _ _ => true
  | .recv _ => true

/-- Every call of the sequence is allowed in the state it is made in. -/
def allowedSeq (s : Mem) : List Op → Bool
  | [] => true
  | op :: rest => op.allowed s && allowedSeq (op.run s).state rest

/-- A state of the program: reached from the empty Hub by allowed calls. -/
def Reachable (s : Mem) : Prop :=
  ∃ (s0 : Mem) (ops : List Op), s0.hub = NewHub ∧ allowedSeq s0 ops = true ∧ exec s0 ops = s

/-- A memory with an empty Hub in which client `r` belongs to user `r / 10`
and has a fresh channel. -/
def demoMem : Mem := ⟨NewHub, fun r => ⟨r / 10, Chan.make sendBufSize⟩⟩

/-- No user has more than five connections. -/
def CapInv (s : Mem) : Prop := ∀ u, (s.hub.clients.index u).length ≤ 5

/-- The registry invariant: a connection is listed under its own user, listed
connections have an open queue, no list has a connection twice or is empty,
and the map has one binding per key. -/
structure RegInv (s : Mem) : Prop where
  owner : ∀ u l c, s.hub.clients.get u = some l → c ∈ l → (s.client c).UserID = u
  isOpen : ∀ u l c, s.hub.clients.get u = some l → c ∈ l → (s.client c).Send.closed = false
  nodup : ∀ u l, s.hub.clients.get u = some l → l.Nodup
  nonempty : ∀ u l, s.hub.clients.get u = some l → l ≠ []
  keys : (s.hub.clients.map Prod.fst).Nodup

/-- State after five clients of user 1 connected one after the other. -/
def demoFive : Mem :=
  exec demoMem [.register 10, .register 11, .register 12, .register 13, .register 14]

/-- State after two clients of user 1 and one client of user 2 connected. -/
def demoTwo : Mem :=
  exec demoMem [.register 10, .register 20, .register 11]

end WS

namespace Jobs

/-! ## Dispatch queue (queue.go) -/

/-- The type `JobType`. -/
abbrev JobType := String

/-- The constant `JobTypePush`. -/
def JobTypePush : JobType := "push"

/-- The constant `JobTypeEmail`. -/
def JobTypeEmail : JobType := "email"

/-- The constant `JobTypeTelegram`. -/
def JobTypeTelegram : JobType := "telegram"

/-- The constant `queueKey`. -/
def queueKey : String := "jobs:notifications"

/-- The constant `workerConcurrency`. -/
def workerConcurrency : Nat := 4

/-- A `map[string]interface{}` of JSON values: keys with the text of their value. -/
abbrev Metadata := List (String × String)

/-- The struct `NotificationJob` (queue.go:42-49); `Typ` is the field `Type`. -/
structure NotificationJob where
  Typ : JobType
  UserID : WS.UUID
  Title : String
  Message : String
  Metadata : Metadata
  Retries : Int
deriving DecidableEq, Repr

/-- The functions `json.Marshal` and `json.Unmarshal` on `NotificationJob`
(library code): `none` is a non-nil error. -/
structure Codec where
  marshal : NotificationJob → Option String
  unmarshal : String → Option NotificationJob

/-- Errors of a Redis command as the worker tells them apart (queue.go:153). -/
inductive RedisErr where
  | Nil
  | Canceled
  | DeadlineExceeded
  | other
deriving DecidableEq, Repr

/-- The Redis server as the queue sees it: the list stored at `queueKey`
(front first) and whether commands reach the server. -/
structure Redis where
  list : List String
  up : Bool
deriving DecidableEq, Repr

/-- The command `RPUSH queueKey data`: append at the back, or a network error. -/
def Redis.RPush (r : Redis) (data : String) : Redis × Option RedisErr :=
  if r.up then ({ r with list := r.list ++ [data] }, none) else (r, some .other)

/-- The command `BLPOP queueKey timeout` with no other client at work: the
front entry as `[key, value]`, `redis.Nil` after the timeout on an empty
list, or a network error. -/
def Redis.BLPop (r : Redis) : Redis × Except RedisErr (List String) :=
  if r.up then
    match r.list with
    | [] => (r, .error .Nil)
    | x :: rest => ({ r with list := rest }, .ok [queueKey, x])
  else (r, .error .other)

/-- The type `Handler` (queue.go:97). A Go handler has effects and may answer
differently each time it is called: the first argument is the number of
handler calls made before this one; `none` is a nil error. -/
abbrev Handler := Nat → NotificationJob → Option String

/-- The struct `Worker` (queue.go:100-104), for a non-nil Redis client. -/
structure Worker where
  handlers : JobType → Option Handler

/-- The constructor `NewWorker` (queue.go:107-116) for a non-nil client. -/
def NewWorker : Worker := ⟨fun _ => none⟩

/-- The method `Worker.Register` (queue.go:119-124). -/
def Worker.Register (w : Worker) (t : JobType) (h : Handler) : Worker :=
  ⟨fun k => if k = t then some h else w.handlers k⟩

/-- What one worker loop has done so far: the Redis state, the jobs handed
to a handler (oldest first) and the raw entries logged as dropped after the
last retry. -/
structure WState where
  rdb : Redis
  handled : List NotificationJob
  dropped : List String
deriving DecidableEq, Repr

/-- The body of the loop of `Worker.run` after a successful `BLPOP`
(queue.go:161-200), `results` being the reply. -/
def Worker.process (cd : Codec) (w : Worker) (st : WState) (results : List String) : WState :=
  match results with
  | _key :: raw :: _ =>
    match cd.unmarshal raw with
    | none => st
    | some job =>
      match w.handlers job.Typ with
      | none => st
      | some handler =>
        match handler st.handled.length job with
        | none => { st with handled := st.handled ++ [job] }
        | some _ =>
          if job.Retries < 3 then
            match cd.marshal { job with Retries := job.Retries + 1 } with
            | some data =>
              { st with rdb := (st.rdb.RPush data).1, handled := st.handled ++ [job] }
            | none => { st with handled := st.handled ++ [job] }
          else
            { st with handled := st.handled ++ [job], dropped := st.dropped ++ [raw] }
  | _ => st

/-- One iteration of the loop of `Worker.run` while the context is not
cancelled (queue.go:142-201). -/
def Worker.iter (cd : Codec) (w : Worker) (st : WState) : WState :=
  match st.rdb.BLPop with
  | (rdb, .error _) => { st with rdb := rdb }
  | (rdb, .ok results) => Worker.process cd w { st with rdb := rdb } results

/-- The method `Worker.run` for `n` iterations, after which the context is
cancelled (queue.go:138-202). -/
def Worker.run (cd : Codec) (w : Worker) : Nat → WState → WState
  | 0, st => st
  | n + 1, st => Worker.run cd w n (Worker.iter cd w st)

/-- A job with every field but `Retries` as in `j`. -/
def NotificationJob.withRetries (j : NotificationJob) (k : Int) : NotificationJob :=
  { j with Retries := k }

/-- A job as `SendPushNotification` builds it (notification_service.go:124-130). -/
def demoJob : NotificationJob := ⟨JobTypePush, 1, "Approved", "Task X approved", [], 0⟩

/-- A small codec for jobs that differ from `demoJob` in `Retries` only:
the entry is one letter `r` per retry; any other text does not decode. -/
def demoCodec : Codec where
  marshal j := some (String.mk (List.replicate j.Retries.toNat (Char.ofNat 114)))
  unmarshal d :=
    if d.data.all (fun c => decide (c = Char.ofNat 114)) then some (demoJob.withRetries d.length)
    else none

/-- A worker whose push handler fails every time. -/
def failingWorker : Worker := NewWorker.Register JobTypePush (fun _ _ => some "delivery failed")

end Jobs

namespace Services

/-! ## Push dispatch (notification_service.go, main.go) -/

/-- The struct `domain.PushSubscription` (fields used by `dispatchPush`). -/
structure PushSubscription where
  ID : WS.UUID
  Endpoint : String
  P256dh : String
  Auth : String
deriving DecidableEq, Repr

/-- What `dispatchPush` reads from outside the program: the VAPID keys of
the environment, the subscription query (`Except.error` is a database
error) and `webpush.SendNotification` (`Except.error` is its error,
`Except.ok` the status code of the response). -/
structure PushEnv where
  vapidPublicKey : String
  vapidPrivateKey : String
  find : WS.UUID → Except String (List PushSubscription)
  send : String → String → Jobs.Metadata → PushSubscription → Except String Nat

/-- What `dispatchPush` did, in order. -/
inductive PushEvent where
  | skippedNoKeys
  | lookupFailed (err : String)
  | sendFailed (sub : WS.UUID) (err : String)
  | sent (sub : WS.UUID) (status : Nat)
  | removed (sub : WS.UUID)
deriving DecidableEq, Repr

/-- The loop over the subscriptions in `dispatchPush`
(notification_service.go:175-203). -/
def sendAll (env : PushEnv) (title message : String) (metadata : Jobs.Metadata) :
    List PushSubscription → List PushEvent
  | [] => []
  | sub :: rest =>
    match env.send title message metadata sub with
    | .error err => .sendFailed sub.ID err :: sendAll env title message metadata rest
    | .ok status =>
      if status = 410 ∨ status = 404 then
        .sent sub.ID status :: .removed sub.ID :: sendAll env title message metadata rest
      else
        .sent sub.ID status :: sendAll env title message metadata rest

/-- The method `NotificationService.dispatchPush`
(notification_service.go:144-204). It has no result; the value is the trace
of what it did. -/
def dispatchPush (env : PushEnv) (userID : WS.UUID) (title message : String)
    (metadata : Jobs.Metadata) : List PushEvent :=
  if env.vapidPublicKey = "" ∨ env.vapidPrivateKey = "" then [.skippedNoKeys]
  else
    match env.find userID with
    | .error err => [.lookupFailed err]
    | .ok subscriptions =>
      if subscriptions.length = 0 then []
      else sendAll env title message metadata subscriptions

/-- The method `NotificationService.DispatchPushJob`
(notification_service.go:212-214). -/
def DispatchPushJob (env : PushEnv) (job : Jobs.NotificationJob) : List PushEvent :=
  dispatchPush env job.UserID job.Title job.Message job.Metadata

/-- The handler that `main` registers for `JobTypePush` (main.go:138-141):
it calls `DispatchPushJob` and returns nil. The pair is (trace, error). -/
def pushJobHandler (env : PushEnv) (job : Jobs.NotificationJob) : List PushEvent × Option String :=
  (DispatchPushJob env job, none)

/-- The worker as `main` sets it up (main.go:127, 138-141); `env n` is the
outside world at the handler call number `n`. -/
def mainWorker (env : Nat → PushEnv) : Jobs.Worker :=
  Jobs.NewWorker.Register Jobs.JobTypePush (fun n job => (pushJobHandler (env n) job).2)

/-- The external delivery failed: the subscription lookup failed or a send
returned an error or a status that is not 2xx. -/
def deliveryFailed (trace : List PushEvent) : Bool :=
  trace.any fun e =>
    match e with
    | .lookupFailed _ => true
    | .sendFailed _ _ => true
    | .sent _ status => decide (status < 200 ∨ 300 ≤ status)
    | _ => false

/-- An outside world with VAPID keys in which the subscription lookup fails. -/
def lookupDown : PushEnv :=
  ⟨"pub", "priv", fun _ => .error "connection refused", fun _ _ _ _ => .ok 201⟩

/-- An outside world with one subscription whose push provider is unreachable. -/
def providerDown : PushEnv :=
  ⟨"pub", "priv", fun _ => .ok [⟨7, "https://push.example/7", "k", "a"⟩],
    fun _ _ _ _ => .error "dial tcp: i/o timeout"⟩

end Services

namespace Jobs

/-! ## Queue producer (queue.go) -/

/-- A non-nil `*infraredis.Client`: the address it is connected to. -/
structure RedisClient where
  addr : String
deriving DecidableEq, Repr

/-- The struct `Queue` (queue.go:56-59); a `*Queue` is an `Option Queue`,
`none` being the nil pointer. -/
structure Queue where
  rdb : RedisClient
deriving DecidableEq, Repr

/-- The constructor `NewQueue` (queue.go:62-67). -/
def NewQueue (rdb : Option RedisClient) : Option Queue :=
  match rdb with
  | none => none
  | some c => some ⟨c⟩

/-- The error result of `Enqueue`: the error of `json.Marshal` or the error
of `RPush`. -/
inductive EnqueueErr where
  | marshal
  | redis (e : RedisErr)
deriving DecidableEq, Repr

/-- The method `Queue.Enqueue` (queue.go:72-92) on the Redis state `r`: the
state after the call, `enqueued` and `err`. -/
def Queue.Enqueue (cd : Codec) (q : Option Queue) (r : Redis) (job : NotificationJob) :
    Redis × Bool × Option EnqueueErr :=
  match q with
  | none => (r, false, none)
  | some _ =>
    match cd.marshal job with
    | none => (r, false, some .marshal)
    | some data =>
      match r.RPush data with
      | (r2, some e) => (r2, false, some (.redis e))
      | (r2, none) => (r2, true, none)

end Jobs

namespace InfraRedis

/-! ## Cross-instance broker (pubsub.go) -/

/-- The function `notifyChannel` (pubsub.go:15-17); `text` is `uuid.UUID.String`
(library code), the canonical text of a user id. -/
def notifyChannel (text : WS.UUID → String) (userID : WS.UUID) : String :=
  "notify:" ++ text userID

/-- The struct `NotificationEvent` (pubsub.go:23-26). -/
structure NotificationEvent where
  UserID : String
  Payload : WS.Bytes
deriving DecidableEq, Repr

/-- The functions `json.Marshal` and `json.Unmarshal` on `NotificationEvent`
(library code): `none` is a non-nil error. -/
structure EventCodec where
  marshal : NotificationEvent → Option String
  unmarshal : String → Option NotificationEvent

/-- A subscription on the bus: its channel and the messages delivered to it
that its reader has not taken yet (oldest first). -/
structure Subscription where
  channel : String
  inbox : List String
deriving DecidableEq, Repr

/-- The Redis server as the broker sees it: the open subscriptions and
whether commands reach the server. -/
structure Bus where
  subs : List Subscription
  up : Bool
deriving DecidableEq, Repr

/-- The command `PUBLISH channel msg`: the message goes to every subscription
of that channel, or a network error. -/
def Bus.publish (bus : Bus) (channel msg : String) : Bus × Option Jobs.RedisErr :=
  if bus.up then
    ({ bus with subs := bus.subs.map fun s =>
        if s.channel = channel then { s with inbox := s.inbox ++ [msg] } else s }, none)
  else (bus, some .other)

/-- The command `SUBSCRIBE channel`: a new subscription, the last of the list. -/
def Bus.subscribe (bus : Bus) (channel : String) : Bus :=
  { bus with subs := bus.subs ++ [⟨channel, []⟩] }

/-- The struct `Broker` (pubsub.go:35-38); a `*Broker` is an `Option Broker`. -/
structure Broker where
  redis : Jobs.RedisClient
deriving DecidableEq, Repr

/-- The constructor `NewBroker` (pubsub.go:41-46). -/
def NewBroker (rdb : Option Jobs.RedisClient) : Option Broker :=
  match rdb with
  | none => none
  | some c => some ⟨c⟩

/-- The error result of `Publish`. -/
inductive PublishErr where
  | marshal
  | redis (e : Jobs.RedisErr)
deriving DecidableEq, Repr

/-- The method `Broker.Publish` (pubsub.go:50-70): the bus after the call and
the error returned. -/
def Broker.Publish (text : WS.UUID → String) (ec : EventCodec) (b : Option Broker) (bus : Bus)
    (userID : WS.UUID) (payload : WS.Bytes) : Bus × Option PublishErr :=
  match b with
  | none => (bus, none)
  | some _ =>
    match ec.marshal ⟨text userID, payload⟩ with
    | none => (bus, some .marshal)
    | some msg =>
      match bus.publish (notifyChannel text userID) msg with
      | (bus2, some e) => (bus2, some (.redis e))
      | (bus2, none) => (bus2, none)

/-- The loop of the goroutine of `SubscribeUser` (pubsub.go:90-106) on the
messages it receives before the context is cancelled or the channel is
closed: the arguments of its calls of `onMessage`, in order. -/
def subscriptionLoop (ec : EventCodec) : List String → List WS.Bytes
  | [] => []
  | msg :: rest =>
    match ec.unmarshal msg with
    | none => subscriptionLoop ec rest
    | some evt => evt.Payload :: subscriptionLoop ec rest

/-- The method `Broker.SubscribeUser` (pubsub.go:78-108) up to the start of
the goroutine: the bus with the new subscription; the goroutine then runs
`subscriptionLoop` on what the subscription receives. -/
def Broker.SubscribeUser (text : WS.UUID → String) (b : Option Broker) (bus : Bus)
    (userID : WS.UUID) : Bus :=
  match b with
  | none => bus
  | some _ => bus.subscribe (notifyChannel text userID)

/-- A text for user ids that tells them apart: one letter per unit. -/
def demoText (u : WS.UUID) : String := String.mk (List.replicate u (Char.ofNat 117))

/-- A small event codec: the message is the payload as letters, the user id
is not kept apart from the one of user 1. -/
def demoEventCodec : EventCodec where
  marshal evt := some (String.mk (evt.Payload.map Char.ofNat))
  unmarshal msg := some ⟨demoText 1, msg.data.map Char.toNat⟩

end InfraRedis

namespace Services

/-! ## Notification service (notification_service.go) -/

/-- The struct `domain.Notification` (domain/notification.go); `Typ` is the
field `Type`, `Metadata` the `json.RawMessage`, `CreatedAt` a time stamp. -/
structure Notification where
  ID : WS.UUID
  UserID : WS.UUID
  Title : String
  Message : String
  Typ : String
  IsRead : Bool
  Metadata : WS.Bytes
  CreatedAt : Nat
deriving DecidableEq, Repr

/-- The struct `NotificationService` (notification_service.go:25-32): whether
`Hub` is a non-nil broadcaster, the broker and the queue (`none` is nil). -/
structure NotificationService where
  Hub : Bool
  Broker : Option InfraRedis.Broker
  Queue : Option Jobs.Queue
deriving DecidableEq, Repr

/-- What `SaveNotification` reads from outside the program: `uuid.New()`,
`time.Now()`, the JSON text of the metadata (lines 74-77: nil for a nil map
or a failed `json.Marshal`), `s.DB.Create(&notif)` (`Except.error` is its
error, `Except.ok` the record as the call leaves it), `json.Marshal` of
the record (`none` is an error) and the error that `s.Broker.Publish`
returns (`none` is nil). -/
structure SaveEnv where
  newID : WS.UUID
  now : Nat
  metaJSON : Jobs.Metadata → WS.Bytes
  create : Notification → Except String Notification
  marshal : Notification → Option WS.Bytes
  publish : WS.UUID → WS.Bytes → Option String

/-- A call that a method of the service makes to a collaborator. -/
inductive Effect where
  | dbCreate (notif : Notification) (err : Option String)
  | hubSendToUser (userID : WS.UUID) (payload : WS.Bytes)
  | brokerPublish (userID : WS.UUID) (payload : WS.Bytes)
  | enqueue (job : Jobs.NotificationJob)
  | goDispatchPush (userID : WS.UUID) (title message : String) (metadata : Jobs.Metadata)
deriving DecidableEq, Repr

/-- What a call of a method leaves behind: the calls it made to its
collaborators, in order, and the value it returned to its caller. -/
structure Call (ρ : Type) where
  effects : List Effect
  result : ρ
deriving DecidableEq, Repr

/-- The method `NotificationService.SaveNotification`
(notification_service.go:73-106). It has no result. A failed insert is
logged (the effect `dbCreate` with the error) and the method returns; the
error of `Publish` is discarded (`_ = s.Broker.Publish(...)`). -/
def SaveNotification (s : NotificationService) (env : SaveEnv) (userID : WS.UUID)
    (title message notifType : String) (metadata : Jobs.Metadata) : Call Unit :=
  let notif : Notification :=
    ⟨env.newID, userID, title, message, notifType, false, env.metaJSON metadata, env.now⟩
  match env.create notif with
  | .error err => ⟨[.dbCreate notif (some err)], ()⟩
  | .ok stored =>
    let payload := (env.marshal stored).getD []
    let _ := env.publish userID payload
    ⟨[.dbCreate notif none]
      ++ (if s.Hub then [.hubSendToUser userID payload] else [])
      ++ (if s.Broker.isSome then [.brokerPublish userID payload] else []), ()⟩

/-- The notification type that `SendPushNotification` derives from the title
(notification_service.go:111-118). -/
def notifTypeOf (title : String) : String :=
  if title = "Duyệt công việc" ∨ title = "Đã duyệt Checkout" then "success"
  else if title = "Từ chối việc" ∨ title = "Từ chối Checkout" then "error"
  else if title = "Phân công dự án" ∨ title = "Nộp dữ liệu mới" then "warning"
  else "info"

/-- The method `NotificationService.SendPushNotification`
(notification_service.go:109-139) on the Redis state `r` of the queue: the
state after the call and what the call did. It has no result. -/
def SendPushNotification (s : NotificationService) (env : SaveEnv) (cd : Jobs.Codec)
    (r : Jobs.Redis) (userID : WS.UUID) (title message : String) (metadata : Jobs.Metadata) :
    Jobs.Redis × Call Unit :=
  let saved := SaveNotification s env userID title message (notifTypeOf title) metadata
  let job : Jobs.NotificationJob :=
    { Typ := Jobs.JobTypePush, UserID := userID, Title := title, Message := message,
      Metadata := metadata, Retries := 0 }
  match Jobs.Queue.Enqueue cd s.Queue r job with
  | (r2, _, some _) =>
    (r2, ⟨saved.effects ++ [.enqueue job, .goDispatchPush userID title message metadata], ()⟩)
  | (r2, enqueued, none) =>
    if !enqueued then
      (r2, ⟨saved.effects ++ [.enqueue job, .goDispatchPush userID title message metadata], ()⟩)
    else (r2, ⟨saved.effects ++ [.enqueue job], ()⟩)

/-- The `go s.dispatchPush(...)` calls among the effects. -/
def dispatches (effects : List Effect) : List Effect :=
  effects.filter fun e =>
    match e with
    | .goDispatchPush _ _ _ _ => true
    | _ => false

/-- The jobs handed to `Enqueue` among the effects. -/
def enqueuedJobs : List Effect → List Jobs.NotificationJob
  | [] => []
  | .enqueue job :: rest => job :: enqueuedJobs rest
  | _ :: rest => enqueuedJobs rest

/-- The calls of `Hub.SendToUser` and `Broker.Publish` among the effects. -/
def fanOut (effects : List Effect) : List Effect :=
  effects.filter fun e =>
    match e with
    | .hubSendToUser _ _ => true
    | .brokerPublish _ _ => true
    | _ => false

/-- The inserts that succeeded among the effects. -/
def insertedRows : List Effect → List Notification
  | [] => []
  | .dbCreate notif none :: rest => notif :: insertedRows rest
  | _ :: rest => insertedRows rest

/-- A service with Hub, broker and queue, as `main` builds it when Redis is
configured (main.go:122-130). -/
def demoService : NotificationService :=
  ⟨true, InfraRedis.NewBroker (some ⟨"localhost:6379"⟩), Jobs.NewQueue (some ⟨"localhost:6379"⟩)⟩

/-- An outside world in which the insert succeeds and leaves the record as it is. -/
def dbUp : SaveEnv :=
  ⟨42, 1000, fun _ => [], fun n => .ok n, fun n => some [n.ID, n.UserID], fun _ _ => none⟩

/-- An outside world in which the insert fails. -/
def dbDown : SaveEnv :=
  ⟨42, 1000, fun _ => [], fun _ => .error "connection refused", fun n => some [n.ID, n.UserID],
    fun _ _ => none⟩

end Services

namespace WS

/-! ## Upgrade endpoint and timing constants (handler.go) -/

/-- One second as a `time.Duration` (nanoseconds). -/
def second : Nat := 1000000000

/-- The constant `writeWait` (handler.go:17). -/
def writeWait : Nat := 10 * second

/-- The constant `pongWait` (handler.go:20). -/
def pongWait : Nat := 60 * second

/-- The constant `pingPeriod` (handler.go:23). -/
def pingPeriod : Nat := (pongWait * 9) / 10

/-- The constant `maxMessageSize` (handler.go:26). -/
def maxMessageSize : Nat := 512

/-- Time of the `k`-th tick of `time.NewTicker(pingPeriod)`, counted from the
creation of the ticker (handler.go:113), when no tick is late. -/
def tickTime (k : Nat) : Nat := k * pingPeriod

/-- The value of an entry of `jwt.MapClaims`: a string or something else. -/
inductive ClaimValue where
  | str (s : String)
  | other
deriving DecidableEq, Repr

/-- The type `jwt.MapClaims`: `none` for a key that is absent. -/
abbrev MapClaims := String → Option ClaimValue

/-- What `ServeWS` reads from outside the Hub: `authService.VerifyToken`
(`Except.error` is its error), `uuid.Parse` (`none` is an error), whether
`upgrader.Upgrade` succeeds, and the address of the `Client` object that
handler.go:97 allocates. -/
structure ServeEnv where
  VerifyToken : String → Except String MapClaims
  parseUUID : String → Option UUID
  upgradeOk : Bool
  newClient : ClientRef

/-- A call or answer of `ServeWS` and of the code that wires connections. -/
inductive ServeEvent where
  | httpError (status : Nat) (body : String)
  | upgradeFailed
  | upgraded
  | register (c : ClientRef)
  | goWritePump (c : ClientRef)
  | goReadPump (c : ClientRef)
  | subscribeUser (userID : UUID)
deriving DecidableEq, Repr

/-- The constant `http.StatusUnauthorized`. -/
def StatusUnauthorized : Nat := 401

/-- What a call of `ServeWS` leaves behind. -/
structure Served where
  mem : Mem
  events : List ServeEvent
  panicked : Bool

/-- The object `&Client{UserID: userID, Send: make(chan []byte, sendBufSize)}`
stored at the address `c`. -/
def Mem.alloc (s : Mem) (c : ClientRef) (userID : UUID) : Mem :=
  { s with client := fun r => if r = c then ⟨userID, Chan.make sendBufSize⟩ else s.client r }

/-- The method `Handler.ServeWS` (handler.go:64-107) for a request whose query
parameter `token` is `token`. -/
def ServeWS (env : ServeEnv) (s : Mem) (token : String) : Served :=
  if token = "" then ⟨s, [.httpError StatusUnauthorized "missing token"], false⟩
  else
    match env.VerifyToken token with
    | .error _ => ⟨s, [.httpError StatusUnauthorized "invalid or expired token"], false⟩
    | .ok claims =>
      match claims "user_id" with
      | some (.str rawID) =>
        match env.parseUUID rawID with
        | none => ⟨s, [.httpError StatusUnauthorized "invalid user_id"], false⟩
        | some userID =>
          if env.upgradeOk then
            let r := Hub.Register (s.alloc env.newClient userID) env.newClient
            if r.panicked then ⟨r.state, [.upgraded, .register env.newClient], true⟩
            else
              ⟨r.state, [.upgraded, .register env.newClient, .goWritePump env.newClient,
                .goReadPump env.newClient], false⟩
          else ⟨s, [.upgradeFailed], false⟩
      | _ => ⟨s, [.httpError StatusUnauthorized "invalid claims"], false⟩

/-- All entries of the registry, user by user. -/
def Hub.connections (s : Mem) : List ClientRef :=
  (s.hub.clients.map Prod.snd).flatten

/-- The map has one binding per key and no key is bound to an empty list. -/
structure KeyInv (s : Mem) : Prop where
  keys : (s.hub.clients.map Prod.fst).Nodup
  nonempty : ∀ u l, s.hub.clients.get u = some l → l ≠ []

/-- The clients that a call sequence registers, in order. -/
def registeredBy : List Op → List ClientRef
  | [] => []
  | .register c :: rest => c :: registeredBy rest
  | _ :: rest => registeredBy rest

/-- Every `Unregister` of the sequence is called on a client that is in the
registry at that moment. -/
def unregistersRegistered (s : Mem) : List Op → Bool
  | [] => true
  | .unregister c :: rest =>
    decide (c ∈ s.hub.clients.index (s.client c).UserID)
      && unregistersRegistered (Hub.Unregister s c).state rest
  | op :: rest => unregistersRegistered (op.run s).state rest

/-- An outside world in which the token "good" belongs to user 1 and the
client object is allocated at address 10. -/
def demoServeEnv : ServeEnv where
  VerifyToken t :=
    if t = "good" then .ok (fun k => if k = "user_id" then some (.str "u") else none)
    else if t = "nouser" then .ok (fun _ => none)
    else .error "token is expired"
  parseUUID raw := if raw = "u" then some 1 else none
  upgradeOk := true
  newClient := 10

end WS

namespace Jobs

/-- The entries that `n` iterations of the worker loop take from the queue,
in order. -/
def Worker.popped (cd : Codec) (w : Worker) : Nat → WState → List String
  | 0, _ => []
  | n + 1, st =>
    match st.rdb.BLPop with
    | (_, .ok (_ :: raw :: _)) => raw :: Worker.popped cd w n (Worker.iter cd w st)
    | _ => Worker.popped cd w n (Worker.iter cd w st)

end Jobs

namespace InfraRedis

/-- The calls of `onMessage` that `SubscribeUser` causes (pubsub.go:78-108)
when the subscription receives `received`: none for the nil broker, which
returns before it subscribes, else those of the goroutine's loop. -/
def Broker.onMessageCalls (ec : EventCodec) (b : Option Broker) (received : List String) :
    List WS.Bytes :=
  match b with
  | none => []
  | some _ => subscriptionLoop ec received

end InfraRedis


namespace InfraRedis

/-! ## JSON texts (library code: encoding/json) -/

/-- The function `isSpace` of the JSON scanner: space, tab, carriage return
and line feed. -/
def isSpace (b : Nat) : Bool := b = 32 || b = 9 || b = 13 || b = 10

/-- The text without the white space it starts with. -/
def skipSpace : WS.Bytes → WS.Bytes
  | [] => []
  | b :: t => if isSpace b then skipSpace t else b :: t

/-- A decimal digit. -/
def isDigit (b : Nat) : Bool := 48 ≤ b && b ≤ 57

/-- A hexadecimal digit, in either case. -/
def isHex (b : Nat) : Bool := isDigit b || (97 ≤ b && b ≤ 102) || (65 ≤ b && b ≤ 70)

/-- Where the scanner is inside a string literal: between characters, after a
backslash, in the hexadecimal digits of a `\u` escape (`k` are left), or
on the last `k` bytes of U+2028 or U+2029, whose escape is written already. -/
inductive StrState where
  | normal
  | esc
  | hex (k : Nat)
  | skip (k : Nat)
deriving DecidableEq, Repr

/-- A string literal from behind its opening quote: the text written for it,
closing quote included, and what follows it. A control character, an
unknown escape or the end of the text is an error. With `escape` (as
`json.Marshal` compacts the output of a `Marshaler`) the bytes `<`, `>`, `&`
are written as the escapes `\u003c`, `\u003e`, `\u0026` and U+2028, U+2029
(`E2 80 A8`, `E2 80 A9`) as `\u2028`, `\u2029`; every other byte is copied. -/
def strScan (escape : Bool) : StrState → WS.Bytes → Option (WS.Bytes × WS.Bytes)
  | _, [] => none
  | .normal, b :: t =>
    if b = 34 then some ([34], t)
    else if b = 92 then (strScan escape .esc t).map fun x => (92 :: x.1, x.2)
    else if b < 32 then none
    else if escape && b = 60 then
      (strScan escape .normal t).map fun x => ([92, 117, 48, 48, 51, 99] ++ x.1, x.2)
    else if escape && b = 62 then
      (strScan escape .normal t).map fun x => ([92, 117, 48, 48, 51, 101] ++ x.1, x.2)
    else if escape && b = 38 then
      (strScan escape .normal t).map fun x => ([92, 117, 48, 48, 50, 54] ++ x.1, x.2)
    else if escape && b = 226 && t.take 2 = [128, 168] then
      (strScan escape (.skip 2) t).map fun x => ([92, 117, 50, 48, 50, 56] ++ x.1, x.2)
    else if escape && b = 226 && t.take 2 = [128, 169] then
      (strScan escape (.skip 2) t).map fun x => ([92, 117, 50, 48, 50, 57] ++ x.1, x.2)
    else (strScan escape .normal t).map fun x => (b :: x.1, x.2)
  | .esc, b :: t =>
    if b = 98 || b = 102 || b = 110 || b = 114 || b = 116 || b = 92 || b = 47 || b = 34 then
      (strScan escape .normal t).map fun x => (b :: x.1, x.2)
    else if b = 117 then (strScan escape (.hex 4) t).map fun x => (b :: x.1, x.2)
    else none
  | .hex k, b :: t =>
    if isHex b then
      (strScan escape (if k ≤ 1 then .normal else .hex (k - 1)) t).map fun x => (b :: x.1, x.2)
    else none
  | .skip k, _ :: t => strScan escape (if k ≤ 1 then .normal else .skip (k - 1)) t

/-- Where the scanner is inside a number: the states `stateNeg`, `state0`,
`state1`, `stateDot`, `stateDot0`, `stateE`, `stateESign`, `stateE0`. -/
inductive NumState where
  | neg
  | zero
  | int
  | dot
  | frac
  | e
  | eSign
  | exp
deriving DecidableEq, Repr

/-- A number from behind its first byte: its other bytes and what follows
it. The number ends before the first byte that cannot continue it; in the
states `neg`, `dot`, `e`, `eSign` such a byte is an error. -/
def numScan : NumState → WS.Bytes → Option (WS.Bytes × WS.Bytes)
  | .neg, [] => none
  | .neg, b :: t =>
    if b = 48 then (numScan .zero t).map fun x => (b :: x.1, x.2)
    else if 49 ≤ b && b ≤ 57 then (numScan .int t).map fun x => (b :: x.1, x.2)
    else none
  | .zero, [] => some ([], [])
  | .zero, b :: t =>
    if b = 46 then (numScan .dot t).map fun x => (b :: x.1, x.2)
    else if b = 101 || b = 69 then (numScan .e t).map fun x => (b :: x.1, x.2)
    else some ([], b :: t)
  | .int, [] => some ([], [])
  | .int, b :: t =>
    if isDigit b then (numScan .int t).map fun x => (b :: x.1, x.2)
    else if b = 46 then (numScan .dot t).map fun x => (b :: x.1, x.2)
    else if b = 101 || b = 69 then (numScan .e t).map fun x => (b :: x.1, x.2)
    else some ([], b :: t)
  | .dot, [] => none
  | .dot, b :: t =>
    if isDigit b then (numScan .frac t).map fun x => (b :: x.1, x.2) else none
  | .frac, [] => some ([], [])
  | .frac, b :: t =>
    if isDigit b then (numScan .frac t).map fun x => (b :: x.1, x.2)
    else if b = 101 || b = 69 then (numScan .e t).map fun x => (b :: x.1, x.2)
    else some ([], b :: t)
  | .e, [] => none
  | .e, b :: t =>
    if b = 43 || b = 45 then (numScan .eSign t).map fun x => (b :: x.1, x.2)
    else if isDigit b then (numScan .exp t).map fun x => (b :: x.1, x.2)
    else none
  | .eSign, [] => none
  | .eSign, b :: t =>
    if isDigit b then (numScan .exp t).map fun x => (b :: x.1, x.2) else none
  | .exp, [] => some ([], [])
  | .exp, b :: t =>
    if isDigit b then (numScan .exp t).map fun x => (b :: x.1, x.2)
    else some ([], b :: t)

/-- The rest of one of the literals `true`, `false`, `null`: the text has to
go on with `word`. -/
def litScan (word : WS.Bytes) (inp : WS.Bytes) : Option (WS.Bytes × WS.Bytes) :=
  if inp.take word.length = word then some (word, inp.drop word.length) else none

/-- The constant `maxNestingDepth` of the scanner. -/
def maxNestingDepth : Nat := 10000

/-- The elements of an array from its first element on, `val` scanning one
value: the compact text up to the closing bracket and what follows it. -/
def jelems (val : WS.Bytes → Option (WS.Bytes × WS.Bytes)) :
    Nat → WS.Bytes → Option (WS.Bytes × WS.Bytes)
  | 0, _ => none
  | g + 1, inp =>
    match val inp with
    | none => none
    | some (v, r1) =>
      match skipSpace r1 with
      | [] => none
      | x :: r2 =>
        if x = 44 then (jelems val g (skipSpace r2)).map fun y => (v ++ 44 :: y.1, y.2)
        else if x = 93 then some (v ++ [93], r2)
        else none

/-- The members of an object from the quote of its first key on, `val`
scanning one value: the compact text up to the closing brace and what
follows it. -/
def jmembers (escape : Bool) (val : WS.Bytes → Option (WS.Bytes × WS.Bytes)) :
    Nat → WS.Bytes → Option (WS.Bytes × WS.Bytes)
  | 0, _ => none
  | g + 1, inp =>
    match inp with
    | [] => none
    | q :: t =>
      if q = 34 then
        match strScan escape .normal t with
        | none => none
        | some (k, r1) =>
          match skipSpace r1 with
          | [] => none
          | c :: r2 =>
            if c = 58 then
              match val (skipSpace r2) with
              | none => none
              | some (v, r3) =>
                match skipSpace r3 with
                | [] => none
                | x :: r4 =>
                  if x = 44 then
                    (jmembers escape val g (skipSpace r4)).map fun y =>
                      (34 :: k ++ 58 :: v ++ 44 :: y.1, y.2)
                  else if x = 125 then some (34 :: k ++ 58 :: v ++ [125], r4)
                  else none
            else none
      else none

/-- One JSON value at the head of the text, `depth` brackets deep, as the
scanner of encoding/json accepts it: the compact text of the value (white
space between tokens left out, strings as `strScan` writes them) and what
follows the value. `none` is a syntax error, or nesting deeper than
`maxNestingDepth`. The first argument bounds the recursion; the length of the
text is always enough. -/
def jvalue (escape : Bool) : Nat → Nat → WS.Bytes → Option (WS.Bytes × WS.Bytes)
  | 0, _, _ => none
  | f + 1, depth, inp =>
    match inp with
    | [] => none
    | b :: t =>
      if b = 123 then
        if depth < maxNestingDepth then
          match skipSpace t with
          | [] => none
          | x :: t1 =>
            if x = 125 then some ([123, 125], t1)
            else (jmembers escape (jvalue escape f (depth + 1)) f (x :: t1)).map fun y =>
              (123 :: y.1, y.2)
        else none
      else if b = 91 then
        if depth < maxNestingDepth then
          match skipSpace t with
          | [] => none
          | x :: t1 =>
            if x = 93 then some ([91, 93], t1)
            else (jelems (jvalue escape f (depth + 1)) f (x :: t1)).map fun y =>
              (91 :: y.1, y.2)
        else none
      else if b = 34 then (strScan escape .normal t).map fun y => (34 :: y.1, y.2)
      else if b = 116 then (litScan [114, 117, 101] t).map fun y => (116 :: y.1, y.2)
      else if b = 102 then (litScan [97, 108, 115, 101] t).map fun y => (102 :: y.1, y.2)
      else if b = 110 then (litScan [117, 108, 108] t).map fun y => (110 :: y.1, y.2)
      else if b = 45 then (numScan .neg t).map fun y => (45 :: y.1, y.2)
      else if b = 48 then (numScan .zero t).map fun y => (48 :: y.1, y.2)
      else if 49 ≤ b && b ≤ 57 then (numScan .int t).map fun y => (b :: y.1, y.2)
      else none

/-- A whole JSON text that stands `depth` brackets deep: its compact form.
White space around the value is allowed, anything else after it is an
error. -/
def compactFrom (escape : Bool) (depth : Nat) (src : WS.Bytes) : Option WS.Bytes :=
  match jvalue escape (src.length + 1) depth (skipSpace src) with
  | none => none
  | some (c, rest) => if skipSpace rest = [] then some c else none

/-- The function `appendCompact` with `escape` set, as `json.Marshal` applies it
to the output of a `Marshaler`: the text without insignificant white space
and with `<`, `>`, `&`, U+2028, U+2029 escaped; `none` is an error (the text
is not valid JSON, or nested deeper than `maxNestingDepth`). -/
def appendCompact (src : WS.Bytes) : Option WS.Bytes := compactFrom true 0 src

/-- The function `checkValid`. -/
def checkValid (data : WS.Bytes) : Bool := (compactFrom false 0 data).isSome

/-! ## Auxiliary notions for reading a compact text again -/

/-- The state in which the text written from a state is read. -/
def StrState.rescan : StrState → StrState
  | .skip _ => .normal
  | s => s

/-- The text starts with a byte that ends a value inside an array or an
object: a comma, a closing bracket or a closing brace. -/
def closes : WS.Bytes → Bool
  | [] => false
  | b :: _ => b = 44 || b = 93 || b = 125

/-- What the loops over elements and members need of the scanner `val` for one
value and of the scanner `val2` that reads its output again: the output
starts with a byte that is no white space, and an output shorter than `bound`
followed by a closing byte is read back as it is. -/
def ValRescan (val val2 : WS.Bytes → Option (WS.Bytes × WS.Bytes)) (bound : Nat) : Prop :=
  ∀ inp v rest, val inp = some (v, rest) →
    (∃ b v2, v = b :: v2 ∧ isSpace b = false) ∧
    (∀ r, v.length < bound → closes r = true → val2 (v ++ r) = some (v, r))

/-- Every element is a byte. -/
def IsBytes (l : WS.Bytes) : Prop := ∀ b ∈ l, b < 256

/-- The scanner `val` for one value keeps byte strings. -/
def ValBytes (val : WS.Bytes → Option (WS.Bytes × WS.Bytes)) : Prop :=
  ∀ inp v rest, val inp = some (v, rest) → IsBytes inp → IsBytes v ∧ IsBytes rest

/-! ## The event on the wire (library code: encoding/json on `NotificationEvent`) -/

/-- The part of encoding/json that writes and reads the characters of a string
that need more than a copy (library code): `quote` is the text between the
quotes that `json.Marshal` writes for a string, `unquote` the string that
`json.Unmarshal` reads from the text between the quotes. They are consulted
only for a string with a byte outside printable ASCII, a quote or a
backslash or, in `quote`, one of `<`, `>`, `&`. -/
structure JsonStrings where
  quote : String → WS.Bytes
  unquote : WS.Bytes → String

/-- A byte that stands for itself between the quotes of a JSON string:
printable ASCII other than the quote and the backslash. -/
def plainByte (b : Nat) : Bool := 32 ≤ b && b < 127 && b != 34 && b != 92

/-- A byte that `json.Marshal` copies into a string: a plain byte other than
`<`, `>`, `&`. -/
def htmlSafeByte (b : Nat) : Bool := plainByte b && b != 60 && b != 62 && b != 38

/-- The text between the quotes that `json.Marshal` writes for the string `s`. -/
def encodeString (lib : JsonStrings) (s : String) : WS.Bytes :=
  if (s.data.map Char.toNat).all htmlSafeByte then s.data.map Char.toNat else lib.quote s

/-- The string that `json.Unmarshal` reads from the text `body` between the
quotes of a string literal. -/
def decodeString (lib : JsonStrings) (body : WS.Bytes) : String :=
  if body.all plainByte then String.mk (body.map Char.ofNat) else lib.unquote body

/-- The letter under which `json.Unmarshal` compares the names of object keys
with the names of struct fields: ASCII letters in upper case, and the two
characters that fold to an ASCII letter, U+017F to `S` and U+212A to `K`. -/
def foldChar (c : Char) : Nat :=
  if 97 ≤ c.toNat ∧ c.toNat ≤ 122 then c.toNat - 32
  else if c.toNat = 383 then 83
  else if c.toNat = 8490 then 75
  else c.toNat

/-- The object key `key` names the struct field tagged `name`: the same
text, or the same up to the case of letters. -/
def keyIs (name key : String) : Bool := key.data.map foldChar = name.data.map foldChar

/-- The struct that `json.Unmarshal` fills, and whether every value so far
had the type of its field. -/
structure DecodeState where
  evt : NotificationEvent
  ok : Bool
deriving DecidableEq, Repr

/-- One member of the object, `key` being the text between the quotes of its
key and `raw` the text of its value. `user_id` takes a string, ignores `null`
and records a type error for any other value; `payload`, a
`json.RawMessage`, takes the text of the value as it stands; any other key
is skipped. -/
def storeField (lib : JsonStrings) (st : DecodeState) (key raw : WS.Bytes) : DecodeState :=
  if keyIs "user_id" (decodeString lib key) then
    match raw with
    | [] => st
    | b :: body =>
      if b = 34 then { st with evt := { st.evt with UserID := decodeString lib body.dropLast } }
      else if b = 110 then st
      else { st with ok := false }
  else if keyIs "payload" (decodeString lib key) then
    { st with evt := { st.evt with Payload := raw } }
  else st

/-- The members of an object from the quote of its first key on, `val`
scanning one value: for each member the text between the quotes of its key
and the text of its value as it stands in the object, in order, and what
follows the closing brace. -/
def objectFields (val : WS.Bytes → Option (WS.Bytes × WS.Bytes)) :
    Nat → WS.Bytes → Option (List (WS.Bytes × WS.Bytes) × WS.Bytes)
  | 0, _ => none
  | g + 1, inp =>
    match inp with
    | [] => none
    | q :: t =>
      if q = 34 then
        match strScan false .normal t with
        | none => none
        | some (k, r1) =>
          match skipSpace r1 with
          | [] => none
          | c :: r2 =>
            if c = 58 then
              match val (skipSpace r2) with
              | none => none
              | some (_, r3) =>
                match skipSpace r3 with
                | [] => none
                | x :: r4 =>
                  if x = 44 then
                    (objectFields val g (skipSpace r4)).map fun y =>
                      ((k.dropLast,
                        (skipSpace r2).take ((skipSpace r2).length - r3.length)) :: y.1, y.2)
                  else if x = 125 then
                    some ([(k.dropLast,
                      (skipSpace r2).take ((skipSpace r2).length - r3.length))], r4)
                  else none
            else none
      else none

/-- The function `json.Unmarshal` into a `NotificationEvent` (library code):
`none` is a non-nil error. The text has to be valid JSON. An object fills
the struct member by member; `null` leaves it as it is; any other value is
a type error. -/
def jsonUnmarshalEvent (lib : JsonStrings) (data : WS.Bytes) : Option NotificationEvent :=
  match skipSpace data with
  | [] => none
  | b :: t =>
    if b = 123 then
      match skipSpace t with
      | [] => none
      | x :: t1 =>
        if x = 125 then (if skipSpace t1 = [] then some ⟨"", []⟩ else none)
        else
          match objectFields (jvalue false data.length 1) data.length (x :: t1) with
          | none => none
          | some (fields, rest) =>
            if skipSpace rest = [] then
              if (fields.foldl (fun st kv => storeField lib st kv.1 kv.2) ⟨⟨"", []⟩, true⟩).ok
              then some
                (fields.foldl (fun st kv => storeField lib st kv.1 kv.2) ⟨⟨"", []⟩, true⟩).evt
              else none
            else none
    else if b = 110 && checkValid data then some ⟨"", []⟩
    else none

/-- The text of the object that `json.Marshal` writes for a
`NotificationEvent`: the members `user_id` and `payload`, in the order of
the fields, without white space. -/
def envelope (userID payload : WS.Bytes) : WS.Bytes :=
  [123, 34, 117, 115, 101, 114, 95, 105, 100, 34, 58, 34] ++ userID ++
    [34, 44, 34, 112, 97, 121, 108, 111, 97, 100, 34, 58] ++ payload ++ [125]

/-- The function `json.Marshal` on a `NotificationEvent` (library code): `none`
is a non-nil error. The payload, a `json.RawMessage`, is its own JSON text
(`null` for the nil slice, which is the empty list here) and is written
compacted by `appendCompact`; a payload that is not valid JSON is an
error. -/
def jsonMarshalEvent (lib : JsonStrings) (evt : NotificationEvent) : Option WS.Bytes :=
  (appendCompact (if evt.Payload = [] then [110, 117, 108, 108] else evt.Payload)).map
    (envelope (encodeString lib evt.UserID))

/-- A byte string as the text of a bus message, one character per byte. -/
def bytesToText (data : WS.Bytes) : String := String.mk (data.map Char.ofNat)

/-- The bytes of the text of a bus message. -/
def textToBytes (msg : String) : WS.Bytes := msg.data.map Char.toNat

/-- The codec of encoding/json for `NotificationEvent`. -/
def jsonCodec (lib : JsonStrings) : EventCodec where
  marshal evt := (jsonMarshalEvent lib evt).map bytesToText
  unmarshal msg := jsonUnmarshalEvent lib (textToBytes msg)

/-- The text of `n` arrays one inside the other: `n` opening brackets and
then `n` closing brackets. -/
def nestedArrays : Nat → WS.Bytes
  | 0 => []
  | n + 1 => 91 :: (nestedArrays n ++ [93])

/-- A stand-in for the part of encoding/json that the examples do not reach. -/
def demoJsonStrings : JsonStrings := ⟨fun _ => [], fun _ => ""⟩

end InfraRedis
namespace WS

/-! ## Map and memory lemmas -/

theorem ClientMap.get_delete (m : ClientMap) (u w : UUID) :
    (m.delete u).get w = if w = u then none else m.get w := by
  induction m with
  | nil => simp [ClientMap.delete, ClientMap.get]
  | cons e rest ih =>
    obtain ⟨k, v⟩ := e
    unfold ClientMap.delete at ih ⊢
    by_cases hk : k = u
    · subst hk
      by_cases hw : w = k
      · subst hw; simpa [List.filter, ClientMap.get] using ih
      · have hkw : ¬ k = w := fun h => hw h.symm
        simpa [List.filter, ClientMap.get, hkw, hw] using ih
    · by_cases hw : w = u
      · subst hw
        have : ¬ k = w := hk
        simpa [List.filter, ClientMap.get, hk] using ih
      · by_cases hkw : k = w
        · subst hkw; simp [List.filter, ClientMap.get, hk]
        · simpa [List.filter, ClientMap.get, hk, hkw, hw] using ih

theorem ClientMap.get_set (m : ClientMap) (u w : UUID) (v : List ClientRef) :
    (m.set u v).get w = if w = u then some v else m.get w := by
  unfold ClientMap.set
  by_cases hw : w = u
  · subst hw; simp [ClientMap.get]
  · have huw : ¬ u = w := fun h => hw h.symm
    simp [ClientMap.get, huw, hw, ClientMap.get_delete]

theorem ClientMap.index_set (m : ClientMap) (u w : UUID) (v : List ClientRef) :
    (m.set u v).index w = if w = u then v else m.index w := by
  unfold ClientMap.index
  rw [ClientMap.get_set]
  split <;> rfl

theorem ClientMap.index_delete (m : ClientMap) (u w : UUID) :
    (m.delete u).index w = if w = u then [] else m.index w := by
  unfold ClientMap.index
  rw [ClientMap.get_delete]
  split <;> rfl

theorem ClientMap.index_of_get {m : ClientMap} {u : UUID} {l : List ClientRef}
    (h : m.get u = some l) : m.index u = l := by
  simp [ClientMap.index, h]

@[simp] theorem Mem.setSend_hub (s : Mem) (c : ClientRef) (ch : Chan) :
    (s.setSend c ch).hub = s.hub := rfl

@[simp] theorem Mem.setClients_hub (s : Mem) (m : ClientMap) :
    (s.setClients m).hub.clients = m := rfl

@[simp] theorem Mem.setClients_client (s : Mem) (m : ClientMap) :
    (s.setClients m).client = s.client := rfl

theorem Mem.setSend_client (s : Mem) (c r : ClientRef) (ch : Chan) :
    (s.setSend c ch).client r = if r = c then { s.client r with Send := ch } else s.client r := rfl

@[simp] theorem Mem.setSend_UserID (s : Mem) (c r : ClientRef) (ch : Chan) :
    ((s.setSend c ch).client r).UserID = (s.client r).UserID := by
  rw [Mem.setSend_client]; split <;> rfl

theorem Chan.close_eq_some {ch ch2 : Chan} (h : ch.close = some ch2) :
    ch.closed = false ∧ ch2 = { ch with closed := true } := by
  unfold Chan.close at h
  split at h
  · cases h
  · rename_i hc
    refine ⟨by simpa using hc, ?_⟩
    injection h with h
    exact h.symm

theorem Chan.close_eq_none {ch : Chan} : ch.close = none ↔ ch.closed = true := by
  unfold Chan.close
  split <;> simp_all

/-! ## The cap of five connections per user -/

theorem capInv_Register (s : Mem) (c : ClientRef) (h : CapInv s) :
    CapInv (Hub.Register s c).state := by
  intro u
  unfold Hub.Register
  simp only
  split
  · rename_i h5
    split
    · exact h u
    · rename_i oldest rest hl
      split
      · exact h u
      · simp only [Mem.setClients_hub, Mem.setSend_hub, ClientMap.index_set, if_true]
        have hlen := h (s.client c).UserID
        rw [hl] at hlen
        split
        · simp at hlen ⊢; omega
        · exact h u
  · rename_i h5
    simp only [Mem.setClients_hub, ClientMap.index_set]
    split
    · simp; omega
    · exact h u

theorem capInv_Unregister (s : Mem) (c : ClientRef) (h : CapInv s) :
    CapInv (Hub.Unregister s c).state := by
  have key : CapInv (if ((s.hub.clients.index (s.client c).UserID).filter
        (fun existing => decide (existing ≠ c))).length = 0
      then s.setClients (s.hub.clients.delete (s.client c).UserID)
      else s.setClients (s.hub.clients.set (s.client c).UserID
        ((s.hub.clients.index (s.client c).UserID).filter (fun existing => decide (existing ≠ c))))) := by
    intro u
    split
    · simp only [Mem.setClients_hub, ClientMap.index_delete]
      split
      · simp
      · exact h u
    · simp only [Mem.setClients_hub, ClientMap.index_set]
      split
      · exact le_trans (List.length_filter_le _ _) (h _)
      · exact h u
  unfold Hub.Unregister
  simp only
  split
  · exact key
  · intro u
    simpa using key u

theorem sendLoop_hub (s : Mem) (m : Bytes) (l : List ClientRef) :
    (Hub.sendLoop s m l).state.hub = s.hub := by
  induction l generalizing s with
  | nil => rfl
  | cons c rest ih =>
    unfold Hub.sendLoop
    split
    · rfl
    · exact ih s
    · rw [ih]; rfl

theorem SendToUser_hub (s : Mem) (u : UUID) (m : Bytes) :
    (Hub.SendToUser s u m).state.hub = s.hub := by
  unfold Hub.SendToUser
  split
  · rfl
  · exact sendLoop_hub s m _

theorem writePumpRecv_hub (s : Mem) (c : ClientRef) : (writePumpRecv s c).hub = s.hub := by
  unfold writePumpRecv
  split <;> rfl

theorem capInv_run (s : Mem) (op : Op) (h : CapInv s) : CapInv (op.run s).state := by
  cases op with
  | register c => exact capInv_Register s c h
  | unregister c => exact capInv_Unregister s c h
  | sendToUser u m =>
    intro v
    show ((Hub.SendToUser s u m).state.hub.clients.index v).length ≤ 5
    rw [SendToUser_hub]; exact h v
  | recv c =>
    intro v
    show ((writePumpRecv s c).hub.clients.index v).length ≤ 5
    rw [writePumpRecv_hub]; exact h v

theorem capInv_exec (ops : List Op) (s : Mem) (h : CapInv s) : CapInv (exec s ops) := by
  induction ops generalizing s with
  | nil => exact h
  | cons op rest ih => exact ih _ (capInv_run s op h)

/-- C1. Cap invariant: starting from the empty Hub (whatever the client
objects are), after any finite sequence of `Register` and `Unregister`
calls (and of sends and pump receives), recovered panics included, every
user's connection list has at most 5 entries. -/
theorem hub_cap_invariant (heap : ClientRef → Client) (ops : List Op) (u : UUID) :
    ((exec ⟨NewHub, heap⟩ ops).hub.clients.index u).length ≤ 5 :=
  capInv_exec ops ⟨NewHub, heap⟩ (fun _ => by simp [NewHub, ClientMap.index, ClientMap.get]) u

/-! ## What `Register` and `Unregister` compute -/

theorem ClientMap.get_of_index_ne_nil {m : ClientMap} {u : UUID} (h : m.index u ≠ []) :
    m.get u = some (m.index u) := by
  unfold ClientMap.index at h ⊢
  cases hg : m.get u with
  | none => simp [hg] at h
  | some l => simp

theorem Register_small (s : Mem) (c : ClientRef)
    (h : (s.hub.clients.index (s.client c).UserID).length < 5) :
    Hub.Register s c =
      ⟨s.setClients (s.hub.clients.set (s.client c).UserID
        (s.hub.clients.index (s.client c).UserID ++ [c])), false⟩ := by
  unfold Hub.Register
  simp only
  rw [if_neg (by omega)]

theorem Register_full (s : Mem) (c oldest : ClientRef) (rest : List ClientRef)
    (hl : s.hub.clients.index (s.client c).UserID = oldest :: rest)
    (h5 : 5 ≤ (oldest :: rest).length)
    (ho : (s.client oldest).Send.closed = false) :
    Hub.Register s c =
      ⟨((s.setSend oldest { (s.client oldest).Send with closed := true }).setClients
          (s.hub.clients.set (s.client c).UserID rest)).setClients
          ((s.hub.clients.set (s.client c).UserID rest).set (s.client c).UserID (rest ++ [c])),
        false⟩ := by
  unfold Hub.Register
  simp only
  rw [if_pos (by rw [hl]; exact h5)]
  simp only [hl, Chan.close, ho, Bool.false_eq_true, if_false, Mem.setClients_hub,
    Mem.setSend_UserID, Mem.setClients_client, ClientMap.index_set, if_true]

theorem Register_full_panic (s : Mem) (c oldest : ClientRef) (rest : List ClientRef)
    (hl : s.hub.clients.index (s.client c).UserID = oldest :: rest)
    (h5 : 5 ≤ (oldest :: rest).length)
    (ho : (s.client oldest).Send.closed = true) :
    Hub.Register s c = ⟨s, true⟩ := by
  unfold Hub.Register
  simp only
  rw [if_pos (by rw [hl]; exact h5)]
  simp only [hl, Chan.close, ho, if_true]

/-- The registry map that `Unregister` stores before it closes the channel. -/
theorem Unregister_get (s : Mem) (c : ClientRef) (w : UUID) :
    (Hub.Unregister s c).state.hub.clients.get w =
      if w = (s.client c).UserID then
        (if (s.hub.clients.index (s.client c).UserID).filter (fun e => decide (e ≠ c)) = [] then none
         else some ((s.hub.clients.index (s.client c).UserID).filter (fun e => decide (e ≠ c))))
      else s.hub.clients.get w := by
  unfold Hub.Unregister
  simp only [List.length_eq_zero]
  generalize (s.hub.clients.index (s.client c).UserID).filter (fun e => decide (e ≠ c)) = nl
  by_cases hnil : nl = []
  · rw [if_pos hnil, if_pos hnil]
    simp only [Mem.setClients_client]
    split <;> simp [ClientMap.get_delete]
  · rw [if_neg hnil, if_neg hnil]
    simp only [Mem.setClients_client]
    split <;> simp [ClientMap.get_set]

theorem Unregister_panicked (s : Mem) (c : ClientRef) :
    (Hub.Unregister s c).panicked = (s.client c).Send.closed := by
  unfold Hub.Unregister
  simp only [List.length_eq_zero]
  generalize (s.hub.clients.index (s.client c).UserID).filter (fun e => decide (e ≠ c)) = nl
  have hcl : ∀ m1 m2 : ClientMap,
      ((if nl = [] then s.setClients m1 else s.setClients m2).client c) = s.client c := by
    intro m1 m2; split <;> rfl
  rw [hcl]
  cases hc : (s.client c).Send.closed <;> simp [Chan.close, hc]

theorem Unregister_client (s : Mem) (c r : ClientRef) :
    (Hub.Unregister s c).state.client r =
      if r = c ∧ (s.client c).Send.closed = false
      then { s.client c with Send := { (s.client c).Send with closed := true } }
      else s.client r := by
  unfold Hub.Unregister
  simp only [List.length_eq_zero]
  generalize (s.hub.clients.index (s.client c).UserID).filter (fun e => decide (e ≠ c)) = nl
  have hcl : ∀ m1 m2 : ClientMap,
      ((if nl = [] then s.setClients m1 else s.setClients m2).client) = s.client := by
    intro m1 m2; split <;> rfl
  rw [hcl]
  cases hc : (s.client c).Send.closed
  · simp only [Chan.close, hc, Bool.false_eq_true, if_false, Mem.setSend_client, hcl, and_true]
    split
    · rename_i h; subst h; rfl
    · rfl
  · simp only [Chan.close, hc, if_true, hcl, Bool.true_eq_false, and_false, if_false]

/-! ## The registry invariant holds in every program state -/

theorem ClientMap.keys_delete (m : ClientMap) (u : UUID) :
    (m.delete u).map Prod.fst = (m.map Prod.fst).filter (fun k => decide (k ≠ u)) := by
  unfold ClientMap.delete
  induction m with
  | nil => rfl
  | cons e rest ih =>
    by_cases h : e.1 = u
    · simpa [List.filter, h] using ih
    · simpa [List.filter, h] using ih

theorem ClientMap.keys_delete_nodup (m : ClientMap) (u : UUID)
    (h : (m.map Prod.fst).Nodup) : ((m.delete u).map Prod.fst).Nodup := by
  rw [ClientMap.keys_delete]
  exact h.filter _

theorem ClientMap.keys_set_nodup (m : ClientMap) (u : UUID) (v : List ClientRef)
    (h : (m.map Prod.fst).Nodup) : ((m.set u v).map Prod.fst).Nodup := by
  unfold ClientMap.set
  rw [List.map_cons, List.nodup_cons]
  refine ⟨?_, ClientMap.keys_delete_nodup m u h⟩
  rw [ClientMap.keys_delete]
  simp [List.mem_filter]

theorem RegInv_NewHub (heap : ClientRef → Client) : RegInv ⟨NewHub, heap⟩ where
  owner := by intro u l c h; simp [NewHub, ClientMap.get] at h
  isOpen := by intro u l c h; simp [NewHub, ClientMap.get] at h
  nodup := by intro u l h; simp [NewHub, ClientMap.get] at h
  nonempty := by intro u l h; simp [NewHub, ClientMap.get] at h
  keys := by simp [NewHub]

theorem RegInv_Register_small (s : Mem) (c : ClientRef) (hs : RegInv s)
    (hopen : (s.client c).Send.closed = false)
    (hnew : c ∉ s.hub.clients.index (s.client c).UserID)
    (h : (s.hub.clients.index (s.client c).UserID).length < 5) :
    RegInv (Hub.Register s c).state := by
  rw [Register_small s c h]
  have hmem : ∀ x, x ∈ s.hub.clients.index (s.client c).UserID →
      (s.client x).UserID = (s.client c).UserID ∧ (s.client x).Send.closed = false := by
    intro x hx
    have hne : s.hub.clients.index (s.client c).UserID ≠ [] := List.ne_nil_of_mem hx
    have hg := ClientMap.get_of_index_ne_nil hne
    exact ⟨hs.owner _ _ x hg hx, hs.isOpen _ _ x hg hx⟩
  have hnd : (s.hub.clients.index (s.client c).UserID).Nodup := by
    by_cases hne : s.hub.clients.index (s.client c).UserID = []
    · rw [hne]; exact List.nodup_nil
    · exact hs.nodup _ _ (ClientMap.get_of_index_ne_nil hne)
  constructor
  · intro u l x hg hx
    simp only [Mem.setClients_hub, ClientMap.get_set, Mem.setClients_client] at hg ⊢
    split at hg
    · rename_i hu
      injection hg with hg
      subst hg
      rw [List.mem_append, List.mem_singleton] at hx
      rcases hx with hx | hx
      · rw [hu]; exact (hmem x hx).1
      · rw [hx, hu]
    · exact hs.owner u l x hg hx
  · intro u l x hg hx
    simp only [Mem.setClients_hub, ClientMap.get_set, Mem.setClients_client] at hg ⊢
    split at hg
    · injection hg with hg
      subst hg
      rw [List.mem_append, List.mem_singleton] at hx
      rcases hx with hx | hx
      · exact (hmem x hx).2
      · rw [hx]; exact hopen
    · exact hs.isOpen u l x hg hx
  · intro u l hg
    simp only [Mem.setClients_hub, ClientMap.get_set] at hg
    split at hg
    · injection hg with hg
      subst hg
      rw [List.nodup_append]
      refine ⟨hnd, List.nodup_singleton c, ?_⟩
      intro a ha hb
      rw [List.mem_singleton] at hb
      subst hb
      exact hnew ha
    · exact hs.nodup u l hg
  · intro u l hg
    simp only [Mem.setClients_hub, ClientMap.get_set] at hg
    split at hg
    · injection hg with hg
      subst hg
      simp
    · exact hs.nonempty u l hg
  · simp only [Mem.setClients_hub]
    exact ClientMap.keys_set_nodup _ _ _ hs.keys

theorem RegInv_Register_full (s : Mem) (c : ClientRef) (hs : RegInv s)
    (hopen : (s.client c).Send.closed = false)
    (hnew : c ∉ s.hub.clients.index (s.client c).UserID)
    (h : 5 ≤ (s.hub.clients.index (s.client c).UserID).length) :
    RegInv (Hub.Register s c).state := by
  cases hl : s.hub.clients.index (s.client c).UserID with
  | nil => rw [hl] at h; simp at h
  | cons oldest rest =>
    have hg : s.hub.clients.get (s.client c).UserID = some (oldest :: rest) := by
      have := ClientMap.get_of_index_ne_nil (m := s.hub.clients) (u := (s.client c).UserID)
        (by rw [hl]; simp)
      rw [this, hl]
    have hoo : (s.client oldest).Send.closed = false :=
      hs.isOpen _ _ oldest hg (List.mem_cons_self _ _)
    have hou : (s.client oldest).UserID = (s.client c).UserID :=
      hs.owner _ _ oldest hg (List.mem_cons_self _ _)
    have hnd := hs.nodup _ _ hg
    rw [List.nodup_cons] at hnd
    rw [hl] at hnew h
    have hco : c ≠ oldest := fun e => hnew (e ▸ List.mem_cons_self _ _)
    have hcr : c ∉ rest := fun e => hnew (List.mem_cons_of_mem _ e)
    rw [Register_full s c oldest rest hl h hoo]
    have hrest : ∀ x, x ∈ rest → x ≠ oldest := by
      intro x hx e; subst e; exact hnd.1 hx
    constructor
    · intro u l x hgl hx
      simp only [Mem.setClients_hub, ClientMap.get_set, Mem.setClients_client,
        Mem.setSend_UserID] at hgl ⊢
      split at hgl
      · rename_i hu
        injection hgl with hgl
        subst hgl
        rw [List.mem_append, List.mem_singleton] at hx
        rcases hx with hx | hx
        · rw [hu]; exact hs.owner _ _ x hg (List.mem_cons_of_mem _ hx)
        · rw [hx, hu]
      · exact hs.owner u l x hgl hx
    · intro u l x hgl hx
      simp only [Mem.setClients_hub, ClientMap.get_set, Mem.setClients_client,
        Mem.setSend_client] at hgl ⊢
      split at hgl
      · injection hgl with hgl
        subst hgl
        rw [List.mem_append, List.mem_singleton] at hx
        rcases hx with hx | hx
        · rw [if_neg (hrest x hx)]
          exact hs.isOpen _ _ x hg (List.mem_cons_of_mem _ hx)
        · rw [hx, if_neg hco]; exact hopen
      · rename_i hu
        have hxu := hs.owner u l x hgl hx
        have hxo : x ≠ oldest := by
          intro e; subst e; exact hu (hxu.symm.trans hou)
        rw [if_neg hxo]
        exact hs.isOpen u l x hgl hx
    · intro u l hgl
      simp only [Mem.setClients_hub, ClientMap.get_set] at hgl
      split at hgl
      · injection hgl with hgl
        subst hgl
        rw [List.nodup_append]
        refine ⟨hnd.2, List.nodup_singleton c, ?_⟩
        intro a ha hb
        rw [List.mem_singleton] at hb
        subst hb
        exact hcr ha
      · exact hs.nodup u l hgl
    · intro u l hgl
      simp only [Mem.setClients_hub, ClientMap.get_set] at hgl
      split at hgl
      · injection hgl with hgl
        subst hgl
        simp
      · exact hs.nonempty u l hgl
    · simp only [Mem.setClients_hub]
      exact ClientMap.keys_set_nodup _ _ _ (ClientMap.keys_set_nodup _ _ _ hs.keys)

theorem RegInv_Register (s : Mem) (c : ClientRef) (hs : RegInv s)
    (hopen : (s.client c).Send.closed = false)
    (hnew : c ∉ s.hub.clients.index (s.client c).UserID) :
    RegInv (Hub.Register s c).state := by
  by_cases h : 5 ≤ (s.hub.clients.index (s.client c).UserID).length
  · exact RegInv_Register_full s c hs hopen hnew h
  · exact RegInv_Register_small s c hs hopen hnew (by omega)

theorem Unregister_keys (s : Mem) (c : ClientRef) (h : (s.hub.clients.map Prod.fst).Nodup) :
    ((Hub.Unregister s c).state.hub.clients.map Prod.fst).Nodup := by
  unfold Hub.Unregister
  simp only [List.length_eq_zero]
  generalize (s.hub.clients.index (s.client c).UserID).filter (fun e => decide (e ≠ c)) = nl
  by_cases hnil : nl = []
  · rw [if_pos hnil]
    split <;> exact ClientMap.keys_delete_nodup _ _ h
  · rw [if_neg hnil]
    split <;> exact ClientMap.keys_set_nodup _ _ _ h

theorem RegInv_Unregister (s : Mem) (c : ClientRef) (hs : RegInv s)
    (hreg : c ∈ s.hub.clients.index (s.client c).UserID) :
    RegInv (Hub.Unregister s c).state := by
  have hg : s.hub.clients.get (s.client c).UserID = some (s.hub.clients.index (s.client c).UserID) :=
    ClientMap.get_of_index_ne_nil (List.ne_nil_of_mem hreg)
  have hfilter : ∀ x, x ∈ (s.hub.clients.index (s.client c).UserID).filter
      (fun e => decide (e ≠ c)) → x ∈ s.hub.clients.index (s.client c).UserID ∧ x ≠ c := by
    intro x hx
    rw [List.mem_filter] at hx
    exact ⟨hx.1, by simpa using hx.2⟩
  constructor
  · intro u l x hgl hx
    rw [Unregister_get] at hgl
    have hU : ((Hub.Unregister s c).state.client x).UserID = (s.client x).UserID := by
      rw [Unregister_client]; split
      · rename_i h; rw [h.1]
      · rfl
    rw [hU]
    split at hgl
    · rename_i hu
      split at hgl
      · cases hgl
      · injection hgl with hgl
        subst hgl
        rw [hu]
        exact hs.owner _ _ x hg (hfilter x hx).1
    · exact hs.owner u l x hgl hx
  · intro u l x hgl hx
    rw [Unregister_get] at hgl
    have hxc : x ≠ c := by
      split at hgl
      · split at hgl
        · cases hgl
        · injection hgl with hgl
          subst hgl
          exact (hfilter x hx).2
      · rename_i hu
        intro e
        subst e
        exact hu (hs.owner u l x hgl hx).symm
    rw [Unregister_client, if_neg (fun h => hxc h.1)]
    split at hgl
    · split at hgl
      · cases hgl
      · injection hgl with hgl
        subst hgl
        exact hs.isOpen _ _ x hg (hfilter x hx).1
    · exact hs.isOpen u l x hgl hx
  · intro u l hgl
    rw [Unregister_get] at hgl
    split at hgl
    · split at hgl
      · cases hgl
      · injection hgl with hgl
        subst hgl
        exact (hs.nodup _ _ hg).filter _
    · exact hs.nodup u l hgl
  · intro u l hgl
    rw [Unregister_get] at hgl
    split at hgl
    · split at hgl
      · cases hgl
      · rename_i hne
        injection hgl with hgl
        subst hgl
        exact hne
    · exact hs.nonempty u l hgl
  · exact Unregister_keys s c hs.keys

/-! ## What `SendToUser` and the writer pump change -/

theorem Chan.trySend_sent {ch ch2 : Chan} {m : Bytes} (h : ch.trySend m = .sent ch2) :
    ch.closed = false ∧ ch.buf.length < ch.cap ∧ ch2 = { ch with buf := ch.buf ++ [m] } := by
  unfold Chan.trySend at h
  split at h
  · cases h
  · rename_i hc
    split at h
    · rename_i hlt
      injection h with h
      exact ⟨by simpa using hc, hlt, h.symm⟩
    · cases h

theorem Chan.trySend_dropped {ch : Chan} {m : Bytes} (h : ch.trySend m = .dropped) :
    ch.closed = false ∧ ¬ ch.buf.length < ch.cap := by
  unfold Chan.trySend at h
  split at h
  · cases h
  · rename_i hc
    split at h
    · cases h
    · rename_i hlt
      exact ⟨by simpa using hc, hlt⟩

theorem Chan.trySend_panic {ch : Chan} {m : Bytes} (h : ch.trySend m = .panic) :
    ch.closed = true := by
  unfold Chan.trySend at h
  split at h
  · assumption
  · split at h <;> cases h

theorem sendLoop_frame (s : Mem) (m : Bytes) (l : List ClientRef) (r : ClientRef) :
    ((Hub.sendLoop s m l).state.client r).UserID = (s.client r).UserID ∧
    ((Hub.sendLoop s m l).state.client r).Send.closed = (s.client r).Send.closed ∧
    ((Hub.sendLoop s m l).state.client r).Send.cap = (s.client r).Send.cap := by
  induction l generalizing s with
  | nil => exact ⟨rfl, rfl, rfl⟩
  | cons c rest ih =>
    unfold Hub.sendLoop
    split
    · exact ⟨rfl, rfl, rfl⟩
    · exact ih s
    · rename_i ch hch
      obtain ⟨hc, _, hch2⟩ := Chan.trySend_sent hch
      obtain ⟨h1, h2, h3⟩ := ih (s.setSend c ch)
      rw [h1, h2, h3, Mem.setSend_UserID, Mem.setSend_client]
      refine ⟨rfl, ?_, ?_⟩
      · split
        · rename_i hr; subst hr; subst hch2; rfl
        · rfl
      · split
        · rename_i hr; subst hr; subst hch2; rfl
        · rfl

theorem sendLoop_not_mem (s : Mem) (m : Bytes) (l : List ClientRef) (r : ClientRef)
    (hr : r ∉ l) : (Hub.sendLoop s m l).state.client r = s.client r := by
  induction l generalizing s with
  | nil => rfl
  | cons c rest ih =>
    rw [List.mem_cons, not_or] at hr
    unfold Hub.sendLoop
    split
    · rfl
    · exact ih s hr.2
    · rw [ih _ hr.2, Mem.setSend_client, if_neg hr.1]

theorem sendLoop_no_panic (s : Mem) (m : Bytes) (l : List ClientRef)
    (ho : ∀ c ∈ l, (s.client c).Send.closed = false) :
    (Hub.sendLoop s m l).panicked = false := by
  induction l generalizing s with
  | nil => rfl
  | cons c rest ih =>
    unfold Hub.sendLoop
    split
    · rename_i hp
      have := Chan.trySend_panic hp
      rw [ho c (List.mem_cons_self _ _)] at this
      cases this
    · exact ih s (fun x hx => ho x (List.mem_cons_of_mem _ hx))
    · rename_i ch hch
      apply ih
      intro x hx
      rw [Mem.setSend_client]
      split
      · rename_i hxc
        subst hxc
        rw [(Chan.trySend_sent hch).2.2]
        exact ho x (List.mem_cons_self _ _)
      · exact ho x (List.mem_cons_of_mem _ hx)

theorem sendLoop_buf (s : Mem) (m : Bytes) (l : List ClientRef) (hnd : l.Nodup)
    (ho : ∀ c ∈ l, (s.client c).Send.closed = false) (r : ClientRef) (hr : r ∈ l) :
    ((Hub.sendLoop s m l).state.client r).Send.buf =
      if (s.client r).Send.buf.length < (s.client r).Send.cap
      then (s.client r).Send.buf ++ [m] else (s.client r).Send.buf := by
  induction l generalizing s with
  | nil => cases hr
  | cons c rest ih =>
    rw [List.nodup_cons] at hnd
    unfold Hub.sendLoop
    split
    · rename_i hp
      have := Chan.trySend_panic hp
      rw [ho c (List.mem_cons_self _ _)] at this
      cases this
    · rename_i hd
      rcases List.mem_cons.mp hr with hrc | hrr
      · subst hrc
        rw [sendLoop_not_mem s m rest r hnd.1, if_neg (Chan.trySend_dropped hd).2]
      · exact ih s hnd.2 (fun x hx => ho x (List.mem_cons_of_mem _ hx)) hrr
    · rename_i ch hch
      obtain ⟨_, hlt, hch2⟩ := Chan.trySend_sent hch
      rcases List.mem_cons.mp hr with hrc | hrr
      · subst hrc
        rw [sendLoop_not_mem _ m rest r hnd.1, Mem.setSend_client, if_pos rfl, if_pos hlt, hch2]
      · have hrc : r ≠ c := fun e => hnd.1 (e ▸ hrr)
        have := ih (s.setSend c ch) hnd.2 (by
          intro x hx
          rw [Mem.setSend_client]
          split
          · rename_i hxc
            subst hxc
            exact absurd hx hnd.1
          · exact ho x (List.mem_cons_of_mem _ hx)) hrr
        rw [this, Mem.setSend_client, if_neg hrc]

theorem writePumpRecv_frame (s : Mem) (c r : ClientRef) :
    ((writePumpRecv s c).client r).UserID = (s.client r).UserID ∧
    ((writePumpRecv s c).client r).Send.closed = (s.client r).Send.closed := by
  unfold writePumpRecv
  split
  · rename_i x ch hrecv
    refine ⟨Mem.setSend_UserID _ _ _ _, ?_⟩
    rw [Mem.setSend_client]
    split
    · rename_i hrc
      subst hrc
      unfold Chan.recv at hrecv
      split at hrecv
      · injection hrecv with hrecv
        injection hrecv with _ h2
        rw [← h2]
      · split at hrecv
        · injection hrecv with hrecv
          injection hrecv with _ h2
          rw [← h2]
        · cases hrecv
    · rfl
  · exact ⟨rfl, rfl⟩

theorem RegInv_of_frame (s t : Mem) (hs : RegInv s) (hh : t.hub = s.hub)
    (hf : ∀ r, (t.client r).UserID = (s.client r).UserID ∧
      (t.client r).Send.closed = (s.client r).Send.closed) : RegInv t where
  owner := by intro u l c hg hc; rw [hh] at hg; rw [(hf c).1]; exact hs.owner u l c hg hc
  isOpen := by intro u l c hg hc; rw [hh] at hg; rw [(hf c).2]; exact hs.isOpen u l c hg hc
  nodup := by intro u l hg; rw [hh] at hg; exact hs.nodup u l hg
  nonempty := by intro u l hg; rw [hh] at hg; exact hs.nonempty u l hg
  keys := by rw [hh]; exact hs.keys

theorem SendToUser_frame (s : Mem) (u : UUID) (m : Bytes) (r : ClientRef) :
    ((Hub.SendToUser s u m).state.client r).UserID = (s.client r).UserID ∧
    ((Hub.SendToUser s u m).state.client r).Send.closed = (s.client r).Send.closed := by
  unfold Hub.SendToUser
  split
  · exact ⟨rfl, rfl⟩
  · exact ⟨(sendLoop_frame s m _ r).1, (sendLoop_frame s m _ r).2.1⟩

theorem RegInv_run (s : Mem) (op : Op) (hs : RegInv s) (ha : op.allowed s = true) :
    RegInv (op.run s).state := by
  cases op with
  | register c =>
    simp only [Op.allowed, Bool.and_eq_true, Bool.not_eq_true', decide_eq_true_eq] at ha
    exact RegInv_Register s c hs ha.1 ha.2
  | unregister c =>
    simp only [Op.allowed, decide_eq_true_eq] at ha
    exact RegInv_Unregister s c hs ha
  | sendToUser u m =>
    exact RegInv_of_frame s _ hs (SendToUser_hub s u m) (SendToUser_frame s u m)
  | recv c =>
    exact RegInv_of_frame s _ hs (writePumpRecv_hub s c) (writePumpRecv_frame s c)

/-- An allowed call in a state that satisfies the registry invariant does
not panic. -/
theorem allowed_no_panic (s : Mem) (op : Op) (hs : RegInv s) (ha : op.allowed s = true) :
    (op.run s).panicked = false := by
  cases op with
  | register c =>
    show (Hub.Register s c).panicked = false
    by_cases h : 5 ≤ (s.hub.clients.index (s.client c).UserID).length
    · cases hl : s.hub.clients.index (s.client c).UserID with
      | nil => rw [hl] at h; simp at h
      | cons oldest rest =>
        have hg : s.hub.clients.get (s.client c).UserID = some (oldest :: rest) := by
          have := ClientMap.get_of_index_ne_nil (m := s.hub.clients) (u := (s.client c).UserID)
            (by rw [hl]; simp)
          rw [this, hl]
        rw [Register_full s c oldest rest hl (by rw [← hl]; exact h)
          (hs.isOpen _ _ oldest hg (List.mem_cons_self _ _))]
    · rw [Register_small s c (by omega)]
  | unregister c =>
    simp only [Op.allowed, decide_eq_true_eq] at ha
    show (Hub.Unregister s c).panicked = false
    rw [Unregister_panicked]
    exact hs.isOpen _ _ c (ClientMap.get_of_index_ne_nil (List.ne_nil_of_mem ha)) ha
  | sendToUser u m =>
    show (Hub.SendToUser s u m).panicked = false
    unfold Hub.SendToUser
    split
    · rfl
    · rename_i l hg
      exact sendLoop_no_panic s m l (fun c hc => hs.isOpen u l c hg hc)
  | recv c => rfl

theorem RegInv_exec (ops : List Op) (s : Mem) (hs : RegInv s) (ha : allowedSeq s ops = true) :
    RegInv (exec s ops) := by
  induction ops generalizing s with
  | nil => exact hs
  | cons op rest ih =>
    simp only [allowedSeq, Bool.and_eq_true] at ha
    exact ih _ (RegInv_run s op hs ha.1) ha.2

theorem Reachable.regInv {s : Mem} (h : Reachable s) : RegInv s := by
  obtain ⟨s0, ops, h0, ha, he⟩ := h
  subst he
  refine RegInv_exec ops s0 ?_ ha
  obtain ⟨hub, heap⟩ := s0
  simp only at h0
  subst h0
  exact RegInv_NewHub heap

theorem Reachable.cap {s : Mem} (h : Reachable s) : CapInv s := by
  obtain ⟨s0, ops, h0, _, he⟩ := h
  subst he
  refine capInv_exec ops s0 ?_
  intro u
  rw [h0]
  simp [NewHub, ClientMap.index, ClientMap.get]

/-! ## Properties of the Hub methods -/

theorem Client.ext_fields {a b : Client} (h1 : a.UserID = b.UserID) (h2 : a.Send.buf = b.Send.buf)
    (h3 : a.Send.cap = b.Send.cap) (h4 : a.Send.closed = b.Send.closed) : a = b := by
  obtain ⟨ua, ⟨ba, ca, cla⟩⟩ := a
  obtain ⟨ub, ⟨bb, cb, clb⟩⟩ := b
  simp only at h1 h2 h3 h4
  subst h1 h2 h3 h4
  rfl

/-- C2. In a program state, for a user `u` whose list is `[c1, c2, c3, c4, c5]`
and a connection `c6` of `u`, `Register c6` returns normally, leaves `u` with
`[c2, c3, c4, c5, c6]`, closes the (until then open) queue of `c1`, changes
no other client and no other user's list. When `u` has fewer than five
connections, `Register c6` appends `c6` at the end, changes no client (so
closes nothing) and no other user's list. -/
theorem Register_evicts_oldest_or_appends (s : Mem) (hs : Reachable s) (u : UUID)
    (c6 : ClientRef) (hu : (s.client c6).UserID = u) :
    (∀ c1 c2 c3 c4 c5, s.hub.clients.get u = some [c1, c2, c3, c4, c5] →
      (Hub.Register s c6).panicked = false ∧
      (Hub.Register s c6).state.hub.clients.get u = some [c2, c3, c4, c5, c6] ∧
      (s.client c1).Send.closed = false ∧
      (Hub.Register s c6).state.client c1 =
        { s.client c1 with Send := { (s.client c1).Send with closed := true } } ∧
      (∀ d, d ≠ c1 → (Hub.Register s c6).state.client d = s.client d) ∧
      (∀ v, v ≠ u → (Hub.Register s c6).state.hub.clients.get v = s.hub.clients.get v)) ∧
    (∀ l, s.hub.clients.index u = l → l.length < 5 →
      (Hub.Register s c6).panicked = false ∧
      (Hub.Register s c6).state.hub.clients.get u = some (l ++ [c6]) ∧
      (∀ d, (Hub.Register s c6).state.client d = s.client d) ∧
      (∀ v, v ≠ u → (Hub.Register s c6).state.hub.clients.get v = s.hub.clients.get v)) := by
  subst hu
  constructor
  · intro c1 c2 c3 c4 c5 hg
    have hl := ClientMap.index_of_get hg
    have ho : (s.client c1).Send.closed = false :=
      hs.regInv.isOpen _ _ c1 hg (List.mem_cons_self _ _)
    rw [Register_full s c6 c1 [c2, c3, c4, c5] hl (by simp) ho]
    refine ⟨rfl, ?_, ho, ?_, ?_, ?_⟩
    · simp [ClientMap.get_set]
    · simp [Mem.setSend_client]
    · intro d hd
      simp [Mem.setSend_client, hd]
    · intro v hv
      simp [ClientMap.get_set, hv]
  · intro l hl hlt
    subst hl
    rw [Register_small s c6 hlt]
    refine ⟨rfl, ?_, fun d => rfl, ?_⟩
    · simp [ClientMap.get_set]
    · intro v hv
      simp [ClientMap.get_set, hv]

/-- Witness for C2: the sixth connection of user 1 evicts client 10; a third
connection of user 1 is appended. -/
theorem Register_evicts_oldest_or_appends_witness :
    (Reachable demoFive ∧
      (Hub.Register demoFive 15).state.hub.clients.get 1 = some [11, 12, 13, 14, 15]) ∧
    (Reachable demoTwo ∧
      (Hub.Register demoTwo 12).state.hub.clients.get 1 = some [10, 11, 12]) :=
  ⟨⟨⟨demoMem, _, rfl, by decide, rfl⟩,
    ((Register_evicts_oldest_or_appends demoFive ⟨demoMem, _, rfl, by decide, rfl⟩ 1 15 rfl).1
      10 11 12 13 14 (by decide)).2.1⟩,
   ⟨⟨demoMem, _, rfl, by decide, rfl⟩,
    ((Register_evicts_oldest_or_appends demoTwo ⟨demoMem, _, rfl, by decide, rfl⟩ 1 12 rfl).2
      [10, 11] (by decide) (by decide)).2.1⟩⟩

/-- Whatever the state, a second `Unregister` of the same client panics: the
first call leaves `c.Send` closed (or panicked on it), and the second closes
it again. -/
theorem Unregister_second_call_panics (s : Mem) (c : ClientRef) :
    (Hub.Unregister (Hub.Unregister s c).state c).panicked = true := by
  rw [Unregister_panicked, Unregister_client]
  cases hc : (s.client c).Send.closed <;> simp [hc]

/-- C3 (code defect). With clients 10 and 11 of user 1 registered, the first
`Unregister 10` returns normally and the second one panics on
`close(c.Send)` (hub.go:83); the registry is the same after both calls. -/
theorem Unregister_twice_panics :
    (Hub.Unregister demoTwo 10).panicked = false ∧
    (Hub.Unregister (Hub.Unregister demoTwo 10).state 10).panicked = true ∧
    (Hub.Unregister (Hub.Unregister demoTwo 10).state 10).state.hub =
      (Hub.Unregister demoTwo 10).state.hub := by
  decide

/-- After `Register` found the list of `c`'s user full, `Unregister` of the
connection that was oldest panics. -/
theorem Unregister_after_eviction_panics (s : Mem) (c oldest : ClientRef) (rest : List ClientRef)
    (hl : s.hub.clients.index (s.client c).UserID = oldest :: rest)
    (h5 : 5 ≤ (oldest :: rest).length) :
    (Hub.Unregister (Hub.Register s c).state oldest).panicked = true := by
  rw [Unregister_panicked]
  cases ho : (s.client oldest).Send.closed
  · rw [Register_full s c oldest rest hl h5 ho]
    simp [Mem.setSend_client]
  · rw [Register_full_panic s c oldest rest hl h5 ho]
    exact ho

/-- C4 (code defect). With clients 10..14 of user 1 registered, `Register 15`
evicts client 10 and returns normally; the `Unregister 10` that client 10's
reader pump then issues (handler.go:146) panics on `close(c.Send)`
(hub.go:83), while the registry is left as `Register` made it. -/
theorem Unregister_of_evicted_panics :
    (Hub.Register demoFive 15).panicked = false ∧
    (Hub.Register demoFive 15).state.hub.clients.get 1 = some [11, 12, 13, 14, 15] ∧
    ((Hub.Register demoFive 15).state.client 10).Send.closed = true ∧
    (Hub.Unregister (Hub.Register demoFive 15).state 10).panicked = true ∧
    (Hub.Unregister (Hub.Register demoFive 15).state 10).state.hub.clients.get 1 =
      some [11, 12, 13, 14, 15] := by
  decide

/-- C5. In a program state, for a connection `c` of user `u` that is in `u`'s
list `l`, `Unregister c` returns normally; `u`'s list becomes `l` without
the entries identical to `c` (the others in their order); `u`'s key is
removed exactly when that list is empty; the (until then open) queue of `c`
is closed, with its content kept; no other client changes and no other
user's list changes. -/
theorem Unregister_removes_connection (s : Mem) (hs : Reachable s) (u : UUID) (c : ClientRef)
    (l : List ClientRef) (hu : (s.client c).UserID = u) (hl : s.hub.clients.get u = some l)
    (hc : c ∈ l) :
    (Hub.Unregister s c).panicked = false ∧
    (Hub.Unregister s c).state.hub.clients.index u = l.filter (fun e => decide (e ≠ c)) ∧
    ((Hub.Unregister s c).state.hub.clients.get u = none ↔
      l.filter (fun e => decide (e ≠ c)) = []) ∧
    (s.client c).Send.closed = false ∧
    (Hub.Unregister s c).state.client c =
      { s.client c with Send := { (s.client c).Send with closed := true } } ∧
    (∀ d, d ≠ c → (Hub.Unregister s c).state.client d = s.client d) ∧
    (∀ v, v ≠ u → (Hub.Unregister s c).state.hub.clients.get v = s.hub.clients.get v) := by
  subst hu
  have ho : (s.client c).Send.closed = false := hs.regInv.isOpen _ _ c hl hc
  have hi := ClientMap.index_of_get hl
  have hget := Unregister_get s c (s.client c).UserID
  rw [if_pos rfl, hi] at hget
  refine ⟨?_, ?_, ?_, ho, ?_, ?_, ?_⟩
  · rw [Unregister_panicked, ho]
  · unfold ClientMap.index
    rw [hget]
    split
    · rename_i h; rw [h]; rfl
    · rfl
  · rw [hget]
    split
    · rename_i h; exact ⟨fun _ => h, fun _ => rfl⟩
    · rename_i h; exact ⟨fun e => (by cases e), fun e => absurd e h⟩
  · rw [Unregister_client, if_pos ⟨rfl, ho⟩]
  · intro d hd
    rw [Unregister_client, if_neg (fun h => hd h.1)]
  · intro v hv
    rw [Unregister_get, if_neg hv]

/-- Witness for C5: client 10 of user 1 leaves while client 11 stays. -/
theorem Unregister_removes_connection_witness :
    Reachable demoTwo ∧ demoTwo.hub.clients.get 1 = some [10, 11] ∧
    (Hub.Unregister demoTwo 10).state.hub.clients.index 1 = [11] :=
  ⟨⟨demoMem, _, rfl, by decide, rfl⟩, by decide,
    (Unregister_removes_connection demoTwo ⟨demoMem, _, rfl, by decide, rfl⟩ 1 10 [10, 11] rfl
      (by decide) (by decide)).2.1⟩

/-- C6. For a user id without an entry in the registry, `SendToUser` returns
normally and leaves the whole memory as it was: the registry map is the same
(it still has no entry for that user) and no client, hence no outbound
queue, changes. -/
theorem SendToUser_unregistered_noop (s : Mem) (u : UUID) (m : Bytes)
    (h : s.hub.clients.get u = none) :
    (Hub.SendToUser s u m).panicked = false ∧
    (Hub.SendToUser s u m).state = s ∧
    (Hub.SendToUser s u m).state.hub.clients = s.hub.clients ∧
    (Hub.SendToUser s u m).state.hub.clients.get u = none ∧
    (∀ d, (Hub.SendToUser s u m).state.client d = s.client d) := by
  have hst : Hub.SendToUser s u m = ⟨s, false⟩ := by
    unfold Hub.SendToUser
    rw [h]
  rw [hst]
  exact ⟨rfl, rfl, rfl, h, fun _ => rfl⟩

/-- Witness for C6: user 3 has no connection in `demoTwo`. -/
theorem SendToUser_unregistered_noop_witness :
    demoTwo.hub.clients.get 3 = none ∧ (Hub.SendToUser demoTwo 3 [1, 2]).state = demoTwo :=
  ⟨by decide, (SendToUser_unregistered_noop demoTwo 3 [1, 2] (by decide)).2.1⟩

/-- C7. In a program state, `SendToUser u m` returns normally and leaves the
registry unchanged; each connection of `u` whose queue has room gets `m`
appended once at the back of its queue, each connection of `u` whose queue
is full keeps its queue as it is, all of them stay open; clients that are
not in `u`'s list, in particular those of another user, do not change. -/
theorem SendToUser_delivers (s : Mem) (hs : Reachable s) (u : UUID) (m : Bytes) :
    (Hub.SendToUser s u m).panicked = false ∧
    (Hub.SendToUser s u m).state.hub = s.hub ∧
    (∀ c, c ∈ s.hub.clients.index u →
      (s.client c).Send.closed = false ∧
      ((Hub.SendToUser s u m).state.client c).Send.closed = false ∧
      (Hub.SendToUser s u m).state.client c =
        if (s.client c).Send.buf.length < (s.client c).Send.cap
        then { s.client c with Send := { (s.client c).Send with buf := (s.client c).Send.buf ++ [m] } }
        else s.client c) ∧
    (∀ d, d ∉ s.hub.clients.index u → (Hub.SendToUser s u m).state.client d = s.client d) ∧
    (∀ d, (s.client d).UserID ≠ u → (Hub.SendToUser s u m).state.client d = s.client d) := by
  have hinv := hs.regInv
  have hnot : ∀ d, d ∉ s.hub.clients.index u →
      (Hub.SendToUser s u m).state.client d = s.client d := by
    intro d hd
    unfold Hub.SendToUser
    split
    · rfl
    · rename_i l hg
      rw [ClientMap.index_of_get hg] at hd
      exact sendLoop_not_mem s m l d hd
  refine ⟨?_, SendToUser_hub s u m, ?_, hnot, ?_⟩
  · unfold Hub.SendToUser
    split
    · rfl
    · rename_i l hg
      exact sendLoop_no_panic s m l (fun c hc => hinv.isOpen u l c hg hc)
  · intro c hc
    have hne : s.hub.clients.index u ≠ [] := List.ne_nil_of_mem hc
    have hg := ClientMap.get_of_index_ne_nil hne
    have ho := hinv.isOpen u _ c hg hc
    have hst : Hub.SendToUser s u m = Hub.sendLoop s m (s.hub.clients.index u) := by
      unfold Hub.SendToUser
      rw [hg]
    have hfr := sendLoop_frame s m (s.hub.clients.index u) c
    have hbuf := sendLoop_buf s m (s.hub.clients.index u) (hinv.nodup u _ hg)
      (fun x hx => hinv.isOpen u _ x hg hx) c hc
    rw [hst]
    refine ⟨ho, by rw [hfr.2.1, ho], ?_⟩
    apply Client.ext_fields
    · rw [hfr.1]; split <;> rfl
    · rw [hbuf]; split <;> rfl
    · rw [hfr.2.2]; split <;> rfl
    · rw [hfr.2.1]; split <;> rfl
  · intro d hd
    apply hnot
    intro hmem
    have hne : s.hub.clients.index u ≠ [] := List.ne_nil_of_mem hmem
    exact hd (hinv.owner u _ d (ClientMap.get_of_index_ne_nil hne) hmem)

/-- Witness for C7: a send to user 1 in `demoTwo` reaches clients 10 and 11
and leaves client 20 of user 2 alone. -/
theorem SendToUser_delivers_witness :
    Reachable demoTwo ∧ (Hub.SendToUser demoTwo 1 [7]).panicked = false ∧
    (Hub.SendToUser demoTwo 1 [7]).state.hub = demoTwo.hub :=
  ⟨⟨demoMem, _, rfl, by decide, rfl⟩,
    (SendToUser_delivers demoTwo ⟨demoMem, _, rfl, by decide, rfl⟩ 1 [7]).1,
    (SendToUser_delivers demoTwo ⟨demoMem, _, rfl, by decide, rfl⟩ 1 [7]).2.1⟩

end WS

namespace Jobs

/-! ## The worker's retry rule -/

theorem process_handled (cd : Codec) (w : Worker) (st : WState) (key raw : String)
    (j : NotificationJob) (h : Handler)
    (hdec : cd.unmarshal raw = some j) (hh : w.handlers j.Typ = some h) :
    (Worker.process cd w st [key, raw]).handled = st.handled ++ [j] := by
  unfold Worker.process
  simp only [hdec, hh]
  split
  · rfl
  · split
    · split <;> rfl
    · rfl

theorem process_success (cd : Codec) (w : Worker) (st : WState) (key raw : String)
    (j : NotificationJob) (h : Handler)
    (hdec : cd.unmarshal raw = some j) (hh : w.handlers j.Typ = some h)
    (hok : h st.handled.length j = none) :
    Worker.process cd w st [key, raw] = { st with handled := st.handled ++ [j] } := by
  unfold Worker.process
  simp only [hdec, hh, hok]

theorem process_requeue (cd : Codec) (w : Worker) (st : WState) (key raw : String)
    (j : NotificationJob) (h : Handler) (data : String)
    (hdec : cd.unmarshal raw = some j) (hh : w.handlers j.Typ = some h)
    (hfail : h st.handled.length j ≠ none) (hlt : j.Retries < 3)
    (hm : cd.marshal { j with Retries := j.Retries + 1 } = some data) :
    Worker.process cd w st [key, raw] =
      { st with rdb := (st.rdb.RPush data).1, handled := st.handled ++ [j] } := by
  unfold Worker.process
  simp only [hdec, hh]
  cases hr : h st.handled.length j with
  | none => exact absurd hr hfail
  | some e => simp only [if_pos hlt, hm]

theorem process_drop (cd : Codec) (w : Worker) (st : WState) (key raw : String)
    (j : NotificationJob) (h : Handler)
    (hdec : cd.unmarshal raw = some j) (hh : w.handlers j.Typ = some h)
    (hfail : h st.handled.length j ≠ none) (hge : ¬ j.Retries < 3) :
    Worker.process cd w st [key, raw] =
      { st with handled := st.handled ++ [j], dropped := st.dropped ++ [raw] } := by
  unfold Worker.process
  simp only [hdec, hh]
  cases hr : h st.handled.length j with
  | none => exact absurd hr hfail
  | some e => simp only [if_neg hge]

/-- C8. Worker retry rule. For a dequeued entry that decodes to a job `j`
with a registered handler, while the store accepts the append and the
re-encoding succeeds: the queue gets one entry appended at the back exactly
when the handler returned an error and `j.Retries < 3`, and that entry is
the encoding of `j` with `Retries + 1` and the other fields unchanged; in
every other case (success, or `j.Retries ≥ 3`) the queue is left as it is.
The handler is called once. -/
theorem Worker_retry_rule (cd : Codec) (w : Worker) (st : WState) (key raw : String)
    (j : NotificationJob) (h : Handler) (data : String)
    (hup : st.rdb.up = true)
    (hdec : cd.unmarshal raw = some j)
    (hh : w.handlers j.Typ = some h)
    (hm : cd.marshal ⟨j.Typ, j.UserID, j.Title, j.Message, j.Metadata, j.Retries + 1⟩ = some data) :
    ((Worker.process cd w st [key, raw]).rdb.list = st.rdb.list ++ [data] ↔
      (h st.handled.length j ≠ none ∧ j.Retries < 3)) ∧
    (¬ (h st.handled.length j ≠ none ∧ j.Retries < 3) →
      (Worker.process cd w st [key, raw]).rdb.list = st.rdb.list) ∧
    (Worker.process cd w st [key, raw]).handled = st.handled ++ [j] := by
  have hno : ¬ (h st.handled.length j ≠ none ∧ j.Retries < 3) →
      (Worker.process cd w st [key, raw]).rdb.list = st.rdb.list := by
    intro hc
    by_cases hf : h st.handled.length j = none
    · rw [process_success cd w st key raw j h hdec hh hf]
    · have hge : ¬ j.Retries < 3 := fun hlt => hc ⟨hf, hlt⟩
      rw [process_drop cd w st key raw j h hdec hh hf hge]
  refine ⟨⟨?_, ?_⟩, hno, process_handled cd w st key raw j h hdec hh⟩
  · intro heq
    by_contra hc
    rw [hno hc] at heq
    have := congrArg List.length heq
    simp at this
  · rintro ⟨hf, hlt⟩
    rw [process_requeue cd w st key raw j h data hdec hh hf hlt hm]
    simp [Redis.RPush, hup]

/-- Witness for C8: a failing push job with no retry so far is put back once,
with retry count 1. -/
theorem Worker_retry_rule_witness :
    demoCodec.marshal (demoJob.withRetries 1) = some "r" ∧
    (Worker.process demoCodec failingWorker ⟨⟨[], true⟩, [], []⟩ [queueKey, ""]).rdb.list
      = [] ++ ["r"] :=
  ⟨rfl, (Worker_retry_rule demoCodec failingWorker ⟨⟨[], true⟩, [], []⟩ queueKey "" demoJob
    (fun _ _ => some "delivery failed") "r" rfl rfl rfl rfl).1.2 ⟨by simp, by decide⟩⟩

/-! ## Retries are bounded -/

theorem iter_empty (cd : Codec) (w : Worker) (st : WState) (h : st.rdb.list = []) :
    Worker.iter cd w st = st := by
  obtain ⟨⟨l, up⟩, hd, dr⟩ := st
  simp only at h
  subst h
  cases up <;> rfl

theorem iter_cons (cd : Codec) (w : Worker) (l : List String) (d : String)
    (hd : List NotificationJob) (dr : List String) :
    Worker.iter cd w ⟨⟨d :: l, true⟩, hd, dr⟩ =
      Worker.process cd w ⟨⟨l, true⟩, hd, dr⟩ [queueKey, d] := rfl

/-- What one iteration does with the front entry `d` of a reachable store:
skip it, handle it and be done, handle it and put it back, or handle it and
drop it. -/
theorem iter_cases (cd : Codec) (w : Worker) (d : String) (rest : List String)
    (hd : List NotificationJob) (dr : List String) :
    ((cd.unmarshal d = none ∨ ∃ x, cd.unmarshal d = some x ∧ w.handlers x.Typ = none) ∧
      Worker.iter cd w ⟨⟨d :: rest, true⟩, hd, dr⟩ = ⟨⟨rest, true⟩, hd, dr⟩) ∨
    (∃ x h, cd.unmarshal d = some x ∧ w.handlers x.Typ = some h ∧
      (h hd.length x = none ∨
        (x.Retries < 3 ∧ cd.marshal (x.withRetries (x.Retries + 1)) = none)) ∧
      Worker.iter cd w ⟨⟨d :: rest, true⟩, hd, dr⟩ = ⟨⟨rest, true⟩, hd ++ [x], dr⟩) ∨
    (∃ x h data, cd.unmarshal d = some x ∧ w.handlers x.Typ = some h ∧
      h hd.length x ≠ none ∧ x.Retries < 3 ∧
      cd.marshal (x.withRetries (x.Retries + 1)) = some data ∧
      Worker.iter cd w ⟨⟨d :: rest, true⟩, hd, dr⟩ = ⟨⟨rest ++ [data], true⟩, hd ++ [x], dr⟩) ∨
    (∃ x h, cd.unmarshal d = some x ∧ w.handlers x.Typ = some h ∧
      h hd.length x ≠ none ∧ ¬ x.Retries < 3 ∧
      Worker.iter cd w ⟨⟨d :: rest, true⟩, hd, dr⟩ = ⟨⟨rest, true⟩, hd ++ [x], dr ++ [d]⟩) := by
  rw [iter_cons]
  cases hdec : cd.unmarshal d with
  | none =>
    refine Or.inl ⟨Or.inl rfl, ?_⟩
    unfold Worker.process
    simp only [hdec]
  | some x =>
    cases hh : w.handlers x.Typ with
    | none =>
      refine Or.inl ⟨Or.inr ⟨x, rfl, hh⟩, ?_⟩
      unfold Worker.process
      simp only [hdec, hh]
    | some h =>
      by_cases hf : h hd.length x = none
      · exact Or.inr (Or.inl ⟨x, h, rfl, hh, Or.inl hf,
          process_success cd w _ queueKey d x h hdec hh hf⟩)
      · by_cases hlt : x.Retries < 3
        · cases hm : cd.marshal (x.withRetries (x.Retries + 1)) with
          | none =>
            refine Or.inr (Or.inl ⟨x, h, rfl, hh, Or.inr ⟨hlt, hm⟩, ?_⟩)
            unfold Worker.process
            simp only [hdec, hh]
            cases hr : h hd.length x with
            | none => exact absurd hr hf
            | some e =>
              have hm2 : cd.marshal { x with Retries := x.Retries + 1 } = none := hm
              simp only [if_pos hlt, hm2]
          | some data =>
            refine Or.inr (Or.inr (Or.inl ⟨x, h, data, rfl, hh, hf, hlt, hm, ?_⟩))
            rw [process_requeue cd w _ queueKey d x h data hdec hh hf hlt hm]
            rfl
        · exact Or.inr (Or.inr (Or.inr ⟨x, h, rfl, hh, hf, hlt,
            process_drop cd w _ queueKey d x h hdec hh hf hlt⟩))

end Jobs

namespace Services

/-! ## The push handler and the retry rule -/

theorem mainWorker_push (env : Nat → PushEnv) :
    (mainWorker env).handlers Jobs.JobTypePush =
      some (fun n job => (pushJobHandler (env n) job).2) := by
  simp [mainWorker, Jobs.Worker.Register]

/-- C10 (as stated, fails). With the subscription lookup failing, and with
the push provider unreachable, the external delivery of `demoJob` fails and
the handler registered for push jobs still returns nil; the worker that
`main` sets up consumes the job after one attempt and leaves the queue
empty. -/
theorem push_failure_reported_as_success :
    deliveryFailed (DispatchPushJob lookupDown Jobs.demoJob) = true ∧
    (pushJobHandler lookupDown Jobs.demoJob).2 = none ∧
    deliveryFailed (DispatchPushJob providerDown Jobs.demoJob) = true ∧
    (pushJobHandler providerDown Jobs.demoJob).2 = none ∧
    Jobs.Worker.run Jobs.demoCodec (mainWorker fun _ => providerDown) 5 ⟨⟨[""], true⟩, [], []⟩ =
      ⟨⟨[], true⟩, [Jobs.demoJob], []⟩ := by
  decide

/-- C10 (amended). The handler registered for push jobs returns nil whatever
the outcome of the external delivery, and the worker that `main` sets up
handles a dequeued push job once and leaves the queue and the drop log as
they are: a push job is never re-enqueued. -/
theorem push_job_never_retried (env : Nat → PushEnv) (cd : Jobs.Codec) (st : Jobs.WState)
    (key raw : String) (job : Jobs.NotificationJob)
    (hdec : cd.unmarshal raw = some job) (hpush : job.Typ = Jobs.JobTypePush) :
    (∀ (e : PushEnv) (j : Jobs.NotificationJob), (pushJobHandler e j).2 = none) ∧
    Jobs.Worker.process cd (mainWorker env) st [key, raw] =
      { st with handled := st.handled ++ [job] } := by
  refine ⟨fun _ _ => rfl, ?_⟩
  have hh : (mainWorker env).handlers job.Typ =
      some (fun n job => (pushJobHandler (env n) job).2) := by
    rw [hpush]; exact mainWorker_push env
  exact Jobs.process_success cd (mainWorker env) st key raw job _ hdec hh rfl

/-- Witness for C10 (amended): the push job `demoJob` with an unreachable
provider. -/
theorem push_job_never_retried_witness :
    Jobs.demoCodec.unmarshal "" = some Jobs.demoJob ∧
    Jobs.Worker.process Jobs.demoCodec (mainWorker fun _ => providerDown) ⟨⟨[], true⟩, [], []⟩
      [Jobs.queueKey, ""] = ⟨⟨[], true⟩, [] ++ [Jobs.demoJob], []⟩ :=
  ⟨rfl, (push_job_never_retried (fun _ => providerDown) Jobs.demoCodec ⟨⟨[], true⟩, [], []⟩
    Jobs.queueKey "" Jobs.demoJob rfl rfl).2⟩

end Services

namespace Jobs

/-! ## Enqueue -/

/-- C11. On the disabled queue, the nil `*Queue` that `NewQueue` returns for a
nil Redis client, `Enqueue` returns `enqueued = false` and `err = nil` for
every job and leaves the Redis state as it is; the model of `Enqueue` is a
total function, there is no panic. -/
theorem Enqueue_disabled (cd : Codec) (r : Redis) (job : NotificationJob) :
    NewQueue none = none ∧
    Queue.Enqueue cd (NewQueue none) r job = (r, false, none) :=
  ⟨rfl, rfl⟩

theorem RPush_ok {r r2 : Redis} {data : String} (h : r.RPush data = (r2, none)) :
    r.up = true ∧ r2 = { r with list := r.list ++ [data] } := by
  unfold Redis.RPush at h
  split at h
  · rename_i hup
    injection h with h1 h2
    exact ⟨hup, h1.symm⟩
  · injection h with h1 h2
    cases h2

theorem RPush_err {r r2 : Redis} {data : String} {e : RedisErr}
    (h : r.RPush data = (r2, some e)) : r.up = false ∧ r2 = r := by
  unfold Redis.RPush at h
  split at h
  · injection h with h1 h2
    cases h2
  · rename_i hup
    injection h with h1 h2
    exact ⟨by simpa using hup, h1.symm⟩

/-- The three ways `Enqueue` ends on an enabled queue. -/
theorem Enqueue_cases (cd : Codec) (q : Queue) (r : Redis) (job : NotificationJob) :
    (cd.marshal job = none ∧ Queue.Enqueue cd (some q) r job = (r, false, some .marshal)) ∨
    (∃ data e, cd.marshal job = some data ∧ r.up = false ∧ (r.RPush data).2 = some e ∧
      Queue.Enqueue cd (some q) r job = (r, false, some (.redis e))) ∨
    (∃ data, cd.marshal job = some data ∧ r.up = true ∧ (r.RPush data).2 = none ∧
      Queue.Enqueue cd (some q) r job = ({ r with list := r.list ++ [data] }, true, none)) := by
  cases hm : cd.marshal job with
  | none => exact Or.inl ⟨rfl, by simp only [Queue.Enqueue, hm]⟩
  | some data =>
    cases hp : r.RPush data with
    | mk r2 err =>
      cases err with
      | none =>
        obtain ⟨hup, hr2⟩ := RPush_ok hp
        subst hr2
        exact Or.inr (Or.inr ⟨data, rfl, hup, by rw [hp], by simp only [Queue.Enqueue, hm, hp]⟩)
      | some e =>
        obtain ⟨hup, hr2⟩ := RPush_err hp
        subst hr2
        exact Or.inr (Or.inl ⟨data, e, rfl, hup, by rw [hp],
          by simp only [Queue.Enqueue, hm, hp]⟩)

/-- C12. On an enabled queue, for every job and every Redis state: `Enqueue`
returns `enqueued = true` exactly when the job was serialised and the
`RPush` of it succeeded; then `err` is nil and the list is the previous list
with the serialised job added at the back; when the store is unreachable
`enqueued` is false; and whenever `enqueued` is false the Redis state, so
the list, is unchanged. -/
theorem Enqueue_enabled (cd : Codec) (q : Queue) (r : Redis) (job : NotificationJob) :
    ((Queue.Enqueue cd (some q) r job).2.1 = true ↔
      ∃ data, cd.marshal job = some data ∧ (r.RPush data).2 = none) ∧
    ((Queue.Enqueue cd (some q) r job).2.1 = true →
      (Queue.Enqueue cd (some q) r job).2.2 = none ∧
      ∃ data, cd.marshal job = some data ∧
        (Queue.Enqueue cd (some q) r job).1.list = r.list ++ [data] ∧
        (Queue.Enqueue cd (some q) r job).1.up = r.up) ∧
    (r.up = false → (Queue.Enqueue cd (some q) r job).2.1 = false) ∧
    ((Queue.Enqueue cd (some q) r job).2.1 = false →
      (Queue.Enqueue cd (some q) r job).1 = r) := by
  rcases Enqueue_cases cd q r job with ⟨hm, he⟩ | ⟨data, e, hm, hup, hp, he⟩ |
    ⟨data, hm, hup, hp, he⟩
  · rw [he]
    refine ⟨⟨fun h => (by cases h), ?_⟩, fun h => (by cases h), fun _ => rfl, fun _ => rfl⟩
    rintro ⟨data, hd, _⟩
    rw [hm] at hd
    cases hd
  · rw [he]
    refine ⟨⟨fun h => (by cases h), ?_⟩, fun h => (by cases h), fun _ => rfl, fun _ => rfl⟩
    rintro ⟨data2, hd, hp2⟩
    rw [hm] at hd
    injection hd with hd
    subst hd
    rw [hp] at hp2
    cases hp2
  · rw [he]
    refine ⟨⟨fun _ => ⟨data, hm, hp⟩, fun _ => rfl⟩, fun _ => ⟨rfl, data, hm, rfl, rfl⟩, ?_,
      fun h => (by cases h)⟩
    intro hdown
    rw [hup] at hdown
    cases hdown

theorem Enqueue_never_true_with_error (cd : Codec) (q : Option Queue) (r : Redis)
    (job : NotificationJob) (e : EnqueueErr) :
    (Queue.Enqueue cd q r job).2 ≠ (true, some e) := by
  cases q with
  | none => intro h; cases h
  | some q =>
    rcases Enqueue_cases cd q r job with ⟨_, he⟩ | ⟨_, _, _, _, _, he⟩ | ⟨_, _, _, _, he⟩ <;>
      rw [he] <;> intro h <;> cases h

end Jobs

namespace Services

/-! ## SaveNotification and SendPushNotification -/

theorem dispatches_append (a b : List Effect) :
    dispatches (a ++ b) = dispatches a ++ dispatches b := by
  simp [dispatches]

theorem enqueuedJobs_append (a b : List Effect) :
    enqueuedJobs (a ++ b) = enqueuedJobs a ++ enqueuedJobs b := by
  induction a with
  | nil => rfl
  | cons e rest ih => cases e <;> simp [enqueuedJobs, ih]

theorem insertedRows_append (a b : List Effect) :
    insertedRows (a ++ b) = insertedRows a ++ insertedRows b := by
  induction a with
  | nil => rfl
  | cons e rest ih =>
    cases e with
    | dbCreate n err => cases err <;> simp [insertedRows, ih]
    | _ => simp [insertedRows, ih]

/-- The effects of `SaveNotification`: the insert, then the fan-out calls when
the insert succeeded. -/
theorem SaveNotification_effects (s : NotificationService) (env : SaveEnv) (userID : WS.UUID)
    (title message notifType : String) (metadata : Jobs.Metadata) :
    (∃ err, env.create ⟨env.newID, userID, title, message, notifType, false,
        env.metaJSON metadata, env.now⟩ = .error err ∧
      (SaveNotification s env userID title message notifType metadata).effects =
        [.dbCreate ⟨env.newID, userID, title, message, notifType, false,
          env.metaJSON metadata, env.now⟩ (some err)]) ∨
    (∃ stored, env.create ⟨env.newID, userID, title, message, notifType, false,
        env.metaJSON metadata, env.now⟩ = .ok stored ∧
      (SaveNotification s env userID title message notifType metadata).effects =
        [.dbCreate ⟨env.newID, userID, title, message, notifType, false,
          env.metaJSON metadata, env.now⟩ none]
        ++ (if s.Hub then [.hubSendToUser userID ((env.marshal stored).getD [])] else [])
        ++ (if s.Broker.isSome then [.brokerPublish userID ((env.marshal stored).getD [])]
            else [])) := by
  cases h : env.create ⟨env.newID, userID, title, message, notifType, false,
      env.metaJSON metadata, env.now⟩ with
  | error err =>
    refine Or.inl ⟨err, rfl, ?_⟩
    simp only [SaveNotification, h]
  | ok stored =>
    refine Or.inr ⟨stored, rfl, ?_⟩
    simp only [SaveNotification, h]

theorem SaveNotification_no_push (s : NotificationService) (env : SaveEnv) (userID : WS.UUID)
    (title message notifType : String) (metadata : Jobs.Metadata) :
    dispatches (SaveNotification s env userID title message notifType metadata).effects = [] ∧
    enqueuedJobs (SaveNotification s env userID title message notifType metadata).effects = [] := by
  rcases SaveNotification_effects s env userID title message notifType metadata with
    ⟨err, _, he⟩ | ⟨stored, _, he⟩
  · rw [he]; exact ⟨rfl, rfl⟩
  · rw [he]
    cases s.Hub <;> cases s.Broker <;> exact ⟨rfl, rfl⟩

/-- The effects and the Redis state of `SendPushNotification` in terms of the
result of `Enqueue`. -/
theorem SendPushNotification_eq (s : NotificationService) (env : SaveEnv) (cd : Jobs.Codec)
    (r : Jobs.Redis) (userID : WS.UUID) (title message : String) (metadata : Jobs.Metadata) :
    (SendPushNotification s env cd r userID title message metadata).1 =
      (Jobs.Queue.Enqueue cd s.Queue r
        ⟨Jobs.JobTypePush, userID, title, message, metadata, 0⟩).1 ∧
    (SendPushNotification s env cd r userID title message metadata).2.effects =
      (SaveNotification s env userID title message (notifTypeOf title) metadata).effects
      ++ [.enqueue ⟨Jobs.JobTypePush, userID, title, message, metadata, 0⟩]
      ++ (if (Jobs.Queue.Enqueue cd s.Queue r
            ⟨Jobs.JobTypePush, userID, title, message, metadata, 0⟩).2.1 = true then []
          else [.goDispatchPush userID title message metadata]) := by
  rcases h : Jobs.Queue.Enqueue cd s.Queue r
      ⟨Jobs.JobTypePush, userID, title, message, metadata, 0⟩ with ⟨r2, enq, err⟩
  cases err with
  | some e =>
    cases enq with
    | true =>
      exfalso
      apply Jobs.Enqueue_never_true_with_error cd s.Queue r
        ⟨Jobs.JobTypePush, userID, title, message, metadata, 0⟩ e
      rw [h]
    | false => simp [SendPushNotification, h]
  | none =>
    cases enq <;> simp [SendPushNotification, h]

/-- C13. For every call of `SendPushNotification`: when `Enqueue` reports the
job as enqueued, no `go s.dispatchPush(...)` is started; when it reports it
as not enqueued (the queue is disabled, or serialising or the store failed
with an error), exactly one is started, with the user id, title, message and
metadata of the call. -/
theorem SendPush_one_delivery_path (s : NotificationService) (env : SaveEnv) (cd : Jobs.Codec)
    (r : Jobs.Redis) (userID : WS.UUID) (title message : String) (metadata : Jobs.Metadata) :
    dispatches (SendPushNotification s env cd r userID title message metadata).2.effects =
      if (Jobs.Queue.Enqueue cd s.Queue r
          ⟨Jobs.JobTypePush, userID, title, message, metadata, 0⟩).2.1 = true then []
      else [.goDispatchPush userID title message metadata] := by
  rw [(SendPushNotification_eq s env cd r userID title message metadata).2,
    dispatches_append, dispatches_append,
    (SaveNotification_no_push s env userID title message (notifTypeOf title) metadata).1]
  split <;> rfl

/-- C14. For every call of `SendPushNotification`, exactly one job is handed
to `Enqueue`; its type is "push", its retry count 0, and its user id, title,
message and metadata are the arguments of the call. The Redis state after
the call is the one `Enqueue` leaves for that job. -/
theorem SendPush_job_fields (s : NotificationService) (env : SaveEnv) (cd : Jobs.Codec)
    (r : Jobs.Redis) (userID : WS.UUID) (title message : String) (metadata : Jobs.Metadata) :
    enqueuedJobs (SendPushNotification s env cd r userID title message metadata).2.effects =
      [{ Typ := "push", UserID := userID, Title := title, Message := message,
         Metadata := metadata, Retries := 0 }] ∧
    (SendPushNotification s env cd r userID title message metadata).1 =
      (Jobs.Queue.Enqueue cd s.Queue r
        { Typ := "push", UserID := userID, Title := title, Message := message,
          Metadata := metadata, Retries := 0 }).1 := by
  refine ⟨?_, (SendPushNotification_eq s env cd r userID title message metadata).1⟩
  rw [(SendPushNotification_eq s env cd r userID title message metadata).2,
    enqueuedJobs_append, enqueuedJobs_append,
    (SaveNotification_no_push s env userID title message (notifTypeOf title) metadata).2]
  split <;> rfl

/-- C15. When the insert of the notification row fails, `SaveNotification`
does nothing but the failed insert (which it logs): `Hub.SendToUser` is not
called, `Broker.Publish` is not called, and no row was inserted. -/
theorem SaveNotification_aborts_on_failed_insert (s : NotificationService) (env : SaveEnv)
    (userID : WS.UUID) (title message notifType : String) (metadata : Jobs.Metadata)
    (err : String)
    (h : env.create ⟨env.newID, userID, title, message, notifType, false,
      env.metaJSON metadata, env.now⟩ = .error err) :
    (SaveNotification s env userID title message notifType metadata).effects =
      [.dbCreate ⟨env.newID, userID, title, message, notifType, false,
        env.metaJSON metadata, env.now⟩ (some err)] ∧
    fanOut (SaveNotification s env userID title message notifType metadata).effects = [] ∧
    insertedRows (SaveNotification s env userID title message notifType metadata).effects = [] := by
  have he : (SaveNotification s env userID title message notifType metadata).effects =
      [.dbCreate ⟨env.newID, userID, title, message, notifType, false,
        env.metaJSON metadata, env.now⟩ (some err)] := by
    simp only [SaveNotification, h]
  rw [he]
  exact ⟨rfl, rfl, rfl⟩

/-- Witness for C15: with the database down, a full service only attempts the insert. -/
theorem SaveNotification_aborts_on_failed_insert_witness :
    fanOut (SaveNotification demoService dbDown 1 "Approved" "Task X approved" "success" []).effects
      = [] :=
  (SaveNotification_aborts_on_failed_insert demoService dbDown 1 "Approved" "Task X approved"
    "success" [] "connection refused" rfl).2.1

/-- C16. When the insert succeeds and leaves the record `stored`, with `p` the
serialisation of `stored` (nil when `json.Marshal` fails): the calls of
`SaveNotification` are the insert of one row, then `Hub.SendToUser(userID, p)`
unless the Hub is nil, then `Broker.Publish(userID, p)` unless the broker is
nil, each once and in that order; the row has the id, user id, title,
message, type and metadata of the call; and the error that `Publish` returns
changes nothing of the call. -/
theorem SaveNotification_fans_out_once (s : NotificationService) (env : SaveEnv)
    (userID : WS.UUID) (title message notifType : String) (metadata : Jobs.Metadata)
    (stored : Notification)
    (h : env.create ⟨env.newID, userID, title, message, notifType, false,
      env.metaJSON metadata, env.now⟩ = .ok stored) :
    (SaveNotification s env userID title message notifType metadata).effects =
      [.dbCreate ⟨env.newID, userID, title, message, notifType, false,
        env.metaJSON metadata, env.now⟩ none]
      ++ (if s.Hub then [.hubSendToUser userID ((env.marshal stored).getD [])] else [])
      ++ (if s.Broker.isSome then [.brokerPublish userID ((env.marshal stored).getD [])]
          else []) ∧
    insertedRows (SaveNotification s env userID title message notifType metadata).effects =
      [⟨env.newID, userID, title, message, notifType, false, env.metaJSON metadata, env.now⟩] ∧
    (s.Hub = true → s.Broker.isSome = true →
      fanOut (SaveNotification s env userID title message notifType metadata).effects =
        [.hubSendToUser userID ((env.marshal stored).getD []),
         .brokerPublish userID ((env.marshal stored).getD [])]) ∧
    (∀ p, env.marshal stored = some p → (env.marshal stored).getD [] = p) ∧
    (∀ f : WS.UUID → WS.Bytes → Option String,
      SaveNotification s { env with publish := f } userID title message notifType metadata =
        SaveNotification s env userID title message notifType metadata) := by
  have he : (SaveNotification s env userID title message notifType metadata).effects =
      [.dbCreate ⟨env.newID, userID, title, message, notifType, false,
        env.metaJSON metadata, env.now⟩ none]
      ++ (if s.Hub then [.hubSendToUser userID ((env.marshal stored).getD [])] else [])
      ++ (if s.Broker.isSome then [.brokerPublish userID ((env.marshal stored).getD [])]
          else []) := by
    simp only [SaveNotification, h]
  refine ⟨he, ?_, ?_, ?_, fun f => rfl⟩
  · rw [he]
    cases s.Hub <;> cases s.Broker <;> rfl
  · intro hh hb
    rw [he, hh, hb]
    rfl
  · intro p hp
    rw [hp]
    rfl

/-- Witness for C16: with the database up, a full service inserts the row and
then makes the two fan-out calls with the serialised record. -/
theorem SaveNotification_fans_out_once_witness :
    (SaveNotification demoService dbUp 1 "Approved" "Task X approved" "success" []).effects =
      [.dbCreate ⟨42, 1, "Approved", "Task X approved", "success", false, [], 1000⟩ none,
       .hubSendToUser 1 [42, 1], .brokerPublish 1 [42, 1]] :=
  (SaveNotification_fans_out_once demoService dbUp 1 "Approved" "Task X approved" "success" []
    ⟨42, 1, "Approved", "Task X approved", "success", false, [], 1000⟩ rfl).1

/-- C17 (as stated, fails). With the database down the insert fails, and what
`SaveNotification` and `SendPushNotification` return to their caller is what
they return with the database up: nothing. `SendPushNotification` still
hands the job to `Enqueue`, and the job is on the queue. -/
theorem insert_failure_not_reported :
    dbDown.create ⟨42, 1, "Approved", "Task X approved", "success", false, [], 1000⟩ =
      .error "connection refused" ∧
    (SaveNotification demoService dbDown 1 "Approved" "Task X approved" "success" []).result =
      (SaveNotification demoService dbUp 1 "Approved" "Task X approved" "success" []).result ∧
    (SendPushNotification demoService dbDown Jobs.demoCodec ⟨[], true⟩ 1 "Approved"
        "Task X approved" []).2.result =
      (SendPushNotification demoService dbUp Jobs.demoCodec ⟨[], true⟩ 1 "Approved"
        "Task X approved" []).2.result ∧
    (SendPushNotification demoService dbDown Jobs.demoCodec ⟨[], true⟩ 1 "Approved"
        "Task X approved" []).1 = ⟨[""], true⟩ :=
  ⟨rfl, rfl, rfl, by decide⟩

/-- C17 (amended). Neither `SaveNotification` nor `SendPushNotification`
reports a failure to its caller: they have no result, whatever the outside
world does, and a failed insert shows in the effects of `SaveNotification`
only as the logged insert. The enqueue and dispatch of
`SendPushNotification` and the Redis state it leaves do not depend on the
outcome of the insert. -/
theorem no_failure_reported (s : NotificationService) (env env2 : SaveEnv) (cd : Jobs.Codec)
    (r : Jobs.Redis) (userID : WS.UUID) (title message notifType : String)
    (metadata : Jobs.Metadata) :
    (SaveNotification s env userID title message notifType metadata).result =
      (SaveNotification s env2 userID title message notifType metadata).result ∧
    (SendPushNotification s env cd r userID title message metadata).2.result =
      (SendPushNotification s env2 cd r userID title message metadata).2.result ∧
    (SendPushNotification s env cd r userID title message metadata).1 =
      (SendPushNotification s env2 cd r userID title message metadata).1 ∧
    enqueuedJobs (SendPushNotification s env cd r userID title message metadata).2.effects =
      enqueuedJobs (SendPushNotification s env2 cd r userID title message metadata).2.effects ∧
    dispatches (SendPushNotification s env cd r userID title message metadata).2.effects =
      dispatches (SendPushNotification s env2 cd r userID title message metadata).2.effects := by
  refine ⟨rfl, rfl, ?_, ?_, ?_⟩
  · rw [(SendPushNotification_eq s env cd r userID title message metadata).1,
      (SendPushNotification_eq s env2 cd r userID title message metadata).1]
  · rw [(SendPush_job_fields s env cd r userID title message metadata).1,
      (SendPush_job_fields s env2 cd r userID title message metadata).1]
  · rw [SendPush_one_delivery_path, SendPush_one_delivery_path]

/-- C18 (as stated, fails). With the database down the insert fails and no row
is written; `SendPushNotification` on an enabled queue still enqueues the
job, and on a disabled queue still starts the dispatch. -/
theorem push_without_history_row :
    insertedRows (SendPushNotification demoService dbDown Jobs.demoCodec ⟨[], true⟩ 1
      "Approved" "Task X approved" []).2.effects = [] ∧
    enqueuedJobs (SendPushNotification demoService dbDown Jobs.demoCodec ⟨[], true⟩ 1
      "Approved" "Task X approved" []).2.effects = [Jobs.demoJob] ∧
    (SendPushNotification demoService dbDown Jobs.demoCodec ⟨[], true⟩ 1
      "Approved" "Task X approved" []).1.list = [""] ∧
    insertedRows (SendPushNotification ⟨true, none, none⟩ dbDown Jobs.demoCodec ⟨[], true⟩ 1
      "Approved" "Task X approved" []).2.effects = [] ∧
    dispatches (SendPushNotification ⟨true, none, none⟩ dbDown Jobs.demoCodec ⟨[], true⟩ 1
      "Approved" "Task X approved" []).2.effects =
        [.goDispatchPush 1 "Approved" "Task X approved" []] := by
  decide

/-- C18 (amended). In every call of `SendPushNotification` the insert of the
history row is the first thing done: the effects are the insert (with its
outcome), then the fan-out calls of `SaveNotification` (none after a failed
insert), then the job handed to `Enqueue`, then the dispatch if the job was
not enqueued. So the row is written before any enqueue or dispatch whenever
the insert succeeds; the enqueue or dispatch follows in either case. -/
theorem insert_precedes_push (s : NotificationService) (env : SaveEnv) (cd : Jobs.Codec)
    (r : Jobs.Redis) (userID : WS.UUID) (title message : String) (metadata : Jobs.Metadata) :
    ∃ (err : Option String) (fan : List Effect),
      (SendPushNotification s env cd r userID title message metadata).2.effects =
        [.dbCreate ⟨env.newID, userID, title, message, notifTypeOf title, false,
          env.metaJSON metadata, env.now⟩ err]
        ++ fan
        ++ [.enqueue ⟨Jobs.JobTypePush, userID, title, message, metadata, 0⟩]
        ++ (if (Jobs.Queue.Enqueue cd s.Queue r
              ⟨Jobs.JobTypePush, userID, title, message, metadata, 0⟩).2.1 = true then []
            else [.goDispatchPush userID title message metadata]) ∧
      fanOut fan = fan ∧
      (err ≠ none → fan = []) ∧
      (err = none ↔ ∃ stored, env.create ⟨env.newID, userID, title, message, notifTypeOf title,
        false, env.metaJSON metadata, env.now⟩ = .ok stored) := by
  rcases SaveNotification_effects s env userID title message (notifTypeOf title) metadata with
    ⟨e, hc, he⟩ | ⟨stored, hc, he⟩
  · refine ⟨some e, [], ?_, rfl, fun _ => rfl, ?_⟩
    · rw [(SendPushNotification_eq s env cd r userID title message metadata).2, he]
      rfl
    · constructor
      · intro h; cases h
      · rintro ⟨stored, hs⟩
        rw [hc] at hs
        cases hs
  · refine ⟨none, (if s.Hub then [.hubSendToUser userID ((env.marshal stored).getD [])] else [])
      ++ (if s.Broker.isSome then [.brokerPublish userID ((env.marshal stored).getD [])]
          else []), ?_, ?_, fun h => absurd rfl h, ?_⟩
    · rw [(SendPushNotification_eq s env cd r userID title message metadata).2, he]
      simp only [List.append_assoc]
    · cases s.Hub <;> cases s.Broker <;> rfl
    · exact ⟨fun _ => ⟨stored, hc⟩, fun _ => rfl⟩

end Services

namespace InfraRedis

/-! ## Topics and the publish/subscribe round trip -/

theorem notifyChannel_injective (text : WS.UUID → String) (h : Function.Injective text) :
    Function.Injective (notifyChannel text) := by
  intro u v huv
  apply h
  unfold notifyChannel at huv
  have hd := congrArg String.data huv
  simp only [String.data_append] at hd
  exact String.ext (List.append_cancel_left hd)

theorem Publish_eq (text : WS.UUID → String) (ec : EventCodec) (b : Broker) (bus : Bus)
    (u : WS.UUID) (p : WS.Bytes) (msg : String) (hm : ec.marshal ⟨text u, p⟩ = some msg) :
    Broker.Publish text ec (some b) bus u p =
      ((bus.publish (notifyChannel text u) msg).1,
        (bus.publish (notifyChannel text u) msg).2.map PublishErr.redis) := by
  simp only [Broker.Publish, hm]
  cases hp : bus.publish (notifyChannel text u) msg with
  | mk bus2 err => cases err <;> rfl

theorem publish_after_subscribe (bus : Bus) (hup : bus.up = true) (c1 c2 msg : String) :
    ((bus.subscribe c2).publish c1 msg).1.subs =
      (bus.publish c1 msg).1.subs ++ [⟨c2, if c2 = c1 then [msg] else []⟩] ∧
    ((bus.subscribe c2).publish c1 msg).2 = none := by
  simp only [Bus.publish, Bus.subscribe, hup, if_true, List.map_append, List.map_cons,
    List.map_nil, and_true]
  congr 1
  split <;> simp

/-- C19. The topic of a user is "notify:" followed by the text of the user
id. On a configured broker, `Publish(u, p)` publishes its message on the
topic of `u` and `SubscribeUser(u)` subscribes to the topic of `u`. When the
texts of two different user ids differ, so do their topics: a message that
`Publish(u, p)` sends reaches the subscription that `SubscribeUser(v)`
opened exactly when `u = v`. -/
theorem topic_per_user (text : WS.UUID → String) (hinj : Function.Injective text) :
    (∀ u, notifyChannel text u = "notify:" ++ text u) ∧
    (∀ (ec : EventCodec) (b : Broker) (bus : Bus) (u : WS.UUID) (p : WS.Bytes) (msg : String),
      ec.marshal ⟨text u, p⟩ = some msg →
      Broker.Publish text ec (some b) bus u p =
        ((bus.publish (notifyChannel text u) msg).1,
          (bus.publish (notifyChannel text u) msg).2.map PublishErr.redis)) ∧
    (∀ (b : Broker) (bus : Bus) (u : WS.UUID),
      Broker.SubscribeUser text (some b) bus u = bus.subscribe (notifyChannel text u)) ∧
    (∀ u v, u ≠ v → notifyChannel text u ≠ notifyChannel text v) ∧
    (∀ (ec : EventCodec) (b : Broker) (bus : Bus) (u v : WS.UUID) (p : WS.Bytes) (msg : String),
      bus.up = true → ec.marshal ⟨text u, p⟩ = some msg →
      (Broker.Publish text ec (some b) (Broker.SubscribeUser text (some b) bus v) u p).1.subs =
        (bus.publish (notifyChannel text u) msg).1.subs ++
          [⟨notifyChannel text v, if v = u then [msg] else []⟩]) := by
  refine ⟨fun _ => rfl, fun ec b bus u p msg hm => Publish_eq text ec b bus u p msg hm,
    fun _ _ _ => rfl, fun u v huv h => huv (notifyChannel_injective text hinj h), ?_⟩
  intro ec b bus u v p msg hup hm
  rw [Publish_eq text ec b _ u p msg hm]
  show ((bus.subscribe (notifyChannel text v)).publish (notifyChannel text u) msg).1.subs = _
  rw [(publish_after_subscribe bus hup _ _ msg).1]
  congr 2
  by_cases huv : v = u
  · subst huv; simp
  · have : notifyChannel text v ≠ notifyChannel text u :=
      fun h => huv (notifyChannel_injective text hinj h)
    simp [huv, this]

theorem demoText_injective : Function.Injective demoText := by
  intro u v h
  have hd := congrArg String.length h
  simpa [demoText, String.length] using hd

/-- Witness for C19: the topics of users 1 and 2 under `demoText`. -/
theorem topic_per_user_witness :
    notifyChannel demoText 1 = "notify:u" ∧ notifyChannel demoText 1 ≠ notifyChannel demoText 2 :=
  ⟨by decide, (topic_per_user demoText demoText_injective).2.2.2.1 1 2 (by decide)⟩

end InfraRedis

namespace InfraRedis

/-! ## The broker without a bus -/

/-- C21. With no bus configured, `NewBroker(nil)` is the nil broker; on it
`Publish` returns nil and leaves the bus as it is, for every user id and
payload, whatever the codec; `SubscribeUser` opens no subscription, and
whatever is sent on the bus `onMessage` is never called. -/
theorem nil_broker_noop (text : WS.UUID → String) (ec : EventCodec) (bus : Bus) (u : WS.UUID)
    (p : WS.Bytes) (received : List String) :
    NewBroker none = none ∧
    Broker.Publish text ec (NewBroker none) bus u p = (bus, none) ∧
    Broker.SubscribeUser text (NewBroker none) bus u = bus ∧
    Broker.onMessageCalls ec (NewBroker none) received = [] :=
  ⟨rfl, rfl, rfl, rfl⟩

end InfraRedis

namespace WS

/-! ## Keepalive timing -/

/-- C28. The ping period is `(pongWait * 9) / 10` = 54 s, strictly less than
the pong deadline `pongWait` = 60 s; both fit a `time.Duration`. With ticks
at the multiples of `pingPeriod`, every window of length `pongWait` that
starts at a time `t` holds a tick: some tick is later than `t` and not
later than `t + pongWait`. -/
theorem pingPeriod_lt_pongWait :
    pingPeriod = (pongWait * 9) / 10 ∧
    pingPeriod = 54 * second ∧ pongWait = 60 * second ∧
    pingPeriod < pongWait ∧ pongWait * 9 < 2 ^ 63 ∧
    (∀ t : Nat, ∃ k : Nat, 1 ≤ k ∧ t < tickTime k ∧ tickTime k ≤ t + pongWait) := by
  refine ⟨rfl, by decide, rfl, by decide, by decide, ?_⟩
  intro t
  refine ⟨t / pingPeriod + 1, Nat.succ_le_succ (Nat.zero_le _), ?_, ?_⟩
  · unfold tickTime
    have hp : 0 < pingPeriod := by decide
    have := Nat.lt_succ_iff.mpr (le_refl (t / pingPeriod))
    exact (Nat.div_lt_iff_lt_mul hp).mp this
  · unfold tickTime
    have h1 : t / pingPeriod * pingPeriod ≤ t := Nat.div_mul_le_self t pingPeriod
    have h2 : pingPeriod ≤ pongWait := by decide
    rw [Nat.add_mul, Nat.one_mul]
    omega

end WS

namespace Jobs

/-! ## Entries that are skipped -/

/-- C30. A dequeued entry that does not decode, or that decodes to a job
whose type has no registered handler, leaves the worker state as it is after
the dequeue: no handler is called, nothing is appended to the queue and
nothing is logged as dropped, whatever the retry count; an iteration on a
queue with such an entry at the front just removes it. And whenever the
loop body changes the queue, the entry decoded to a job with a registered
handler and that handler returned an error (with `Retries < 3`). -/
theorem Worker_skips_undecodable_and_unhandled (cd : Codec) (w : Worker) (st : WState)
    (key raw : String) :
    (cd.unmarshal raw = none → Worker.process cd w st [key, raw] = st) ∧
    (∀ job, cd.unmarshal raw = some job → w.handlers job.Typ = none →
      Worker.process cd w st [key, raw] = st) ∧
    ((cd.unmarshal raw = none ∨ ∃ job, cd.unmarshal raw = some job ∧ w.handlers job.Typ = none) →
      ∀ rest, Worker.iter cd w ⟨⟨raw :: rest, true⟩, st.handled, st.dropped⟩ =
        ⟨⟨rest, true⟩, st.handled, st.dropped⟩) ∧
    ((Worker.process cd w st [key, raw]).rdb ≠ st.rdb →
      ∃ job h, cd.unmarshal raw = some job ∧ w.handlers job.Typ = some h ∧
        h st.handled.length job ≠ none ∧ job.Retries < 3) := by
  refine ⟨?_, ?_, ?_, ?_⟩
  · intro hn
    simp only [Worker.process, hn]
  · intro job hj hh
    simp only [Worker.process, hj, hh]
  · intro hskip rest
    rw [iter_cons]
    rcases hskip with hn | ⟨job, hj, hh⟩
    · simp only [Worker.process, hn]
    · simp only [Worker.process, hj, hh]
  · intro hne
    cases hdec : cd.unmarshal raw with
    | none =>
      exfalso; apply hne
      simp only [Worker.process, hdec]
    | some job =>
      cases hh : w.handlers job.Typ with
      | none =>
        exfalso; apply hne
        simp only [Worker.process, hdec, hh]
      | some h =>
        refine ⟨job, h, rfl, hh, ?_, ?_⟩
        · intro hok
          apply hne
          rw [process_success cd w st key raw job h hdec hh hok]
        · by_contra hge
          by_cases hok : h st.handled.length job = none
          · apply hne
            rw [process_success cd w st key raw job h hdec hh hok]
          · apply hne
            rw [process_drop cd w st key raw job h hdec hh hok hge]


/-- Witness for C30: the entry `x` does not decode and is skipped; the entry
of `demoJob` is skipped by a worker without handlers, even with the retry
count at the limit. -/
theorem Worker_skips_undecodable_and_unhandled_witness :
    Worker.process demoCodec failingWorker ⟨⟨["rr"], true⟩, [], []⟩ ["notification:jobs", "x"] =
      ⟨⟨["rr"], true⟩, [], []⟩ ∧
    Worker.process demoCodec NewWorker ⟨⟨["rr"], true⟩, [], []⟩ ["notification:jobs", "rrr"] =
      ⟨⟨["rr"], true⟩, [], []⟩ :=
  ⟨(Worker_skips_undecodable_and_unhandled demoCodec failingWorker ⟨⟨["rr"], true⟩, [], []⟩
      "notification:jobs" "x").1 (by decide),
    (Worker_skips_undecodable_and_unhandled demoCodec NewWorker ⟨⟨["rr"], true⟩, [], []⟩
      "notification:jobs" "rrr").2.1 (demoJob.withRetries 3) (by decide) rfl⟩

end Jobs

namespace WS

/-! ## The upgrade endpoint -/

/-- The events of `ServeWS`, case by case. -/
theorem ServeWS_cases (env : ServeEnv) (s : Mem) (token : String) :
    ((token = "" ∨ (∃ e, env.VerifyToken token = .error e) ∨
        (∃ claims, env.VerifyToken token = .ok claims ∧
          ((∀ rawID, claims "user_id" ≠ some (.str rawID)) ∨
           (∃ rawID, claims "user_id" = some (.str rawID) ∧ env.parseUUID rawID = none)))) ∧
      ∃ body, ServeWS env s token = ⟨s, [.httpError StatusUnauthorized body], false⟩) ∨
    (token ≠ "" ∧ ∃ claims rawID userID, env.VerifyToken token = .ok claims ∧
      claims "user_id" = some (.str rawID) ∧ env.parseUUID rawID = some userID ∧
      ((env.upgradeOk = false ∧ ServeWS env s token = ⟨s, [.upgradeFailed], false⟩) ∨
       (env.upgradeOk = true ∧
        (ServeWS env s token).mem =
          (Hub.Register (s.alloc env.newClient userID) env.newClient).state ∧
        ((ServeWS env s token).events = [.upgraded, .register env.newClient] ∨
         (ServeWS env s token).events = [.upgraded, .register env.newClient,
            .goWritePump env.newClient, .goReadPump env.newClient])))) := by
  by_cases ht : token = ""
  · exact Or.inl ⟨Or.inl ht, "missing token", by simp only [ServeWS, ht, if_true]⟩
  · cases hv : env.VerifyToken token with
    | error e =>
      exact Or.inl ⟨Or.inr (Or.inl ⟨e, rfl⟩), "invalid or expired token",
        by simp only [ServeWS, ht, if_false, hv]⟩
    | ok claims =>
      cases hc : claims "user_id" with
      | none =>
        refine Or.inl ⟨Or.inr (Or.inr ⟨claims, rfl, Or.inl ?_⟩), "invalid claims",
          by simp only [ServeWS, ht, if_false, hv, hc]⟩
        intro rawID h
        rw [hc] at h
        cases h
      | some v =>
        cases v with
        | other =>
          refine Or.inl ⟨Or.inr (Or.inr ⟨claims, rfl, Or.inl ?_⟩), "invalid claims",
            by simp only [ServeWS, ht, if_false, hv, hc]⟩
          intro rawID h
          rw [hc] at h
          cases h
        | str rawID =>
          cases hp : env.parseUUID rawID with
          | none =>
            exact Or.inl ⟨Or.inr (Or.inr ⟨claims, rfl, Or.inr ⟨rawID, hc, hp⟩⟩), "invalid user_id",
              by simp only [ServeWS, ht, if_false, hv, hc, hp]⟩
          | some userID =>
            refine Or.inr ⟨ht, claims, rawID, userID, rfl, hc, hp, ?_⟩
            cases hu : env.upgradeOk with
            | false =>
              exact Or.inl ⟨rfl, by simp [ServeWS, ht, hv, hc, hp, hu]⟩
            | true =>
              refine Or.inr ⟨rfl, ?_, ?_⟩
              · simp only [ServeWS, ht, if_false, hv, hc, hp, hu, if_true]
                split <;> rfl
              · simp only [ServeWS, ht, if_false, hv, hc, hp, hu, if_true]
                split
                · exact Or.inl rfl
                · exact Or.inr rfl

/-- C23. `ServeWS` registers a client only if the token is present,
`VerifyToken` accepts it and its `user_id` claim is a string that
`uuid.Parse` accepts. In every other case (missing token, token rejected,
`user_id` missing or not a string, malformed id) it answers 401, and the
memory is as before: no client object was made and the registry is
unchanged. -/
theorem ServeWS_requires_credential (env : ServeEnv) (s : Mem) (token : String) :
    ((∃ c, ServeEvent.register c ∈ (ServeWS env s token).events) →
      token ≠ "" ∧ ∃ claims rawID userID, env.VerifyToken token = .ok claims ∧
        claims "user_id" = some (.str rawID) ∧ env.parseUUID rawID = some userID) ∧
    (¬ (token ≠ "" ∧ ∃ claims rawID userID, env.VerifyToken token = .ok claims ∧
        claims "user_id" = some (.str rawID) ∧ env.parseUUID rawID = some userID) →
      (∃ body, (ServeWS env s token).events = [.httpError 401 body]) ∧
      (ServeWS env s token).mem = s ∧ (ServeWS env s token).panicked = false) := by
  rcases ServeWS_cases env s token with ⟨_, body, he⟩ |
    ⟨ht, claims, rawID, userID, hv, hc, hp, _⟩
  · constructor
    · rintro ⟨c, hmem⟩
      rw [he] at hmem
      simp at hmem
    · intro _
      rw [he]
      exact ⟨⟨body, rfl⟩, rfl, rfl⟩
  · constructor
    · intro _
      exact ⟨ht, claims, rawID, userID, hv, hc, hp⟩
    · intro hn
      exact absurd ⟨ht, claims, rawID, userID, hv, hc, hp⟩ hn

/-- Witness for C23: a request without token is answered 401 and the memory
is as before. -/
theorem ServeWS_requires_credential_witness :
    (∃ body, (ServeWS demoServeEnv demoTwo "").events = [.httpError 401 body]) ∧
    (ServeWS demoServeEnv demoTwo "").mem = demoTwo ∧
    (ServeWS demoServeEnv demoTwo "").panicked = false :=
  (ServeWS_requires_credential demoServeEnv demoTwo "").2 (fun h => h.1 rfl)

/-- `ServeWS` never calls `Broker.SubscribeUser`. -/
theorem ServeWS_never_subscribes (env : ServeEnv) (s : Mem) (token : String) (u : UUID) :
    ServeEvent.subscribeUser u ∉ (ServeWS env s token).events := by
  rcases ServeWS_cases env s token with ⟨_, body, he⟩ |
    ⟨_, _, _, _, _, _, _, ⟨_, he⟩ | ⟨_, _, he | he⟩⟩ <;> rw [he] <;> simp

/-- C22 (code defect). For a request with a valid token of user 1 and a
successful upgrade, `ServeWS` registers the new client 10 and starts its two
pumps, and does not call `Broker.SubscribeUser`: the bus has no subscription
of this instance, and a message that another instance publishes for user 1
is delivered to no subscription, so client 10 does not receive it. -/
theorem ServeWS_registers_without_subscribing :
    (ServeWS demoServeEnv demoMem "good").events =
      [.upgraded, .register 10, .goWritePump 10, .goReadPump 10] ∧
    (ServeWS demoServeEnv demoMem "good").mem.hub.clients.get 1 = some [10] ∧
    ServeEvent.subscribeUser 1 ∉ (ServeWS demoServeEnv demoMem "good").events ∧
    (InfraRedis.Broker.Publish InfraRedis.demoText InfraRedis.demoEventCodec
      (some ⟨⟨"localhost:6379"⟩⟩) ⟨[], true⟩ 1 [123, 125]).1.subs = [] ∧
    ((ServeWS demoServeEnv demoMem "good").mem.client 10).Send.buf = [] := by
  decide

/-! ## Stats and IsOnline -/

theorem ClientMap.mem_of_get {m : ClientMap} {u : UUID} {l : List ClientRef}
    (h : m.get u = some l) : (u, l) ∈ m := by
  induction m with
  | nil => simp [ClientMap.get] at h
  | cons e rest ih =>
    obtain ⟨k, v⟩ := e
    unfold ClientMap.get at h
    split at h
    · rename_i hk
      injection h with h
      subst hk h
      exact List.mem_cons_self _ _
    · exact List.mem_cons_of_mem _ (ih h)

theorem ClientMap.get_of_mem {m : ClientMap} {u : UUID} {l : List ClientRef}
    (hk : (m.map Prod.fst).Nodup) (h : (u, l) ∈ m) : m.get u = some l := by
  induction m with
  | nil => cases h
  | cons e rest ih =>
    obtain ⟨k, v⟩ := e
    rw [List.map_cons, List.nodup_cons] at hk
    unfold ClientMap.get
    rcases List.mem_cons.mp h with heq | hmem
    · injection heq with h1 h2
      subst h1 h2
      simp
    · have hne : k ≠ u := by
        intro e
        subst e
        exact hk.1 (List.mem_map.mpr ⟨(k, l), hmem, rfl⟩)
      rw [if_neg hne]
      exact ih hk.2 hmem

theorem ClientMap.get_isSome_iff_mem_keys (m : ClientMap) (u : UUID) :
    (∃ l, m.get u = some l) ↔ u ∈ m.map Prod.fst := by
  induction m with
  | nil => simp [ClientMap.get]
  | cons e rest ih =>
    obtain ⟨k, v⟩ := e
    unfold ClientMap.get
    by_cases hk : k = u
    · subst hk; simp
    · rw [if_neg hk, ih, List.map_cons, List.mem_cons]
      constructor
      · exact Or.inr
      · rintro (h | h)
        · exact absurd h.symm hk
        · exact h

theorem KeyInv_NewHub (heap : ClientRef → Client) : KeyInv ⟨NewHub, heap⟩ where
  keys := by simp [NewHub]
  nonempty := by intro u l h; simp [NewHub, ClientMap.get] at h

theorem KeyInv_of_hub_eq {s t : Mem} (h : t.hub = s.hub) (hs : KeyInv s) : KeyInv t where
  keys := by rw [h]; exact hs.keys
  nonempty := by intro u l hg; rw [h] at hg; exact hs.nonempty u l hg

theorem KeyInv_set (s : Mem) (m : ClientMap) (u : UUID) (v : List ClientRef)
    (client : ClientRef → Client) (hs : KeyInv ⟨⟨m⟩, s.client⟩) (hv : v ≠ []) :
    KeyInv ⟨⟨m.set u v⟩, client⟩ where
  keys := ClientMap.keys_set_nodup m u v hs.keys
  nonempty := by
    intro w l hg
    simp only [ClientMap.get_set] at hg
    split at hg
    · injection hg with hg; subst hg; exact hv
    · exact hs.nonempty w l hg

theorem KeyInv_Register (s : Mem) (c : ClientRef) (hs : KeyInv s) :
    KeyInv (Hub.Register s c).state := by
  have hs2 : KeyInv ⟨⟨s.hub.clients⟩, s.client⟩ := hs
  by_cases h5 : 5 ≤ (s.hub.clients.index (s.client c).UserID).length
  · cases hl : s.hub.clients.index (s.client c).UserID with
    | nil => rw [hl] at h5; simp at h5
    | cons oldest rest =>
      rw [hl] at h5
      cases ho : (s.client oldest).Send.closed with
      | true => rw [Register_full_panic s c oldest rest hl h5 ho]; exact hs
      | false =>
        rw [Register_full s c oldest rest hl h5 ho]
        have hk1 : ((s.hub.clients.set (s.client c).UserID rest).map Prod.fst).Nodup :=
          ClientMap.keys_set_nodup _ _ _ hs.keys
        constructor
        · exact ClientMap.keys_set_nodup _ _ _ hk1
        · intro w l hg
          simp only [Mem.setClients_hub, ClientMap.get_set] at hg
          split at hg
          · injection hg with hg; subst hg; simp
          · exact hs.nonempty w l hg
  · rw [Register_small s c (by omega)]
    exact KeyInv_set s _ _ _ _ hs2 (by simp)

theorem KeyInv_Unregister (s : Mem) (c : ClientRef) (hs : KeyInv s) :
    KeyInv (Hub.Unregister s c).state where
  keys := Unregister_keys s c hs.keys
  nonempty := by
    intro w l hg
    rw [Unregister_get] at hg
    split at hg
    · split at hg
      · cases hg
      · rename_i hne
        injection hg with hg
        subst hg
        exact hne
    · exact hs.nonempty w l hg

theorem KeyInv_run (s : Mem) (op : Op) (hs : KeyInv s) : KeyInv (op.run s).state := by
  cases op with
  | register c => exact KeyInv_Register s c hs
  | unregister c => exact KeyInv_Unregister s c hs
  | sendToUser u m => exact KeyInv_of_hub_eq (SendToUser_hub s u m) hs
  | recv c => exact KeyInv_of_hub_eq (writePumpRecv_hub s c) hs

theorem KeyInv_exec (ops : List Op) (s : Mem) (hs : KeyInv s) : KeyInv (exec s ops) := by
  induction ops generalizing s with
  | nil => exact hs
  | cons op rest ih => exact ih _ (KeyInv_run s op hs)

theorem TotalConns_eq_length (s : Mem) :
    (Hub.Stats s).TotalConns = (Hub.connections s).length := by
  simp [Hub.Stats, Hub.connections, List.length_flatten, List.map_map, Function.comp_def]

theorem mem_connections_iff (s : Mem) (hk : (s.hub.clients.map Prod.fst).Nodup) (c : ClientRef) :
    c ∈ Hub.connections s ↔ ∃ u, c ∈ s.hub.clients.index u := by
  unfold Hub.connections
  rw [List.mem_flatten]
  constructor
  · rintro ⟨l, hl, hc⟩
    obtain ⟨⟨k, v⟩, he, rfl⟩ := List.mem_map.mp hl
    exact ⟨k, by rw [ClientMap.index_of_get (ClientMap.get_of_mem hk he)]; exact hc⟩
  · rintro ⟨u, hc⟩
    have hg := ClientMap.get_of_index_ne_nil (List.ne_nil_of_mem hc)
    exact ⟨_, List.mem_map.mpr ⟨(u, s.hub.clients.index u), ClientMap.mem_of_get hg, rfl⟩, hc⟩

theorem IsOnline_iff_exists (s : Mem) (u : UUID) :
    Hub.IsOnline s u = true ↔ ∃ c, c ∈ s.hub.clients.index u := by
  unfold Hub.IsOnline
  rw [decide_eq_true_iff, List.length_pos]
  exact ⟨fun h => List.exists_mem_of_ne_nil _ h, fun ⟨c, hc⟩ => List.ne_nil_of_mem hc⟩

theorem IsOnline_iff_mem_keys (s : Mem) (hs : KeyInv s) (u : UUID) :
    Hub.IsOnline s u = true ↔ u ∈ s.hub.clients.map Prod.fst := by
  rw [IsOnline_iff_exists, ← ClientMap.get_isSome_iff_mem_keys]
  constructor
  · rintro ⟨c, hc⟩
    exact ⟨_, ClientMap.get_of_index_ne_nil (List.ne_nil_of_mem hc)⟩
  · rintro ⟨l, hl⟩
    obtain ⟨c, hc⟩ := List.exists_mem_of_ne_nil l (hs.nonempty u l hl)
    exact ⟨c, by rw [ClientMap.index_of_get hl]; exact hc⟩

theorem UniqueUsers_eq_ncard (s : Mem) (hs : KeyInv s) :
    (Hub.Stats s).UniqueUsers = Set.ncard {u | Hub.IsOnline s u = true} := by
  have hset : {u | Hub.IsOnline s u = true} = ↑(s.hub.clients.map Prod.fst).toFinset := by
    ext u
    simp only [Set.mem_setOf_eq, Finset.mem_coe, List.mem_toFinset]
    exact IsOnline_iff_mem_keys s hs u
  rw [hset, Set.ncard_coe_Finset, List.toFinset_card_of_nodup hs.keys]
  simp [Hub.Stats]

theorem connections_nodup (s : Mem) (hs : RegInv s) : (Hub.connections s).Nodup := by
  unfold Hub.connections
  rw [List.nodup_flatten]
  constructor
  · intro l hl
    obtain ⟨⟨k, v⟩, he, rfl⟩ := List.mem_map.mp hl
    exact hs.nodup k v (ClientMap.get_of_mem hs.keys he)
  · rw [List.pairwise_map]
    have hk := hs.keys
    unfold List.Nodup at hk
    rw [List.pairwise_map] at hk
    refine hk.imp_of_mem ?_
    intro a b ha hb hab
    obtain ⟨ka, va⟩ := a
    obtain ⟨kb, vb⟩ := b
    intro c hca hcb
    have h1 := hs.owner ka va c (ClientMap.get_of_mem hs.keys ha) hca
    have h2 := hs.owner kb vb c (ClientMap.get_of_mem hs.keys hb) hcb
    exact hab (h1.symm.trans h2)

theorem TotalConns_eq_ncard (s : Mem) (hs : RegInv s) :
    (Hub.Stats s).TotalConns = Set.ncard {c | ∃ u, c ∈ s.hub.clients.index u} := by
  have hset : {c | ∃ u, c ∈ s.hub.clients.index u} = ↑(Hub.connections s).toFinset := by
    ext c
    simp only [Set.mem_setOf_eq, Finset.mem_coe, List.mem_toFinset]
    exact (mem_connections_iff s hs.keys c).symm
  rw [hset, Set.ncard_coe_Finset, List.toFinset_card_of_nodup (connections_nodup s hs),
    TotalConns_eq_length]

/-- C24. After any sequence of calls from the empty Hub: `TotalConns` is the
number of entries of the registry; `UniqueUsers` is the number of users
that `IsOnline` reports online; no key is bound to an empty list; and
`IsOnline(u)` is true exactly when `u` has an entry. When the calls are
those the handlers make (`Register` of a new client, `Unregister` of a
registered one), no client is entered twice and `TotalConns` is the number
of registered clients. `Stats` and `IsOnline` are functions of the memory:
they assign nothing. -/
theorem Stats_counts (heap : ClientRef → Client) (ops : List Op) :
    (Hub.Stats (exec ⟨NewHub, heap⟩ ops)).TotalConns =
      (Hub.connections (exec ⟨NewHub, heap⟩ ops)).length ∧
    (∀ c, c ∈ Hub.connections (exec ⟨NewHub, heap⟩ ops) ↔
      ∃ u, c ∈ (exec ⟨NewHub, heap⟩ ops).hub.clients.index u) ∧
    (Hub.Stats (exec ⟨NewHub, heap⟩ ops)).UniqueUsers =
      Set.ncard {u | Hub.IsOnline (exec ⟨NewHub, heap⟩ ops) u = true} ∧
    (∀ u l, (exec ⟨NewHub, heap⟩ ops).hub.clients.get u = some l → l ≠ []) ∧
    (∀ u, Hub.IsOnline (exec ⟨NewHub, heap⟩ ops) u = true ↔
      ∃ c, c ∈ (exec ⟨NewHub, heap⟩ ops).hub.clients.index u) ∧
    (allowedSeq ⟨NewHub, heap⟩ ops = true →
      (Hub.connections (exec ⟨NewHub, heap⟩ ops)).Nodup ∧
      (Hub.Stats (exec ⟨NewHub, heap⟩ ops)).TotalConns =
        Set.ncard {c | ∃ u, c ∈ (exec ⟨NewHub, heap⟩ ops).hub.clients.index u}) := by
  have hk := KeyInv_exec ops ⟨NewHub, heap⟩ (KeyInv_NewHub heap)
  refine ⟨TotalConns_eq_length _, mem_connections_iff _ hk.keys, UniqueUsers_eq_ncard _ hk,
    hk.nonempty, IsOnline_iff_exists _, ?_⟩
  intro ha
  have hr := RegInv_exec ops ⟨NewHub, heap⟩ (RegInv_NewHub heap) ha
  exact ⟨connections_nodup _ hr, TotalConns_eq_ncard _ hr⟩

/-- Witness for C24: two clients of user 1 and one of user 2. -/
theorem Stats_counts_witness :
    Hub.Stats demoTwo = ⟨2, 3⟩ ∧
    (Hub.Stats demoTwo).TotalConns = Set.ncard {c | ∃ u, c ∈ demoTwo.hub.clients.index u} :=
  ⟨by decide,
    ((Stats_counts demoMem.client [.register 10, .register 20, .register 11]).2.2.2.2.2
      (by decide)).2⟩

end WS

namespace Jobs

/-! ## First in, first out -/

theorem popped_cons (cd : Codec) (w : Worker) (n : Nat) (x : String) (rest : List String)
    (hd : List NotificationJob) (dr : List String) :
    Worker.popped cd w (n + 1) ⟨⟨x :: rest, true⟩, hd, dr⟩ =
      x :: Worker.popped cd w n (Worker.iter cd w ⟨⟨x :: rest, true⟩, hd, dr⟩) := rfl

theorem popped_nil (cd : Codec) (w : Worker) (n : Nat) (hd : List NotificationJob)
    (dr : List String) : Worker.popped cd w n ⟨⟨[], true⟩, hd, dr⟩ = [] := by
  induction n with
  | zero => rfl
  | succ n ih =>
    have : Worker.popped cd w (n + 1) ⟨⟨[], true⟩, hd, dr⟩ =
        Worker.popped cd w n (Worker.iter cd w ⟨⟨[], true⟩, hd, dr⟩) := rfl
    rw [this, iter_empty cd w _ rfl, ih]

/-- An iteration takes the front entry and leaves the others in place; what
it appends, a retry, comes behind them. -/
theorem iter_keeps_order (cd : Codec) (w : Worker) (x : String) (rest : List String)
    (hd : List NotificationJob) (dr : List String) :
    ∃ tail, (Worker.iter cd w ⟨⟨x :: rest, true⟩, hd, dr⟩).rdb = ⟨rest ++ tail, true⟩ ∧
      (tail = [] ∨ ∃ job h, cd.unmarshal x = some job ∧ w.handlers job.Typ = some h ∧
        h hd.length job ≠ none ∧ job.Retries < 3 ∧
        cd.marshal (job.withRetries (job.Retries + 1)) = some (tail.headD "") ∧
        tail.length = 1) := by
  rcases iter_cases cd w x rest hd dr with ⟨_, he⟩ | ⟨_, _, _, _, _, he⟩ |
    ⟨job, h, data, hx, hh, hf, hlt, hm, he⟩ | ⟨_, _, _, _, _, _, he⟩
  · exact ⟨[], by rw [he, List.append_nil], Or.inl rfl⟩
  · exact ⟨[], by rw [he, List.append_nil], Or.inl rfl⟩
  · exact ⟨[data], by rw [he], Or.inr ⟨job, h, hx, hh, hf, hlt, hm, rfl⟩⟩
  · exact ⟨[], by rw [he, List.append_nil], Or.inl rfl⟩

/-- The worker takes the entries that are on the queue in their order. -/
theorem popped_prefix (cd : Codec) (w : Worker) (n : Nat) :
    ∀ (q : List String) (hd : List NotificationJob) (dr : List String),
      (Worker.popped cd w n ⟨⟨q, true⟩, hd, dr⟩).take q.length = q.take n := by
  induction n with
  | zero => intro q hd dr; simp [Worker.popped]
  | succ n ih =>
    intro q hd dr
    cases q with
    | nil => simp
    | cons x rest =>
      rw [popped_cons]
      obtain ⟨tail, he, _⟩ := iter_keeps_order cd w x rest hd dr
      have hst : Worker.iter cd w ⟨⟨x :: rest, true⟩, hd, dr⟩ =
          ⟨⟨rest ++ tail, true⟩, (Worker.iter cd w ⟨⟨x :: rest, true⟩, hd, dr⟩).handled,
            (Worker.iter cd w ⟨⟨x :: rest, true⟩, hd, dr⟩).dropped⟩ := by
        rw [← he]
      rw [hst]
      have h := ih (rest ++ tail) (Worker.iter cd w ⟨⟨x :: rest, true⟩, hd, dr⟩).handled
        (Worker.iter cd w ⟨⟨x :: rest, true⟩, hd, dr⟩).dropped
      have h2 := congrArg (List.take rest.length) h
      rw [List.take_take, List.take_take] at h2
      simp only [List.length_cons, List.take_succ_cons, List.length_append] at h2 ⊢
      congr 1
      rw [Nat.min_eq_left (Nat.le_add_right _ _)] at h2
      rw [h2, List.take_append_eq_append_take]
      have hz : min rest.length n - rest.length = 0 := by omega
      rw [hz, List.take_zero, List.append_nil]
      by_cases hle : rest.length ≤ n
      · rw [Nat.min_eq_left hle, List.take_of_length_le (le_refl _), List.take_of_length_le hle]
      · rw [Nat.min_eq_right (by omega)]

/-- An iteration on a front entry whose handler fails below the retry limit
leaves the other entries in place and puts the retry at the back. -/
theorem iter_requeue (cd : Codec) (w : Worker) (x : String) (rest : List String)
    (hd : List NotificationJob) (dr : List String) (job : NotificationJob) (h : Handler)
    (d : String) (hx : cd.unmarshal x = some job) (hh : w.handlers job.Typ = some h)
    (hf : h hd.length job ≠ none) (hlt : job.Retries < 3)
    (hm : cd.marshal (job.withRetries (job.Retries + 1)) = some d) :
    Worker.iter cd w ⟨⟨x :: rest, true⟩, hd, dr⟩ = ⟨⟨rest ++ [d], true⟩, hd ++ [job], dr⟩ := by
  rw [iter_cons, process_requeue cd w _ queueKey x job h d hx hh hf hlt hm]
  rfl

/-- C25. The queue is first in, first out. With a reachable store, `Enqueue` of
`j1` and then of `j2` leaves the list as the previous list with the entry
of `j1` and then the entry of `j2` at the back; an iteration of the worker
takes the entry at the front; so the worker takes the entries that were on
the list, then the one of `j1`, then the one of `j2`. When the handler of
the front entry fails below the retry limit, the iteration leaves the list
as the other entries followed by the retry: the retry is appended, behind
every entry that was on the queue (those of `j1` and `j2` included), and the
worker takes it after all of them. In every other case the iteration
appends nothing. -/
theorem queue_is_fifo (cd : Codec) (w : Worker) (q : Queue) (r : Redis)
    (j1 j2 : NotificationJob) (d1 d2 : String) (hup : r.up = true)
    (h1 : cd.marshal j1 = some d1) (h2 : cd.marshal j2 = some d2) :
    (Queue.Enqueue cd (some q) (Queue.Enqueue cd (some q) r j1).1 j2).1 =
      ⟨r.list ++ [d1, d2], true⟩ ∧
    (∀ (n : Nat) (hd : List NotificationJob) (dr : List String),
      (Worker.popped cd w n
        ⟨(Queue.Enqueue cd (some q) (Queue.Enqueue cd (some q) r j1).1 j2).1, hd, dr⟩).take
          (r.list.length + 2) = (r.list ++ [d1, d2]).take n) ∧
    (∀ (x : String) (rest : List String) (hd : List NotificationJob) (dr : List String),
      Worker.popped cd w 1 ⟨⟨x :: rest, true⟩, hd, dr⟩ = [x] ∧
      (∀ (job : NotificationJob) (h : Handler) (d : String),
        cd.unmarshal x = some job → w.handlers job.Typ = some h →
        h hd.length job ≠ none → job.Retries < 3 →
        cd.marshal (job.withRetries (job.Retries + 1)) = some d →
        (Worker.iter cd w ⟨⟨x :: rest, true⟩, hd, dr⟩).rdb = ⟨rest ++ [d], true⟩ ∧
        ∀ n : Nat,
          (Worker.popped cd w (n + 1) ⟨⟨x :: rest, true⟩, hd, dr⟩).take (rest.length + 2) =
            x :: (rest ++ [d]).take n) ∧
      ((Worker.iter cd w ⟨⟨x :: rest, true⟩, hd, dr⟩).rdb = ⟨rest, true⟩ ∨
        ∃ (job : NotificationJob) (h : Handler) (d : String),
          cd.unmarshal x = some job ∧ w.handlers job.Typ = some h ∧
          h hd.length job ≠ none ∧ job.Retries < 3 ∧
          cd.marshal (job.withRetries (job.Retries + 1)) = some d ∧
          (Worker.iter cd w ⟨⟨x :: rest, true⟩, hd, dr⟩).rdb = ⟨rest ++ [d], true⟩)) ∧
    (∀ (x : String) (rest : List String) (hd : List NotificationJob) (dr : List String)
      (job : NotificationJob) (h : Handler) (d : String),
      r.list = x :: rest → cd.unmarshal x = some job → w.handlers job.Typ = some h →
      h hd.length job ≠ none → job.Retries < 3 →
      cd.marshal (job.withRetries (job.Retries + 1)) = some d →
      (Worker.iter cd w
        ⟨(Queue.Enqueue cd (some q) (Queue.Enqueue cd (some q) r j1).1 j2).1, hd, dr⟩).rdb =
          ⟨rest ++ [d1, d2, d], true⟩) := by
  have he : (Queue.Enqueue cd (some q) (Queue.Enqueue cd (some q) r j1).1 j2).1 =
      ⟨r.list ++ [d1, d2], true⟩ := by
    obtain ⟨l, up⟩ := r
    simp only at hup
    subst hup
    simp [Queue.Enqueue, h1, h2, Redis.RPush]
  refine ⟨he, ?_, ?_, ?_⟩
  · intro n hd dr
    rw [he]
    have := popped_prefix cd w n (r.list ++ [d1, d2]) hd dr
    simpa using this
  · intro x rest hd dr
    refine ⟨rfl, ?_, ?_⟩
    · intro job h d hx hh hf hlt hm
      have hi := iter_requeue cd w x rest hd dr job h d hx hh hf hlt hm
      refine ⟨by rw [hi], ?_⟩
      intro n
      rw [popped_cons, hi]
      have hp := popped_prefix cd w n (rest ++ [d]) (hd ++ [job]) dr
      rw [List.length_append, List.length_singleton] at hp
      rw [List.take_succ_cons, hp]
    · rcases iter_cases cd w x rest hd dr with ⟨_, hi⟩ | ⟨_, _, _, _, _, hi⟩ |
        ⟨job, h, data, hx, hh, hf, hlt, hm, hi⟩ | ⟨_, _, _, _, _, _, hi⟩
      · exact Or.inl (by rw [hi])
      · exact Or.inl (by rw [hi])
      · exact Or.inr ⟨job, h, data, hx, hh, hf, hlt, hm, by rw [hi]⟩
      · exact Or.inl (by rw [hi])
  · intro x rest hd dr job h d hl hx hh hf hlt hm
    rw [he, hl]
    have hi := iter_requeue cd w x (rest ++ [d1, d2]) hd dr job h d hx hh hf hlt hm
    show (Worker.iter cd w ⟨⟨x :: (rest ++ [d1, d2]), true⟩, hd, dr⟩).rdb = _
    rw [hi]
    simp

/-- Witness for C25: two jobs on an empty queue are taken in their order; and
with the entry `rr` at the front and a handler that fails, the retry `rrr`
goes behind the two jobs enqueued before the iteration. -/
theorem queue_is_fifo_witness :
    (Worker.popped demoCodec failingWorker 2
      ⟨(Queue.Enqueue demoCodec (some ⟨⟨"localhost:6379"⟩⟩)
        (Queue.Enqueue demoCodec (some ⟨⟨"localhost:6379"⟩⟩) ⟨[], true⟩ demoJob).1
        (demoJob.withRetries 2)).1, [], []⟩).take 2 = ["", "rr"] ∧
    (Worker.iter demoCodec failingWorker
      ⟨(Queue.Enqueue demoCodec (some ⟨⟨"localhost:6379"⟩⟩)
        (Queue.Enqueue demoCodec (some ⟨⟨"localhost:6379"⟩⟩) ⟨["rr"], true⟩ demoJob).1
        (demoJob.withRetries 1)).1, [], []⟩).rdb = ⟨["", "r", "rrr"], true⟩ :=
  ⟨(queue_is_fifo demoCodec failingWorker ⟨⟨"localhost:6379"⟩⟩ ⟨[], true⟩ demoJob
      (demoJob.withRetries 2) "" "rr" rfl rfl rfl).2.1 2 [] [],
    (queue_is_fifo demoCodec failingWorker ⟨⟨"localhost:6379"⟩⟩ ⟨["rr"], true⟩ demoJob
      (demoJob.withRetries 1) "" "r" rfl rfl rfl).2.2.2 "rr" [] [] []
      (demoJob.withRetries 2) (fun _ _ => some "delivery failed") "rrr" rfl rfl rfl
      (by decide) (by decide) rfl⟩

end Jobs

namespace WS

/-! ## The open-queue invariant -/

/-- A client that is in no list keeps its object and stays out of every list
through a `Register` of another client. -/
theorem Register_other (s : Mem) (c x : ClientRef) (hx : ∀ u, x ∉ s.hub.clients.index u)
    (hxc : x ≠ c) :
    (Hub.Register s c).state.client x = s.client x ∧
    ∀ u, x ∉ (Hub.Register s c).state.hub.clients.index u := by
  by_cases h5 : 5 ≤ (s.hub.clients.index (s.client c).UserID).length
  · cases hl : s.hub.clients.index (s.client c).UserID with
    | nil => rw [hl] at h5; simp at h5
    | cons oldest rest =>
      rw [hl] at h5
      have hxl := hx (s.client c).UserID
      rw [hl, List.mem_cons, not_or] at hxl
      cases ho : (s.client oldest).Send.closed with
      | true => rw [Register_full_panic s c oldest rest hl h5 ho]; exact ⟨rfl, hx⟩
      | false =>
        rw [Register_full s c oldest rest hl h5 ho]
        refine ⟨by simp [Mem.setSend_client, hxl.1], ?_⟩
        intro u
        simp only [Mem.setClients_hub, ClientMap.index_set]
        split
        · simp [hxl.2, hxc]
        · exact hx u
  · rw [Register_small s c (by omega)]
    refine ⟨rfl, ?_⟩
    intro u
    simp only [Mem.setClients_hub, ClientMap.index_set]
    split
    · simp [hx _, hxc]
    · exact hx u

theorem Unregister_index_subset (s : Mem) (c x : ClientRef) (u : UUID)
    (h : x ∈ (Hub.Unregister s c).state.hub.clients.index u) : x ∈ s.hub.clients.index u := by
  unfold ClientMap.index at h
  rw [Unregister_get] at h
  split at h
  · rename_i hu
    split at h
    · simp at h
    · simp only [Option.getD_some] at h
      rw [hu]
      exact (List.mem_filter.mp h).1
  · exact h

/-- Calls on pairwise distinct clients with open queues that are not yet
registered, and `Unregister` only of registered clients, are allowed calls. -/
theorem allowedSeq_of_distinct (ops : List Op) :
    ∀ s : Mem, RegInv s → (registeredBy ops).Nodup →
      (∀ c ∈ registeredBy ops,
        (s.client c).Send.closed = false ∧ ∀ u, c ∉ s.hub.clients.index u) →
      unregistersRegistered s ops = true → allowedSeq s ops = true := by
  induction ops with
  | nil => intro s _ _ _ _; rfl
  | cons op rest ih =>
    intro s hs hnd hfresh hun
    cases op with
    | register c =>
      simp only [registeredBy, List.nodup_cons] at hnd
      have hc := hfresh c (List.mem_cons_self _ _)
      have ha : (Op.register c).allowed s = true := by
        simp only [Op.allowed, Bool.and_eq_true, Bool.not_eq_true', decide_eq_true_eq]
        exact ⟨hc.1, hc.2 _⟩
      simp only [allowedSeq, Bool.and_eq_true]
      refine ⟨ha, ih _ (RegInv_run s _ hs ha) hnd.2 ?_ hun⟩
      intro x hx
      have hxs := hfresh x (List.mem_cons_of_mem _ hx)
      have hxc : x ≠ c := fun e => hnd.1 (e ▸ hx)
      obtain ⟨h1, h2⟩ := Register_other s c x hxs.2 hxc
      exact ⟨by show ((Hub.Register s c).state.client x).Send.closed = false
                rw [h1]; exact hxs.1, h2⟩
    | unregister c =>
      simp only [unregistersRegistered, Bool.and_eq_true, decide_eq_true_eq] at hun
      have ha : (Op.unregister c).allowed s = true := by
        simp only [Op.allowed, decide_eq_true_eq]
        exact hun.1
      simp only [allowedSeq, Bool.and_eq_true]
      refine ⟨ha, ih _ (RegInv_run s _ hs ha) hnd ?_ hun.2⟩
      intro x hx
      have hxs := hfresh x hx
      have hxc : x ≠ c := fun e => hxs.2 _ (e ▸ hun.1)
      refine ⟨?_, fun u h => hxs.2 u (Unregister_index_subset s c x u h)⟩
      show ((Hub.Unregister s c).state.client x).Send.closed = false
      rw [Unregister_client, if_neg (fun h => hxc h.1)]
      exact hxs.1
    | sendToUser u m =>
      have ha : (Op.sendToUser u m).allowed s = true := rfl
      simp only [allowedSeq, Bool.and_eq_true]
      refine ⟨ha, ih _ (RegInv_run s _ hs ha) hnd ?_ hun⟩
      intro x hx
      have hxs := hfresh x hx
      refine ⟨?_, ?_⟩
      · show ((Hub.SendToUser s u m).state.client x).Send.closed = false
        rw [(SendToUser_frame s u m x).2]; exact hxs.1
      · show ∀ v, x ∉ (Hub.SendToUser s u m).state.hub.clients.index v
        rw [SendToUser_hub]; exact hxs.2
    | recv c =>
      have ha : (Op.recv c).allowed s = true := rfl
      simp only [allowedSeq, Bool.and_eq_true]
      refine ⟨ha, ih _ (RegInv_run s _ hs ha) hnd ?_ hun⟩
      intro x hx
      have hxs := hfresh x hx
      refine ⟨?_, ?_⟩
      · show ((writePumpRecv s c).client x).Send.closed = false
        rw [(writePumpRecv_frame s c x).2]; exact hxs.1
      · show ∀ v, x ∉ (writePumpRecv s c).hub.clients.index v
        rw [writePumpRecv_hub]; exact hxs.2

/-- C29. Open-queue invariant. From the empty Hub, after any sequence of calls
in which `Register` is called on pairwise distinct clients whose queue is
open (as for a client that was just created) and `Unregister` on clients
that are in the registry at that moment, every client in the registry has
an open queue, and `SendToUser` does not panic for any user and payload.
The invariant fails when a client is registered twice and one entry is
evicted: after `Register` of client 10 twice and of 11, 12, 13, 14, client 10
is in the registry with a closed queue and `SendToUser` to its user panics. -/
theorem open_queue_invariant :
    (∀ (heap : ClientRef → Client) (ops : List Op),
      (registeredBy ops).Nodup →
      (∀ c ∈ registeredBy ops, (heap c).Send.closed = false) →
      unregistersRegistered ⟨NewHub, heap⟩ ops = true →
      (∀ u c, c ∈ (exec ⟨NewHub, heap⟩ ops).hub.clients.index u →
        ((exec ⟨NewHub, heap⟩ ops).client c).Send.closed = false) ∧
      (∀ u m, (Hub.SendToUser (exec ⟨NewHub, heap⟩ ops) u m).panicked = false)) ∧
    (10 ∈ (exec demoMem [.register 10, .register 10, .register 11, .register 12, .register 13,
        .register 14]).hub.clients.index 1 ∧
      ((exec demoMem [.register 10, .register 10, .register 11, .register 12, .register 13,
        .register 14]).client 10).Send.closed = true ∧
      (Hub.SendToUser (exec demoMem [.register 10, .register 10, .register 11, .register 12,
        .register 13, .register 14]) 1 [7]).panicked = true) := by
  refine ⟨?_, by decide⟩
  intro heap ops hnd hopen hun
  have ha : allowedSeq ⟨NewHub, heap⟩ ops = true :=
    allowedSeq_of_distinct ops ⟨NewHub, heap⟩ (RegInv_NewHub heap) hnd
      (fun c hc => ⟨hopen c hc, fun u => by simp [NewHub, ClientMap.index, ClientMap.get]⟩) hun
  have hr := RegInv_exec ops ⟨NewHub, heap⟩ (RegInv_NewHub heap) ha
  refine ⟨?_, ?_⟩
  · intro u c hc
    exact hr.isOpen u _ c (ClientMap.get_of_index_ne_nil (List.ne_nil_of_mem hc)) hc
  · intro u m
    exact allowed_no_panic _ (.sendToUser u m) hr rfl

/-- Witness for C29: two clients of user 1 connect and the first one leaves. -/
theorem open_queue_invariant_witness :
    (Hub.SendToUser (exec ⟨NewHub, demoMem.client⟩ [.register 10, .register 11, .unregister 10])
      1 [7]).panicked = false :=
  (open_queue_invariant.1 demoMem.client [.register 10, .register 11, .unregister 10]
    (by decide) (by decide) (by decide)).2 1 [7]

end WS

namespace InfraRedis

/-! ## Scanning a compact text again -/

theorem skipSpace_cons {b : Nat} (t : WS.Bytes) (h : isSpace b = false) :
    skipSpace (b :: t) = b :: t := by
  simp [skipSpace, h]

theorem strScan_rescan : ∀ (inp : WS.Bytes) (st : StrState) (s rest : WS.Bytes),
    strScan true st inp = some (s, rest) →
    ∀ r, strScan false st.rescan (s ++ r) = some (s, r) := by
  intro inp
  induction inp with
  | nil => intro st s rest h; cases st <;> simp [strScan] at h
  | cons b t ih =>
    intro st s rest h r
    cases st with
    | normal =>
      simp only [strScan] at h
      split_ifs at h <;>
        first
        | (simp only [Option.some.injEq, Prod.mk.injEq] at h
           obtain ⟨rfl, rfl⟩ := h
           simp [strScan, StrState.rescan])
        | (simp only [Option.map_eq_some'] at h
           obtain ⟨x, hx, hs⟩ := h
           simp only [Prod.mk.injEq] at hs
           obtain ⟨rfl, rfl⟩ := hs
           have := ih _ x.1 x.2 hx r
           simp only [StrState.rescan] at this
           simp [strScan, StrState.rescan, isHex, isDigit, this, *])
    | esc =>
      simp only [strScan] at h
      split_ifs at h <;>
        (simp only [Option.map_eq_some'] at h
         obtain ⟨x, hx, hs⟩ := h
         simp only [Prod.mk.injEq] at hs
         obtain ⟨rfl, rfl⟩ := hs
         have := ih _ x.1 x.2 hx r
         simp only [StrState.rescan] at this
         simp only [StrState.rescan, List.cons_append, strScan, Option.map_some', *]
         first | exact this | simp [this])
    | hex k =>
      simp only [strScan] at h
      split_ifs at h <;>
        (simp only [Option.map_eq_some'] at h
         obtain ⟨x, hx, hs⟩ := h
         simp only [Prod.mk.injEq] at hs
         obtain ⟨rfl, rfl⟩ := hs
         have := ih _ x.1 x.2 hx r
         simp only [StrState.rescan] at this
         simp only [StrState.rescan, List.cons_append, strScan, Option.map_some', *]
         first | exact this | simp [this])
    | skip k =>
      simp only [strScan] at h
      split_ifs at h with h1
      · exact ih .normal s rest h r
      · exact ih (.skip (k - 1)) s rest h r

theorem numScan_rescan : ∀ (inp : WS.Bytes) (st : NumState) (n rest : WS.Bytes),
    numScan st inp = some (n, rest) →
    ∀ r, closes r = true → numScan st (n ++ r) = some (n, r) := by
  intro inp
  induction inp with
  | nil =>
    intro st n rest h r hr
    cases r with
    | nil => simp [closes] at hr
    | cons c r2 =>
      simp only [closes, Bool.or_eq_true, decide_eq_true_eq] at hr
      cases st <;> simp only [numScan] at h <;>
        first
        | (simp at h; done)
        | (simp only [Option.some.injEq, Prod.mk.injEq] at h
           obtain ⟨rfl, rfl⟩ := h
           rcases hr with (rfl | rfl) | rfl <;> simp [numScan, isDigit])
  | cons b t ih =>
    intro st n rest h r hr
    cases r with
    | nil => simp [closes] at hr
    | cons c r2 =>
      have hr2 := hr
      simp only [closes, Bool.or_eq_true, decide_eq_true_eq] at hr2
      cases st <;> simp only [numScan] at h <;> split_ifs at h <;>
        first
        | (simp only [Option.some.injEq, Prod.mk.injEq] at h
           obtain ⟨rfl, rfl⟩ := h
           rcases hr2 with (rfl | rfl) | rfl <;> simp [numScan, isDigit])
        | (simp only [Option.map_eq_some'] at h
           obtain ⟨x, hx, hs⟩ := h
           simp only [Prod.mk.injEq] at hs
           obtain ⟨rfl, rfl⟩ := hs
           have := ih _ x.1 x.2 hx (c :: r2) hr
           simp only [List.cons_append, numScan, Option.map_some', *]
           first | exact this | simp [this, isDigit])

theorem litScan_rescan (word inp o rest : WS.Bytes) (h : litScan word inp = some (o, rest))
    (r : WS.Bytes) : litScan word (o ++ r) = some (o, r) := by
  unfold litScan at h
  split_ifs at h
  simp only [Option.some.injEq, Prod.mk.injEq] at h
  obtain ⟨rfl, rfl⟩ := h
  simp [litScan]

theorem jvalue_head (escape : Bool) (f depth : Nat) (inp c rest : WS.Bytes)
    (h : jvalue escape f depth inp = some (c, rest)) :
    ∃ b t c2, inp = b :: t ∧ c = b :: c2 ∧ isSpace b = false ∧ b ≠ 93 ∧ b ≠ 125 := by
  cases f with
  | zero => simp [jvalue] at h
  | succ f =>
    cases inp with
    | nil => simp [jvalue] at h
    | cons b t =>
      refine ⟨b, t, ?_⟩
      simp only [jvalue] at h
      split_ifs at h <;>
        first
        | (simp at h; done)
        | (split at h <;>
            first
            | (simp at h)
            | (split_ifs at h <;>
                first
                | (simp only [Option.some.injEq, Prod.mk.injEq] at h
                   obtain ⟨rfl, rfl⟩ := h
                   subst_vars
                   exact ⟨_, rfl, rfl, by decide, by decide, by decide⟩)
                | (simp only [Option.map_eq_some'] at h
                   obtain ⟨x, _, hs⟩ := h
                   simp only [Prod.mk.injEq] at hs
                   obtain ⟨rfl, rfl⟩ := hs
                   subst_vars
                   exact ⟨_, rfl, rfl, by decide, by decide, by decide⟩)))
        | (simp only [Option.map_eq_some'] at h
           obtain ⟨x, _, hs⟩ := h
           simp only [Prod.mk.injEq] at hs
           obtain ⟨rfl, rfl⟩ := hs
           first
           | (subst_vars; exact ⟨_, rfl, rfl, by decide, by decide, by decide⟩)
           | (refine ⟨_, rfl, rfl, ?_, ?_, ?_⟩
              · simp only [Bool.and_eq_true, decide_eq_true_eq] at *
                simp only [isSpace, Bool.or_eq_false_iff, decide_eq_false_iff_not]
                omega
              · simp only [Bool.and_eq_true, decide_eq_true_eq] at *
                omega
              · simp only [Bool.and_eq_true, decide_eq_true_eq] at *
                omega))

theorem jelems_head {val val2 : WS.Bytes → Option (WS.Bytes × WS.Bytes)} {bound : Nat}
    (hv : ValRescan val val2 bound) (g : Nat) (inp o rest : WS.Bytes)
    (h : jelems val g inp = some (o, rest)) :
    ∃ b o2, o = b :: o2 ∧ isSpace b = false := by
  cases g with
  | zero => simp [jelems] at h
  | succ g =>
    simp only [jelems] at h
    split at h
    · simp at h
    · rename_i v r1 hval
      obtain ⟨⟨b, v2, rfl, hb⟩, _⟩ := hv inp v r1 hval
      split at h
      · simp at h
      · split_ifs at h
        · simp only [Option.map_eq_some'] at h
          obtain ⟨y, _, hs⟩ := h
          simp only [Prod.mk.injEq] at hs
          obtain ⟨rfl, rfl⟩ := hs
          exact ⟨b, _, rfl, hb⟩
        · simp only [Option.some.injEq, Prod.mk.injEq] at h
          obtain ⟨rfl, rfl⟩ := h
          exact ⟨b, _, rfl, hb⟩

theorem jelems_rescan {val val2 : WS.Bytes → Option (WS.Bytes × WS.Bytes)} {bound : Nat}
    (hv : ValRescan val val2 bound) :
    ∀ (g : Nat) (inp o rest : WS.Bytes), jelems val g inp = some (o, rest) →
    ∀ (g2 : Nat) (r : WS.Bytes), o.length ≤ bound → o.length ≤ g2 →
      jelems val2 g2 (o ++ r) = some (o, r) := by
  intro g
  induction g with
  | zero => intro inp o rest h; simp [jelems] at h
  | succ g ih =>
    intro inp o rest h g2 r hb hg
    simp only [jelems] at h
    split at h
    · simp at h
    · rename_i v r1 hval
      obtain ⟨⟨b, v2, hvb, hsp⟩, hre⟩ := hv inp v r1 hval
      split at h
      · simp at h
      · rename_i x r2 _
        split_ifs at h with h1 h2
        · simp only [Option.map_eq_some'] at h
          obtain ⟨y, hy, hs⟩ := h
          simp only [Prod.mk.injEq] at hs
          obtain ⟨rfl, rfl⟩ := hs
          simp only [List.length_append, List.length_cons] at hb hg
          obtain ⟨b2, o2, ho2, hsp2⟩ := jelems_head hv g _ _ _ hy
          have hrec := ih _ y.1 y.2 hy (g2 - 1) r (by omega) (by omega)
          obtain ⟨g3, rfl⟩ : ∃ g3, g2 = g3 + 1 := ⟨g2 - 1, by omega⟩
          have hval2 := hre (44 :: (y.1 ++ r)) (by omega) (by simp [closes])
          simp only [Nat.add_sub_cancel] at hrec
          simp only [jelems, List.append_assoc, List.cons_append, hval2]
          rw [skipSpace_cons _ (by decide)]
          simp only [if_true]
          rw [ho2] at hrec ⊢
          rw [List.cons_append, skipSpace_cons _ hsp2, ← List.cons_append, hrec]
          rfl
        · simp only [Option.some.injEq, Prod.mk.injEq] at h
          obtain ⟨rfl, rfl⟩ := h
          simp only [List.length_append, List.length_cons, List.length_nil] at hb hg
          obtain ⟨g3, rfl⟩ : ∃ g3, g2 = g3 + 1 := ⟨g2 - 1, by omega⟩
          have hval2 := hre (93 :: r) (by omega) (by simp [closes])
          simp only [jelems, List.append_assoc, List.cons_append, List.nil_append, hval2]
          rw [skipSpace_cons _ (by decide)]
          simp

theorem jmembers_head (escape : Bool) (val : WS.Bytes → Option (WS.Bytes × WS.Bytes))
    (g : Nat) (inp o rest : WS.Bytes) (h : jmembers escape val g inp = some (o, rest)) :
    ∃ o2, o = 34 :: o2 := by
  cases g with
  | zero => simp [jmembers] at h
  | succ g =>
    simp only [jmembers] at h
    split at h
    · simp at h
    · split_ifs at h
      split at h
      · simp at h
      · split at h
        · simp at h
        · split_ifs at h
          split at h
          · simp at h
          · split at h
            · simp at h
            · split_ifs at h
              · simp only [Option.map_eq_some'] at h
                obtain ⟨y, _, hs⟩ := h
                simp only [Prod.mk.injEq] at hs
                obtain ⟨rfl, rfl⟩ := hs
                exact ⟨_, rfl⟩
              · simp only [Option.some.injEq, Prod.mk.injEq] at h
                obtain ⟨rfl, rfl⟩ := h
                exact ⟨_, rfl⟩

theorem jmembers_rescan {val val2 : WS.Bytes → Option (WS.Bytes × WS.Bytes)} {bound : Nat}
    (hv : ValRescan val val2 bound) :
    ∀ (g : Nat) (inp o rest : WS.Bytes), jmembers true val g inp = some (o, rest) →
    ∀ (g2 : Nat) (r : WS.Bytes), o.length ≤ bound → o.length ≤ g2 →
      jmembers false val2 g2 (o ++ r) = some (o, r) := by
  intro g
  induction g with
  | zero => intro inp o rest h; simp [jmembers] at h
  | succ g ih =>
    intro inp o rest h g2 r hb hg
    simp only [jmembers] at h
    split at h
    · simp at h
    · split_ifs at h
      split at h
      · simp at h
      · rename_i k r1 hkey
        split at h
        · simp at h
        · split_ifs at h
          split at h
          · simp at h
          · rename_i v r3 hval
            obtain ⟨⟨b, v2, hvb, hsp⟩, hre⟩ := hv _ v r3 hval
            split at h
            · simp at h
            · split_ifs at h
              · simp only [Option.map_eq_some'] at h
                obtain ⟨y, hy, hs⟩ := h
                simp only [Prod.mk.injEq] at hs
                obtain ⟨rfl, rfl⟩ := hs
                simp only [List.length_append, List.length_cons] at hb hg
                obtain ⟨o2, ho2⟩ := jmembers_head _ _ g _ _ _ hy
                have hrec := ih _ y.1 y.2 hy (g2 - 1) r (by omega) (by omega)
                obtain ⟨g3, rfl⟩ : ∃ g3, g2 = g3 + 1 := ⟨g2 - 1, by omega⟩
                have hkey2 := strScan_rescan _ _ _ _ hkey (58 :: (v ++ 44 :: (y.1 ++ r)))
                have hval2 := hre (44 :: (y.1 ++ r)) (by omega) (by simp [closes])
                simp only [Nat.add_sub_cancel] at hrec
                simp only [StrState.rescan] at hkey2
                simp only [jmembers, List.append_assoc, List.cons_append, if_true, hkey2]
                rw [skipSpace_cons _ (by decide)]
                simp only [if_true]
                rw [hvb] at hval2 ⊢
                rw [List.cons_append, skipSpace_cons _ hsp, ← List.cons_append, hval2]
                simp only []
                rw [skipSpace_cons _ (by decide)]
                simp only [if_true]
                rw [ho2] at hrec ⊢
                rw [List.cons_append, skipSpace_cons _ (by decide), ← List.cons_append, hrec]
                rfl
              · simp only [Option.some.injEq, Prod.mk.injEq] at h
                obtain ⟨rfl, rfl⟩ := h
                simp only [List.length_append, List.length_cons, List.length_nil] at hb hg
                obtain ⟨g3, rfl⟩ : ∃ g3, g2 = g3 + 1 := ⟨g2 - 1, by omega⟩
                have hkey2 := strScan_rescan _ _ _ _ hkey (58 :: (v ++ 125 :: r))
                have hval2 := hre (125 :: r) (by omega) (by simp [closes])
                simp only [StrState.rescan] at hkey2
                simp only [jmembers, List.append_assoc, List.cons_append, List.nil_append,
                  if_true, hkey2]
                rw [skipSpace_cons _ (by decide)]
                simp only [if_true]
                rw [hvb] at hval2 ⊢
                rw [List.cons_append, skipSpace_cons _ hsp, ← List.cons_append, hval2]
                simp only []
                rw [skipSpace_cons _ (by decide)]
                simp

/-- The compact text of a value, followed by a closing byte, is read back as
that value: the scanner takes exactly the compact text and writes it
unchanged. -/
theorem jvalue_rescan : ∀ (f depth : Nat) (inp c rest : WS.Bytes),
    jvalue true f depth inp = some (c, rest) →
    ∀ (f2 : Nat) (r : WS.Bytes), c.length < f2 → closes r = true →
      jvalue false f2 depth (c ++ r) = some (c, r) := by
  intro f
  induction f with
  | zero => intro depth inp c rest h; simp [jvalue] at h
  | succ f ih =>
    intro depth inp c rest h f2 r hf hr
    have hv : ∀ g, ValRescan (jvalue true f (depth + 1)) (jvalue false g (depth + 1)) g := by
      intro g inp v rest hval
      obtain ⟨b, t, c2, _, hc, hsp, _⟩ := jvalue_head _ _ _ _ _ _ hval
      exact ⟨⟨b, c2, hc, hsp⟩, fun r hl hcl => ih _ _ _ _ hval g r hl hcl⟩
    cases inp with
    | nil => simp [jvalue] at h
    | cons b t =>
      obtain ⟨g, rfl⟩ : ∃ g, f2 = g + 1 := ⟨f2 - 1, by omega⟩
      simp only [jvalue] at h
      split_ifs at h with h1 h2 h3 h4
      · -- object
        split at h
        · simp at h
        · rename_i x t1 _
          split_ifs at h with h5
          · simp only [Option.some.injEq, Prod.mk.injEq] at h
            obtain ⟨rfl, rfl⟩ := h
            simp only [jvalue, List.cons_append, List.nil_append, if_true, h2]
            rw [skipSpace_cons _ (by decide)]
            simp
          · simp only [Option.map_eq_some'] at h
            obtain ⟨y, hy, hs⟩ := h
            simp only [Prod.mk.injEq] at hs
            obtain ⟨rfl, rfl⟩ := hs
            simp only [List.length_cons] at hf
            obtain ⟨o2, ho2⟩ := jmembers_head _ _ _ _ _ _ hy
            have hrec := jmembers_rescan (hv g) f _ y.1 y.2 hy g r (by omega) (by omega)
            simp only [jvalue, List.cons_append, if_true, h2]
            rw [ho2] at hrec ⊢
            rw [List.cons_append, skipSpace_cons _ (by decide)]
            simp only [show (34 : Nat) ≠ 125 by decide, if_false]
            rw [← List.cons_append, hrec]
            rfl
      · -- array
        split at h
        · simp at h
        · rename_i x t1 hsk
          split_ifs at h with h5
          · simp only [Option.some.injEq, Prod.mk.injEq] at h
            obtain ⟨rfl, rfl⟩ := h
            simp only [jvalue, List.cons_append, List.nil_append, h4]
            rw [skipSpace_cons _ (by decide)]
            simp
          · simp only [Option.map_eq_some'] at h
            obtain ⟨y, hy, hs⟩ := h
            simp only [Prod.mk.injEq] at hs
            obtain ⟨rfl, rfl⟩ := hs
            simp only [List.length_cons] at hf
            have hrec := jelems_rescan (hv g) f _ y.1 y.2 hy g r (by omega) (by omega)
            -- the first element starts with `x`
            have hx : ∃ o2, y.1 = x :: o2 ∧ isSpace x = false := by
              cases f with
              | zero => simp [jelems] at hy
              | succ f3 =>
                simp only [jelems] at hy
                split at hy
                · simp at hy
                · rename_i v r1 hval
                  obtain ⟨b2, t2, c2, hin, hc, hsp, _⟩ := jvalue_head _ _ _ _ _ _ hval
                  simp only [List.cons.injEq] at hin
                  obtain ⟨rfl, rfl⟩ := hin
                  split at hy
                  · simp at hy
                  · split_ifs at hy
                    · simp only [Option.map_eq_some'] at hy
                      obtain ⟨z, _, hs⟩ := hy
                      rw [← hs, hc]
                      exact ⟨_, rfl, hsp⟩
                    · simp only [Option.some.injEq] at hy
                      rw [← hy, hc]
                      exact ⟨_, rfl, hsp⟩
            obtain ⟨o2, ho2, hsp⟩ := hx
            simp only [jvalue, List.cons_append, h4]
            rw [ho2] at hrec ⊢
            rw [List.cons_append, skipSpace_cons _ hsp]
            simp only [h5, if_false]
            rw [← List.cons_append, hrec]
            simp [h1]
      all_goals
        first
        | (simp at h; done)
        | (simp only [Option.map_eq_some'] at h
           obtain ⟨y, hy, hs⟩ := h
           simp only [Prod.mk.injEq] at hs
           obtain ⟨rfl, rfl⟩ := hs
           first
           | (have hre := strScan_rescan _ _ _ _ hy r
              simp only [StrState.rescan] at hre
              simp [jvalue, hre, *])
           | (have hre := litScan_rescan _ _ _ _ hy r
              simp [jvalue, hre, *])
           | (have hre := numScan_rescan _ _ _ _ hy r hr
              simp [jvalue, hre, *]))

/-! ## Nesting depth -/

theorem jelems_congr {val val2 : WS.Bytes → Option (WS.Bytes × WS.Bytes)}
    (hv : ∀ inp y, val inp = some y → val2 inp = some y) :
    ∀ (g : Nat) (inp : WS.Bytes) (y : WS.Bytes × WS.Bytes),
      jelems val g inp = some y → jelems val2 g inp = some y := by
  intro g
  induction g with
  | zero => intro inp y h; simp [jelems] at h
  | succ g ih =>
    intro inp y h
    simp only [jelems] at h ⊢
    split at h
    · simp at h
    · rename_i v r1 hval
      rw [hv _ _ hval]
      try simp only []
      split at h
      · simp at h
      · rename_i x r2 hsk
        split_ifs at h with h1 h2
        · simp only [Option.map_eq_some'] at h
          obtain ⟨z, hz, hs⟩ := h
          rw [if_pos h1, ih _ _ hz, ← hs]
          rfl
        · rw [if_neg h1, if_pos h2]
          exact h

theorem jmembers_congr (escape : Bool) {val val2 : WS.Bytes → Option (WS.Bytes × WS.Bytes)}
    (hv : ∀ inp y, val inp = some y → val2 inp = some y) :
    ∀ (g : Nat) (inp : WS.Bytes) (y : WS.Bytes × WS.Bytes),
      jmembers escape val g inp = some y → jmembers escape val2 g inp = some y := by
  intro g
  induction g with
  | zero => intro inp y h; simp [jmembers] at h
  | succ g ih =>
    intro inp y h
    simp only [jmembers] at h ⊢
    split at h
    · simp at h
    · split_ifs at h with hq
      rw [if_pos hq]
      split at h
      · simp at h
      · rename_i k r1 hkey
        try simp only []
        split at h
        · simp at h
        · rename_i c r2 hsk
          split_ifs at h with hc
          rw [if_pos hc]
          split at h
          · simp at h
          · rename_i v r3 hval
            rw [hv _ _ hval]
            try simp only []
            split at h
            · simp at h
            · rename_i x r4 hsk2
              split_ifs at h with h1 h2
              · simp only [Option.map_eq_some'] at h
                obtain ⟨z, hz, hs⟩ := h
                rw [if_pos h1, ih _ _ hz, ← hs]
                rfl
              · rw [if_neg h1, if_pos h2]
                exact h

/-- A value accepted some brackets deep is accepted, with the same result,
less deep. -/
theorem jvalue_depth_mono (escape : Bool) : ∀ (f depth : Nat) (inp : WS.Bytes)
    (y : WS.Bytes × WS.Bytes), jvalue escape f depth inp = some y →
    ∀ depth2, depth2 ≤ depth → jvalue escape f depth2 inp = some y := by
  intro f
  induction f with
  | zero => intro depth inp y h; simp [jvalue] at h
  | succ f ih =>
    intro depth inp y h depth2 hd
    have hv : ∀ inp y, jvalue escape f (depth + 1) inp = some y →
        jvalue escape f (depth2 + 1) inp = some y :=
      fun inp y hy => ih _ _ _ hy _ (by omega)
    cases inp with
    | nil => simp [jvalue] at h
    | cons b t =>
      simp only [jvalue] at h ⊢
      split_ifs at h with h1 h2 h3 h4
      · have h2b : depth2 < maxNestingDepth := by omega
        rw [if_pos h1, if_pos h2b]
        split at h
        · simp at h
        · rename_i x t1 hsk
          try simp only []
          split_ifs at h with h5
          · rw [if_pos h5]; exact h
          · rw [if_neg h5]
            simp only [Option.map_eq_some'] at h ⊢
            obtain ⟨z, hz, hs⟩ := h
            exact ⟨z, jmembers_congr escape hv _ _ _ hz, hs⟩
      · have h4b : depth2 < maxNestingDepth := by omega
        rw [if_neg h1, if_pos h3, if_pos h4b]
        split at h
        · simp at h
        · rename_i x t1 hsk
          try simp only []
          split_ifs at h with h5
          · rw [if_pos h5]; exact h
          · rw [if_neg h5]
            simp only [Option.map_eq_some'] at h ⊢
            obtain ⟨z, hz, hs⟩ := h
            exact ⟨z, jelems_congr hv _ _ _ hz, hs⟩
      all_goals
        first
        | (simp at h; done)
        | (simp only [*, if_true, if_false]; try (first | exact h | simp [h]))

/-! ## Byte strings -/

theorem isBytes_nil : IsBytes [] := by simp [IsBytes]

theorem isBytes_cons (b : Nat) (l : WS.Bytes) : IsBytes (b :: l) ↔ b < 256 ∧ IsBytes l := by
  simp [IsBytes]

theorem isBytes_append (l1 l2 : WS.Bytes) : IsBytes (l1 ++ l2) ↔ IsBytes l1 ∧ IsBytes l2 := by
  simp only [IsBytes, List.mem_append]
  constructor
  · intro h
    exact ⟨fun b hb => h b (Or.inl hb), fun b hb => h b (Or.inr hb)⟩
  · rintro ⟨h1, h2⟩ b (hb | hb)
    · exact h1 b hb
    · exact h2 b hb

theorem isBytes_skipSpace (l : WS.Bytes) (h : IsBytes l) : IsBytes (skipSpace l) := by
  induction l with
  | nil => exact h
  | cons b t ih =>
    simp only [skipSpace]
    split_ifs
    · exact ih ((isBytes_cons _ _).mp h).2
    · exact h

theorem isBytes_of_skipSpace_eq {l : WS.Bytes} {x : Nat} {t : WS.Bytes} (h : IsBytes l)
    (hs : skipSpace l = x :: t) : x < 256 ∧ IsBytes t := by
  have := isBytes_skipSpace l h
  rw [hs] at this
  exact (isBytes_cons _ _).mp this

theorem strScan_bytes (escape : Bool) : ∀ (inp : WS.Bytes) (st : StrState) (s rest : WS.Bytes),
    strScan escape st inp = some (s, rest) → IsBytes inp → IsBytes s ∧ IsBytes rest := by
  intro inp
  induction inp with
  | nil => intro st s rest h; cases st <;> simp [strScan] at h
  | cons b t ih =>
    intro st s rest h hb
    obtain ⟨hb1, hb2⟩ := (isBytes_cons _ _).mp hb
    cases st <;> simp only [strScan] at h <;> split_ifs at h <;>
      first
      | (simp only [Option.some.injEq, Prod.mk.injEq] at h
         obtain ⟨rfl, rfl⟩ := h
         exact ⟨by simp [IsBytes], hb2⟩)
      | (simp only [Option.map_eq_some'] at h
         obtain ⟨x, hx, hs⟩ := h
         simp only [Prod.mk.injEq] at hs
         obtain ⟨rfl, rfl⟩ := hs
         obtain ⟨h1, h2⟩ := ih _ x.1 x.2 hx hb2
         refine ⟨?_, h2⟩
         simp only [List.cons_append, List.nil_append, isBytes_cons]
         simp [h1, hb1])
      | (exact ih _ s rest h hb2)

theorem numScan_bytes : ∀ (inp : WS.Bytes) (st : NumState) (n rest : WS.Bytes),
    numScan st inp = some (n, rest) → IsBytes inp → IsBytes n ∧ IsBytes rest := by
  intro inp
  induction inp with
  | nil =>
    intro st n rest h _
    cases st <;> simp only [numScan] at h <;>
      first
      | (simp at h; done)
      | (simp only [Option.some.injEq, Prod.mk.injEq] at h
         obtain ⟨rfl, rfl⟩ := h
         exact ⟨isBytes_nil, isBytes_nil⟩)
  | cons b t ih =>
    intro st n rest h hb
    obtain ⟨hb1, hb2⟩ := (isBytes_cons _ _).mp hb
    cases st <;> simp only [numScan] at h <;> split_ifs at h <;>
      first
      | (simp only [Option.some.injEq, Prod.mk.injEq] at h
         obtain ⟨rfl, rfl⟩ := h
         exact ⟨isBytes_nil, hb⟩)
      | (simp only [Option.map_eq_some'] at h
         obtain ⟨x, hx, hs⟩ := h
         simp only [Prod.mk.injEq] at hs
         obtain ⟨rfl, rfl⟩ := hs
         obtain ⟨h1, h2⟩ := ih _ x.1 x.2 hx hb2
         exact ⟨(isBytes_cons _ _).mpr ⟨hb1, h1⟩, h2⟩)

theorem litScan_bytes (word inp o rest : WS.Bytes) (h : litScan word inp = some (o, rest))
    (hw : IsBytes word) (hb : IsBytes inp) : IsBytes o ∧ IsBytes rest := by
  unfold litScan at h
  split_ifs at h
  simp only [Option.some.injEq, Prod.mk.injEq] at h
  obtain ⟨rfl, rfl⟩ := h
  exact ⟨hw, fun b hm => hb b (List.mem_of_mem_drop hm)⟩

theorem jelems_bytes {val : WS.Bytes → Option (WS.Bytes × WS.Bytes)} (hv : ValBytes val) :
    ∀ (g : Nat) (inp o rest : WS.Bytes), jelems val g inp = some (o, rest) → IsBytes inp →
      IsBytes o ∧ IsBytes rest := by
  intro g
  induction g with
  | zero => intro inp o rest h; simp [jelems] at h
  | succ g ih =>
    intro inp o rest h hb
    simp only [jelems] at h
    split at h
    · simp at h
    · rename_i v r1 hval
      obtain ⟨hv1, hr1⟩ := hv _ _ _ hval hb
      split at h
      · simp at h
      · rename_i x r2 hsk
        obtain ⟨hx, hr2⟩ := isBytes_of_skipSpace_eq hr1 hsk
        split_ifs at h
        · simp only [Option.map_eq_some'] at h
          obtain ⟨y, hy, hs⟩ := h
          simp only [Prod.mk.injEq] at hs
          obtain ⟨rfl, rfl⟩ := hs
          obtain ⟨h1, h2⟩ := ih _ y.1 y.2 hy (isBytes_skipSpace _ hr2)
          exact ⟨(isBytes_append _ _).mpr ⟨hv1, (isBytes_cons _ _).mpr ⟨by decide, h1⟩⟩, h2⟩
        · simp only [Option.some.injEq, Prod.mk.injEq] at h
          obtain ⟨rfl, rfl⟩ := h
          exact ⟨(isBytes_append _ _).mpr ⟨hv1, (isBytes_cons _ _).mpr ⟨by decide, isBytes_nil⟩⟩,
            hr2⟩

theorem jmembers_bytes (escape : Bool) {val : WS.Bytes → Option (WS.Bytes × WS.Bytes)}
    (hv : ValBytes val) :
    ∀ (g : Nat) (inp o rest : WS.Bytes), jmembers escape val g inp = some (o, rest) →
      IsBytes inp → IsBytes o ∧ IsBytes rest := by
  intro g
  induction g with
  | zero => intro inp o rest h; simp [jmembers] at h
  | succ g ih =>
    intro inp o rest h hb
    simp only [jmembers] at h
    split at h
    · simp at h
    · rename_i q t
      obtain ⟨_, hbt⟩ := (isBytes_cons _ _).mp hb
      split_ifs at h
      split at h
      · simp at h
      · rename_i k r1 hkey
        obtain ⟨hk, hr1⟩ := strScan_bytes _ _ _ _ _ hkey hbt
        split at h
        · simp at h
        · rename_i c r2 hsk
          obtain ⟨_, hr2⟩ := isBytes_of_skipSpace_eq hr1 hsk
          split_ifs at h
          split at h
          · simp at h
          · rename_i v r3 hval
            obtain ⟨hv1, hr3⟩ := hv _ _ _ hval (isBytes_skipSpace _ hr2)
            split at h
            · simp at h
            · rename_i x r4 hsk2
              obtain ⟨_, hr4⟩ := isBytes_of_skipSpace_eq hr3 hsk2
              split_ifs at h
              · simp only [Option.map_eq_some'] at h
                obtain ⟨y, hy, hs⟩ := h
                simp only [Prod.mk.injEq] at hs
                obtain ⟨rfl, rfl⟩ := hs
                obtain ⟨h1, h2⟩ := ih _ y.1 y.2 hy (isBytes_skipSpace _ hr4)
                refine ⟨?_, h2⟩
                simp [isBytes_cons, isBytes_append, hk, hv1, h1]
              · simp only [Option.some.injEq, Prod.mk.injEq] at h
                obtain ⟨rfl, rfl⟩ := h
                refine ⟨?_, hr4⟩
                simp [isBytes_cons, isBytes_append, isBytes_nil, hk, hv1]

/-- The compact text of a byte string is a byte string. -/
theorem jvalue_bytes (escape : Bool) : ∀ (f depth : Nat) (inp c rest : WS.Bytes),
    jvalue escape f depth inp = some (c, rest) → IsBytes inp → IsBytes c ∧ IsBytes rest := by
  intro f
  induction f with
  | zero => intro depth inp c rest h; simp [jvalue] at h
  | succ f ih =>
    intro depth inp c rest h hb
    have hv : ValBytes (jvalue escape f (depth + 1)) := fun inp v rest hval hb => ih _ _ _ _ hval hb
    cases inp with
    | nil => simp [jvalue] at h
    | cons b t =>
      obtain ⟨hb1, hbt⟩ := (isBytes_cons _ _).mp hb
      simp only [jvalue] at h
      split_ifs at h with h1 h2 h3 h4
      · split at h
        · simp at h
        · rename_i x t1 hsk
          have hxt := isBytes_skipSpace _ hbt
          rw [hsk] at hxt
          split_ifs at h
          · simp only [Option.some.injEq, Prod.mk.injEq] at h
            obtain ⟨rfl, rfl⟩ := h
            exact ⟨by simp [IsBytes], ((isBytes_cons _ _).mp hxt).2⟩
          · simp only [Option.map_eq_some'] at h
            obtain ⟨y, hy, hs⟩ := h
            simp only [Prod.mk.injEq] at hs
            obtain ⟨rfl, rfl⟩ := hs
            obtain ⟨h5, h6⟩ := jmembers_bytes escape hv _ _ _ _ hy hxt
            exact ⟨(isBytes_cons _ _).mpr ⟨by decide, h5⟩, h6⟩
      · split at h
        · simp at h
        · rename_i x t1 hsk
          have hxt := isBytes_skipSpace _ hbt
          rw [hsk] at hxt
          split_ifs at h
          · simp only [Option.some.injEq, Prod.mk.injEq] at h
            obtain ⟨rfl, rfl⟩ := h
            exact ⟨by simp [IsBytes], ((isBytes_cons _ _).mp hxt).2⟩
          · simp only [Option.map_eq_some'] at h
            obtain ⟨y, hy, hs⟩ := h
            simp only [Prod.mk.injEq] at hs
            obtain ⟨rfl, rfl⟩ := hs
            obtain ⟨h5, h6⟩ := jelems_bytes hv _ _ _ _ hy hxt
            exact ⟨(isBytes_cons _ _).mpr ⟨by decide, h5⟩, h6⟩
      all_goals
        first
        | (simp at h; done)
        | (simp only [Option.map_eq_some'] at h
           obtain ⟨y, hy, hs⟩ := h
           simp only [Prod.mk.injEq] at hs
           obtain ⟨rfl, rfl⟩ := hs
           first
           | (have h56 := strScan_bytes _ _ _ _ _ hy hbt
              exact ⟨(isBytes_cons _ _).mpr ⟨by first | exact hb1 | decide, h56.1⟩, h56.2⟩)
           | (have h56 := litScan_bytes _ _ _ _ hy (by simp [IsBytes]) hbt
              exact ⟨(isBytes_cons _ _).mpr ⟨by first | exact hb1 | decide, h56.1⟩, h56.2⟩)
           | (have h56 := numScan_bytes _ _ _ _ hy hbt
              exact ⟨(isBytes_cons _ _).mpr ⟨by first | exact hb1 | decide, h56.1⟩, h56.2⟩))

/-! ## Reading back what `json.Marshal` wrote -/

theorem strScan_plain : ∀ (body r : WS.Bytes), body.all plainByte = true →
    strScan false .normal (body ++ 34 :: r) = some (body ++ [34], r) := by
  intro body
  induction body with
  | nil => intro r _; simp [strScan]
  | cons b t ih =>
    intro r h
    simp only [List.all_cons, Bool.and_eq_true] at h
    obtain ⟨hb, ht⟩ := h
    simp only [plainByte, Bool.and_eq_true, decide_eq_true_eq, bne_iff_ne, ne_eq] at hb
    obtain ⟨⟨⟨h1, _⟩, h3⟩, h4⟩ := hb
    have h5 : ¬ b < 32 := by omega
    simp [strScan, h3, h4, h5, ih r ht]

theorem objectFields_last (val : WS.Bytes → Option (WS.Bytes × WS.Bytes)) (g : Nat)
    (key v v2 : WS.Bytes) (hk : key.all plainByte = true)
    (hs : skipSpace (v ++ [125]) = v ++ [125])
    (hv : val (v ++ [125]) = some (v2, [125])) :
    objectFields val (g + 1) (34 :: (key ++ 34 :: 58 :: (v ++ [125]))) = some ([(key, v)], []) := by
  simp only [objectFields, if_true, strScan_plain key _ hk]
  rw [skipSpace_cons _ (by decide)]
  simp only [if_true, hs, hv]
  rw [skipSpace_cons _ (by decide)]
  simp

theorem objectFields_cons (val : WS.Bytes → Option (WS.Bytes × WS.Bytes)) (g : Nat)
    (key v v2 tail : WS.Bytes) (hk : key.all plainByte = true)
    (hs : skipSpace (v ++ 44 :: 34 :: tail) = v ++ 44 :: 34 :: tail)
    (hv : val (v ++ 44 :: 34 :: tail) = some (v2, 44 :: 34 :: tail)) :
    objectFields val (g + 1) (34 :: (key ++ 34 :: 58 :: (v ++ 44 :: 34 :: tail))) =
      (objectFields val g (34 :: tail)).map fun y => ((key, v) :: y.1, y.2) := by
  simp only [objectFields, if_true, strScan_plain key _ hk]
  rw [skipSpace_cons _ (by decide)]
  simp only [if_true, hs, hv]
  rw [skipSpace_cons _ (by decide)]
  simp only [if_true]
  rw [skipSpace_cons _ (by decide)]
  simp

theorem decodeString_plain (lib : JsonStrings) (body : WS.Bytes)
    (h : body.all plainByte = true) : decodeString lib body = String.mk (body.map Char.ofNat) := by
  simp [decodeString, h]

theorem storeField_user_id (lib : JsonStrings) (st : DecodeState) (uid : WS.Bytes) :
    storeField lib st [117, 115, 101, 114, 95, 105, 100] (34 :: (uid ++ [34])) =
      { st with evt := { st.evt with UserID := decodeString lib uid } } := by
  have hk : decodeString lib [117, 115, 101, 114, 95, 105, 100] = "user_id" := by
    rw [decodeString_plain _ _ (by decide)]; decide
  simp only [storeField, hk]
  rw [if_pos (by decide)]
  simp

theorem storeField_payload (lib : JsonStrings) (st : DecodeState) (raw : WS.Bytes) :
    storeField lib st [112, 97, 121, 108, 111, 97, 100] raw =
      { st with evt := { st.evt with Payload := raw } } := by
  have hk : decodeString lib [112, 97, 121, 108, 111, 97, 100] = "payload" := by
    rw [decodeString_plain _ _ (by decide)]; decide
  simp only [storeField, hk]
  rw [if_neg (by decide), if_pos (by decide)]

theorem jvalue_quote (escape : Bool) (f depth : Nat) (t : WS.Bytes) :
    jvalue escape (f + 1) depth (34 :: t) =
      (strScan escape .normal t).map fun y => (34 :: y.1, y.2) := by
  rw [jvalue]
  simp

theorem jsonUnmarshalEvent_object (lib : JsonStrings) (data t t1 rest : WS.Bytes) (x : Nat)
    (fields : List (WS.Bytes × WS.Bytes))
    (h1 : skipSpace data = 123 :: t) (h2 : skipSpace t = x :: t1) (hx : x ≠ 125)
    (hf : objectFields (jvalue false data.length 1) data.length (x :: t1) = some (fields, rest))
    (hr : skipSpace rest = []) :
    jsonUnmarshalEvent lib data =
      if (fields.foldl (fun st kv => storeField lib st kv.1 kv.2) ⟨⟨"", []⟩, true⟩).ok
      then some (fields.foldl (fun st kv => storeField lib st kv.1 kv.2) ⟨⟨"", []⟩, true⟩).evt
      else none := by
  unfold jsonUnmarshalEvent
  rw [h1]
  simp only [if_true]
  rw [h2]
  simp only [if_neg hx, hf, hr, if_true]

/-- What `json.Marshal` writes for a user id of plain characters and a compact
payload, `json.Unmarshal` reads back as that user id and that payload. -/
theorem jsonUnmarshalEvent_envelope (lib : JsonStrings) (uid c inp rest : WS.Bytes) (f : Nat)
    (hu : uid.all plainByte = true) (hc : jvalue true f 1 inp = some (c, rest)) :
    jsonUnmarshalEvent lib (envelope uid c) =
      some ⟨String.mk (uid.map Char.ofNat), c⟩ := by
  obtain ⟨b, t, c2, _, hcb, hsp, _⟩ := jvalue_head _ _ _ _ _ _ hc
  have hlen : (envelope uid c).length = (uid.length + c.length + 23) + 2 := by
    simp [envelope]; omega
  have henv : envelope uid c =
      123 :: 34 :: ([117, 115, 101, 114, 95, 105, 100] ++ 34 :: 58 :: ((34 :: (uid ++ [34])) ++
        44 :: 34 :: ([112, 97, 121, 108, 111, 97, 100] ++ 34 :: 58 :: (c ++ [125])))) := by
    simp [envelope]
  -- the value of `payload`
  have hval2 : jvalue false (envelope uid c).length 1 (c ++ [125]) = some (c, [125]) :=
    jvalue_rescan _ _ _ _ _ hc _ [125] (by rw [hlen]; omega) (by decide)
  have hs2 : skipSpace (c ++ [125]) = c ++ [125] := by
    rw [hcb, List.cons_append, skipSpace_cons _ hsp]
  -- the value of `user_id`
  have hval1 : ∀ tail : WS.Bytes, jvalue false (envelope uid c).length 1
      ((34 :: (uid ++ [34])) ++ 44 :: 34 :: tail) = some (34 :: (uid ++ [34]), 44 :: 34 :: tail) := by
    intro tail
    rw [hlen, List.cons_append, jvalue_quote, List.append_assoc, List.singleton_append,
      strScan_plain uid _ hu]
    rfl
  have hs1 : ∀ tail : WS.Bytes, skipSpace ((34 :: (uid ++ [34])) ++ 44 :: 34 :: tail) =
      (34 :: (uid ++ [34])) ++ 44 :: 34 :: tail := by
    intro tail
    rw [List.cons_append, skipSpace_cons _ (by decide)]
  have hfields : objectFields (jvalue false (envelope uid c).length 1) (envelope uid c).length
      (34 :: ([117, 115, 101, 114, 95, 105, 100] ++ 34 :: 58 :: ((34 :: (uid ++ [34])) ++
        44 :: 34 :: ([112, 97, 121, 108, 111, 97, 100] ++ 34 :: 58 :: (c ++ [125]))))) =
      some ([([117, 115, 101, 114, 95, 105, 100], 34 :: (uid ++ [34])),
        ([112, 97, 121, 108, 111, 97, 100], c)], []) := by
    conv => lhs; arg 2; rw [hlen]
    rw [objectFields_cons _ _ _ _ _ _ (by decide) (hs1 _) (hval1 _),
      objectFields_last _ _ _ _ _ (by decide) hs2 hval2]
    rfl
  have h1 : skipSpace (envelope uid c) =
      123 :: 34 :: ([117, 115, 101, 114, 95, 105, 100] ++ 34 :: 58 :: ((34 :: (uid ++ [34])) ++
        44 :: 34 :: ([112, 97, 121, 108, 111, 97, 100] ++ 34 :: 58 :: (c ++ [125])))) := by
    rw [henv, skipSpace_cons _ (by decide)]
  rw [jsonUnmarshalEvent_object lib _ _ _ _ _ _ h1 (skipSpace_cons _ (by decide)) (by decide)
    hfields rfl]
  simp only [List.foldl_cons, List.foldl_nil, storeField_user_id, storeField_payload,
    decodeString_plain lib uid hu]
  rfl

theorem toNat_ofNat_of_lt {b : Nat} (h : b < 256) : (Char.ofNat b).toNat = b := by
  have hv : b.isValidChar := Or.inl (by omega)
  simp only [Char.ofNat, dif_pos hv]
  rfl

theorem textToBytes_bytesToText (data : WS.Bytes) (h : IsBytes data) :
    textToBytes (bytesToText data) = data := by
  induction data with
  | nil => rfl
  | cons b t ih =>
    obtain ⟨hb, ht⟩ := (isBytes_cons _ _).mp h
    have := ih ht
    simp only [textToBytes, bytesToText, List.map_cons, List.map_map] at this ⊢
    rw [this, toNat_ofNat_of_lt hb]

theorem mk_ofNat_toNat (s : String) : String.mk ((s.data.map Char.toNat).map Char.ofNat) = s := by
  simp [List.map_map, Function.comp_def]

theorem isBytes_of_htmlSafe (l : WS.Bytes) (h : l.all htmlSafeByte = true) :
    IsBytes l ∧ l.all plainByte = true := by
  induction l with
  | nil => exact ⟨isBytes_nil, rfl⟩
  | cons b t ih =>
    simp only [List.all_cons, Bool.and_eq_true] at h ⊢
    obtain ⟨hb, ht⟩ := h
    obtain ⟨h1, h2⟩ := ih ht
    have hp : plainByte b = true := by
      simp only [htmlSafeByte, Bool.and_eq_true] at hb
      exact hb.1.1.1
    refine ⟨(isBytes_cons _ _).mpr ⟨?_, h1⟩, hp, h2⟩
    simp only [plainByte, Bool.and_eq_true, decide_eq_true_eq] at hp
    omega

theorem isBytes_envelope (uid c : WS.Bytes) (hu : IsBytes uid) (hc : IsBytes c) :
    IsBytes (envelope uid c) := by
  simp [envelope, isBytes_append, isBytes_cons, isBytes_nil, hu, hc]

/-- What the hypothesis on the payload says: the scanner accepts the text one
bracket deep, writes `c` for it, and only white space follows. -/
theorem compactFrom_eq_some {escape : Bool} {depth : Nat} {src c : WS.Bytes}
    (h : compactFrom escape depth src = some c) :
    ∃ rest, jvalue escape (src.length + 1) depth (skipSpace src) = some (c, rest) ∧
      skipSpace rest = [] := by
  unfold compactFrom at h
  split at h
  · simp at h
  · rename_i c2 rest hj
    split_ifs at h with hr
    simp only [Option.some.injEq] at h
    subst h
    exact ⟨rest, hj, hr⟩

theorem compactFrom_depth_mono {escape : Bool} {depth depth2 : Nat} {src c : WS.Bytes}
    (h : compactFrom escape depth src = some c) (hd : depth2 ≤ depth) :
    compactFrom escape depth2 src = some c := by
  obtain ⟨rest, hj, hr⟩ := compactFrom_eq_some h
  have := jvalue_depth_mono escape _ _ _ _ hj depth2 hd
  simp [compactFrom, this, hr]

theorem compactFrom_ne_nil {escape : Bool} {depth : Nat} {src c : WS.Bytes}
    (h : compactFrom escape depth src = some c) : src ≠ [] := by
  rintro rfl
  simp [compactFrom, skipSpace, jvalue] at h

/-- The codec of encoding/json on the event of `Publish`: for a user id of
plain characters and a payload that is valid JSON one bracket deep, the
message is the envelope around the compact form of the payload, and it is
read back as that user id and that compact form. -/
theorem jsonCodec_roundtrip (lib : JsonStrings) (uid : String) (p c : WS.Bytes)
    (hu : (uid.data.map Char.toNat).all htmlSafeByte = true)
    (hp : IsBytes p) (hc : compactFrom true 1 p = some c) :
    (jsonCodec lib).marshal ⟨uid, p⟩ =
      some (bytesToText (envelope (uid.data.map Char.toNat) c)) ∧
    (jsonCodec lib).unmarshal (bytesToText (envelope (uid.data.map Char.toNat) c)) =
      some ⟨uid, c⟩ := by
  obtain ⟨rest, hj, _⟩ := compactFrom_eq_some hc
  obtain ⟨hub, hup⟩ := isBytes_of_htmlSafe _ hu
  have hcb : IsBytes c := (jvalue_bytes _ _ _ _ _ _ hj (isBytes_skipSpace _ hp)).1
  constructor
  · have h0 : appendCompact p = some c := compactFrom_depth_mono hc (Nat.zero_le _)
    simp only [jsonCodec, jsonMarshalEvent, if_neg (compactFrom_ne_nil hc), h0, encodeString,
      hu, if_true, Option.map_some']
  · simp only [jsonCodec]
    rw [textToBytes_bytesToText _ (isBytes_envelope _ _ hub hcb),
      jsonUnmarshalEvent_envelope lib _ c _ rest _ hup hj, mk_ofNat_toNat]

/-! ## Nesting at the limit -/

theorem nestedArrays_head (n : Nat) (r : WS.Bytes) :
    ∃ t, nestedArrays (n + 1) ++ r = 91 :: t := ⟨_, rfl⟩

theorem isBytes_nestedArrays (n : Nat) : IsBytes (nestedArrays n) := by
  induction n with
  | zero => exact isBytes_nil
  | succ n ih => simp [nestedArrays, isBytes_cons, isBytes_append, isBytes_nil, ih]

theorem length_nestedArrays (n : Nat) : (nestedArrays n).length = 2 * n := by
  induction n with
  | zero => rfl
  | succ n ih => simp [nestedArrays, ih]; omega

theorem jvalue_bracket (escape : Bool) (f depth : Nat) (t : WS.Bytes) :
    jvalue escape (f + 1) depth (91 :: t) =
      if depth < maxNestingDepth then
        match skipSpace t with
        | [] => none
        | x :: t1 =>
          if x = 93 then some ([91, 93], t1)
          else (jelems (jvalue escape f (depth + 1)) f (x :: t1)).map fun y => (91 :: y.1, y.2)
      else none := by
  rw [jvalue]
  simp only [show (91 : Nat) ≠ 123 by decide, if_false, if_true]

/-- Arrays nested within the limit are accepted. -/
theorem jvalue_nestedArrays (escape : Bool) : ∀ (n depth f : Nat) (r : WS.Bytes),
    depth + (n + 1) ≤ maxNestingDepth → n < f →
    jvalue escape f depth (nestedArrays (n + 1) ++ r) = some (nestedArrays (n + 1), r) := by
  intro n
  induction n with
  | zero =>
    intro depth f r hd hf
    obtain ⟨g, rfl⟩ : ∃ g, f = g + 1 := ⟨f - 1, by omega⟩
    have hlt : depth < maxNestingDepth := by omega
    simp only [nestedArrays, List.nil_append, List.cons_append]
    rw [jvalue_bracket, if_pos hlt, skipSpace_cons _ (by decide)]
    simp
  | succ n ih =>
    intro depth f r hd hf
    obtain ⟨g, rfl⟩ : ∃ g, f = g + 1 := ⟨f - 1, by omega⟩
    obtain ⟨g2, rfl⟩ : ∃ g2, g = g2 + 1 := ⟨g - 1, by omega⟩
    have hlt : depth < maxNestingDepth := by omega
    have hin := ih (depth + 1) (g2 + 1) (93 :: r) (by omega) (by omega)
    have hshape : nestedArrays (n + 1 + 1) ++ r = 91 :: (nestedArrays (n + 1) ++ 93 :: r) := by
      simp [nestedArrays]
    rw [hshape, jvalue_bracket, if_pos hlt]
    obtain ⟨t, ht⟩ := nestedArrays_head n (93 :: r)
    rw [ht, skipSpace_cons _ (by decide)]
    simp only [show (91 : Nat) ≠ 93 by decide, if_false]
    rw [← ht, jelems, hin]
    simp only []
    rw [skipSpace_cons _ (by decide)]
    simp [nestedArrays]

/-- Arrays nested beyond the limit are an error. -/
theorem jvalue_nestedArrays_deep (escape : Bool) : ∀ (n depth f : Nat) (r : WS.Bytes),
    maxNestingDepth < depth + (n + 1) →
    jvalue escape f depth (nestedArrays (n + 1) ++ r) = none := by
  intro n
  induction n with
  | zero =>
    intro depth f r hd
    cases f with
    | zero => rfl
    | succ g =>
      have hlt : ¬ depth < maxNestingDepth := by omega
      simp only [nestedArrays, List.nil_append, List.cons_append]
      rw [jvalue_bracket, if_neg hlt]
  | succ n ih =>
    intro depth f r hd
    cases f with
    | zero => rfl
    | succ g =>
      have hshape : nestedArrays (n + 1 + 1) ++ r = 91 :: (nestedArrays (n + 1) ++ 93 :: r) := by
        simp [nestedArrays]
      rw [hshape, jvalue_bracket]
      by_cases hlt : depth < maxNestingDepth
      · rw [if_pos hlt]
        obtain ⟨t, ht⟩ := nestedArrays_head n (93 :: r)
        rw [ht, skipSpace_cons _ (by decide)]
        simp only [show (91 : Nat) ≠ 93 by decide, if_false]
        rw [← ht]
        cases g with
        | zero => rfl
        | succ g2 =>
          rw [jelems, ih (depth + 1) (g2 + 1) (93 :: r) (by omega)]
          rfl
      · rw [if_neg hlt]

theorem objectFields_bad_value (val : WS.Bytes → Option (WS.Bytes × WS.Bytes)) (g : Nat)
    (key v : WS.Bytes) (hk : key.all plainByte = true)
    (hs : skipSpace (v ++ [125]) = v ++ [125]) (hv : val (v ++ [125]) = none) :
    objectFields val (g + 1) (34 :: (key ++ 34 :: 58 :: (v ++ [125]))) = none := by
  simp only [objectFields, if_true, strScan_plain key _ hk]
  rw [skipSpace_cons _ (by decide)]
  simp only [if_true, hs, hv]

theorem jsonUnmarshalEvent_bad_object (lib : JsonStrings) (data t t1 : WS.Bytes) (x : Nat)
    (h1 : skipSpace data = 123 :: t) (h2 : skipSpace t = x :: t1) (hx : x ≠ 125)
    (hf : objectFields (jvalue false data.length 1) data.length (x :: t1) = none) :
    jsonUnmarshalEvent lib data = none := by
  unfold jsonUnmarshalEvent
  rw [h1]
  simp only [if_true]
  rw [h2]
  simp only [if_neg hx, hf]

theorem nested_payload_at_limit (lib : JsonStrings) (n : Nat) (hn : n + 1 = maxNestingDepth) :
    appendCompact (nestedArrays (n + 1)) = some (nestedArrays (n + 1)) ∧
    (jsonCodec lib).marshal ⟨demoText 1, nestedArrays (n + 1)⟩ =
      some (bytesToText (envelope [117] (nestedArrays (n + 1)))) ∧
    subscriptionLoop (jsonCodec lib) [bytesToText (envelope [117] (nestedArrays (n + 1)))] = [] := by
  have hc : appendCompact (nestedArrays (n + 1)) = some (nestedArrays (n + 1)) := by
    have h := jvalue_nestedArrays true n 0 ((nestedArrays (n + 1)).length + 1) []
      (by omega) (by rw [length_nestedArrays]; omega)
    rw [List.append_nil] at h
    have hs : skipSpace (nestedArrays (n + 1)) = nestedArrays (n + 1) :=
      skipSpace_cons _ (by decide)
    unfold appendCompact compactFrom
    rw [hs, h]
    rfl
  have hne : nestedArrays (n + 1) ≠ [] := List.cons_ne_nil _ _
  have hm : (jsonCodec lib).marshal ⟨demoText 1, nestedArrays (n + 1)⟩ =
      some (bytesToText (envelope [117] (nestedArrays (n + 1)))) := by
    have hu : encodeString lib (demoText 1) = [117] := by
      simp only [encodeString]
      rw [if_pos (by decide)]
      decide
    simp only [jsonCodec, jsonMarshalEvent, if_neg hne, hc, hu, Option.map_some']
  refine ⟨hc, hm, ?_⟩
  have hd : (jsonCodec lib).unmarshal
      (bytesToText (envelope [117] (nestedArrays (n + 1)))) = none := by
    simp only [jsonCodec]
    rw [textToBytes_bytesToText _
      (isBytes_envelope _ _ (by simp [IsBytes]) (isBytes_nestedArrays _))]
    generalize hv : nestedArrays (n + 1) = v
    have henv : envelope [117] v =
        123 :: 34 :: ([117, 115, 101, 114, 95, 105, 100] ++ 34 :: 58 :: ((34 :: ([117] ++ [34])) ++
          44 :: 34 :: ([112, 97, 121, 108, 111, 97, 100] ++ 34 :: 58 :: (v ++ [125])))) := by
      simp [envelope]
    have hlen : (envelope [117] v).length = (v.length + 24) + 2 := by
      simp [envelope]
    have h1 : skipSpace (envelope [117] v) =
        123 :: 34 :: ([117, 115, 101, 114, 95, 105, 100] ++ 34 :: 58 :: ((34 :: ([117] ++ [34])) ++
          44 :: 34 :: ([112, 97, 121, 108, 111, 97, 100] ++ 34 :: 58 :: (v ++ [125])))) := by
      rw [henv, skipSpace_cons _ (by decide)]
    have hval1 : ∀ tail : WS.Bytes, jvalue false (envelope [117] v).length 1
        ((34 :: ([117] ++ [34])) ++ 44 :: 34 :: tail) =
          some (34 :: ([117] ++ [34]), 44 :: 34 :: tail) := by
      intro tail
      rw [hlen, List.cons_append, jvalue_quote]
      simp [strScan]
    have hval2 : jvalue false (envelope [117] v).length 1 (v ++ [125]) = none := by
      rw [← hv]
      exact jvalue_nestedArrays_deep false n 1 _ [125] (by omega)
    have hs2 : skipSpace (v ++ [125]) = v ++ [125] := by
      rw [← hv]
      exact skipSpace_cons _ (by decide)
    refine jsonUnmarshalEvent_bad_object lib _ _ _ _ h1 (skipSpace_cons _ (by decide))
      (by decide) ?_
    conv => lhs; arg 2; rw [hlen]
    rw [objectFields_cons _ _ _ _ _ _ (by decide)
      (by rw [List.cons_append, skipSpace_cons _ (by decide)]) (hval1 _),
      objectFields_bad_value _ _ _ _ (by decide) hs2 hval2]
    rfl
  simp [subscriptionLoop, hd]

/-- A payload of arrays nested exactly `maxNestingDepth` deep is valid JSON and
`json.Marshal` accepts it in the envelope, but the envelope is nested one
deeper and `json.Unmarshal` refuses it: the subscription loop logs a bad
payload and never calls `onMessage`. -/
theorem deepest_payload_not_delivered (lib : JsonStrings) :
    appendCompact (nestedArrays maxNestingDepth) = some (nestedArrays maxNestingDepth) ∧
    (jsonCodec lib).marshal ⟨demoText 1, nestedArrays maxNestingDepth⟩ =
      some (bytesToText (envelope [117] (nestedArrays maxNestingDepth))) ∧
    subscriptionLoop (jsonCodec lib)
      [bytesToText (envelope [117] (nestedArrays maxNestingDepth))] = [] :=
  nested_payload_at_limit lib 9999 rfl

/-! ## The round trip through the bus -/

/-- C20 (amended). Round trip. On a configured broker with a reachable bus, for a
user `u` whose text has only plain characters (as the text of a UUID has) and
a payload `p` of bytes that is valid JSON nested less than `maxNestingDepth`
deep, `c` being the compact form of `p`: `json.Marshal` accepts the event
and the message is the envelope with `user_id` the text of `u` and `payload`
the compact form `c`; after `SubscribeUser(u)`, `Publish(u, p)` returns nil
and delivers that message to the subscription; the message decodes to the
text of `u` and `c`, and the subscription loop that receives it calls
`onMessage` exactly once, with `c`. So the callback gets `p` itself exactly
when `p` is its own compact form. -/
theorem publish_subscribe_compact (text : WS.UUID → String) (lib : JsonStrings) (b : Broker)
    (bus : Bus) (u : WS.UUID) (p c : WS.Bytes)
    (hup : bus.up = true)
    (htext : ((text u).data.map Char.toNat).all htmlSafeByte = true)
    (hp : ∀ x ∈ p, x < 256)
    (hc : compactFrom true 1 p = some c) :
    appendCompact p = some c ∧
    (jsonCodec lib).marshal ⟨text u, p⟩ =
      some (bytesToText (envelope ((text u).data.map Char.toNat) c)) ∧
    (Broker.Publish text (jsonCodec lib) (some b) (Broker.SubscribeUser text (some b) bus u)
      u p).2 = none ∧
    (Broker.Publish text (jsonCodec lib) (some b) (Broker.SubscribeUser text (some b) bus u)
      u p).1.subs =
      (bus.publish (notifyChannel text u)
        (bytesToText (envelope ((text u).data.map Char.toNat) c))).1.subs ++
        [⟨notifyChannel text u, [bytesToText (envelope ((text u).data.map Char.toNat) c)]⟩] ∧
    (jsonCodec lib).unmarshal (bytesToText (envelope ((text u).data.map Char.toNat) c)) =
      some ⟨text u, c⟩ ∧
    subscriptionLoop (jsonCodec lib)
      [bytesToText (envelope ((text u).data.map Char.toNat) c)] = [c] ∧
    (subscriptionLoop (jsonCodec lib)
      [bytesToText (envelope ((text u).data.map Char.toNat) c)] = [p] ↔ c = p) := by
  obtain ⟨hm, hd⟩ := jsonCodec_roundtrip lib (text u) p c htext hp hc
  have hloop : subscriptionLoop (jsonCodec lib)
      [bytesToText (envelope ((text u).data.map Char.toNat) c)] = [c] := by
    simp [subscriptionLoop, hd]
  rw [Publish_eq text (jsonCodec lib) b _ u p _ hm]
  have h := publish_after_subscribe bus hup (notifyChannel text u) (notifyChannel text u)
    (bytesToText (envelope ((text u).data.map Char.toNat) c))
  refine ⟨compactFrom_depth_mono hc (Nat.zero_le _), hm, ?_, ?_, hd, hloop, ?_⟩
  · show (((bus.subscribe (notifyChannel text u)).publish (notifyChannel text u) _).2.map
      PublishErr.redis) = none
    rw [h.2]; rfl
  · show ((bus.subscribe (notifyChannel text u)).publish (notifyChannel text u) _).1.subs = _
    rw [h.1, if_pos rfl]
  · rw [hloop]
    simp

/-- Witness for C20: the payload `{ "a": 1 }` for user 1 on an empty bus reaches
the callback as `{"a":1}`, and the payload `{"a":1}` as it is. -/
theorem publish_subscribe_compact_witness :
    subscriptionLoop (jsonCodec demoJsonStrings)
      [bytesToText (envelope ((demoText 1).data.map Char.toNat) [123, 34, 97, 34, 58, 49, 125])] =
      [[123, 34, 97, 34, 58, 49, 125]] ∧
    (subscriptionLoop (jsonCodec demoJsonStrings)
      [bytesToText (envelope ((demoText 1).data.map Char.toNat) [123, 34, 97, 34, 58, 49, 125])] =
      [[123, 34, 97, 34, 58, 49, 125]] ↔
      ([123, 34, 97, 34, 58, 49, 125] : WS.Bytes) = [123, 34, 97, 34, 58, 49, 125]) :=
  ⟨(publish_subscribe_compact demoText demoJsonStrings ⟨⟨"localhost:6379"⟩⟩ ⟨[], true⟩ 1
      [123, 32, 34, 97, 34, 58, 32, 49, 32, 125] [123, 34, 97, 34, 58, 49, 125] rfl
      (by decide) (by decide) (by decide)).2.2.2.2.2.1,
    (publish_subscribe_compact demoText demoJsonStrings ⟨⟨"localhost:6379"⟩⟩ ⟨[], true⟩ 1
      [123, 34, 97, 34, 58, 49, 125] [123, 34, 97, 34, 58, 49, 125] rfl
      (by decide) (by decide) (by decide)).2.2.2.2.2.2⟩

/-- C20 as stated fails. The payload `{ "a": 1 }` is valid JSON and `Publish`
accepts it for user 1; the message delivered to the subscription of
user 1 carries `{"a":1}`, and the subscription loop calls `onMessage` with
`{"a":1}`, not with the payload that was published. -/
theorem roundtrip_changes_payload :
    checkValid [123, 32, 34, 97, 34, 58, 32, 49, 32, 125] = true ∧
    Broker.Publish demoText (jsonCodec demoJsonStrings) (some ⟨⟨"localhost:6379"⟩⟩)
      (Broker.SubscribeUser demoText (some ⟨⟨"localhost:6379"⟩⟩) ⟨[], true⟩ 1) 1
      [123, 32, 34, 97, 34, 58, 32, 49, 32, 125] =
      (⟨[⟨notifyChannel demoText 1,
          [bytesToText (envelope [117] [123, 34, 97, 34, 58, 49, 125])]⟩], true⟩, none) ∧
    subscriptionLoop (jsonCodec demoJsonStrings)
      [bytesToText (envelope [117] [123, 34, 97, 34, 58, 49, 125])] =
      [[123, 34, 97, 34, 58, 49, 125]] ∧
    subscriptionLoop (jsonCodec demoJsonStrings)
      [bytesToText (envelope [117] [123, 34, 97, 34, 58, 49, 125])] ≠
      [[123, 32, 34, 97, 34, 58, 32, 49, 32, 125]] := by
  decide

end InfraRedis
